import Mathlib

/-!
# CustomLexer: the pattern-set matcher (`switch.hpp`), the scan loop (`lexer.hpp`) and the UTF-8 decoder (`utf8.hpp`)

A shallow embedding of `dark::detail::Switch`, `dark::Lexer` and
`dark::detail::utf8`, followed by the properties of longest-prefix matching, of
the token stream and of the decoder.

Modelling conventions.
* A byte string (`std::string_view`) is a `List Nat` of byte values `0..255`.
  Whether `char` is signed is a parameter `char_is_signed` of every function
  that converts a `char`: `char_to_size` is `static_cast<std::size_t>(c)` and
  `char_to_char32` is `static_cast<char32_t>(c)`.
* Every array access is checked.  A function whose behaviour is undefined
  because it reads outside an array returns `none`; for the constants of a
  `Switch` (`index_mapping`, `max_extent`, `map`), which are constant
  expressions, `none` means that the class does not build.
* `std::size_t` values (table sizes, flat coordinates, `end`) are natural
  numbers, taken to fit their 64 bits.  The `unsigned` values `m_cursor`,
  `line`, `line_start_pos`, `start` and `col` are kept below `2 ^ 32` by
  `to_unsigned`, `unsigned_add` and `unsigned_sub`.  The one narrowing store
  into a table, `static_cast<unsigned char>(index++)`, is `% 256`.
* The small arrays (`index_mapping`, `stride`) are lists; the flat table is a
  `FlatArray`, a size with a cell function.
* The sentinel `npos` is `none` and an index is `some k`: a table cell and
  `found_index` are `Option Nat`.
* `lex` returns `none` when an iteration is undefined or the loop does not
  end; otherwise the tokens and the lexer it leaves behind.
* The lexems of a `Switch` are a list of `(literal bytes, tag)` pairs in
  declaration order.
-/

namespace dark

namespace detail

/-- The lexems of a `Switch`: `(literal, tag)` pairs in declaration order
(`switch.hpp:59`). -/
abbrev Lexems (K : Type) := List (List Nat × K)

/-- The sentinel `npos = std::numeric_limits<std::size_t>::max()`
(`switch.hpp:95`), the value that is no index. -/
def npos : Option Nat := none

/-- The conversion `static_cast<std::size_t>(c)` of a `char` holding the byte `b`
(`switch.hpp:68`, `86`).  Where `char` is signed the bytes from `0x80` are the
negative values `b - 256`, which convert modulo `2 ^ 64`. -/
def char_to_size (char_is_signed : Bool) (b : Nat) : Nat :=
  if char_is_signed = true ∧ 128 ≤ b then 2 ^ 64 - 256 + b else b

/-- Body of the inner loop of `index_mapping` (`switch.hpp:67-71`): the state is
`(temp, index)`; with `idx = static_cast<size_t>(c)`, a byte whose entry
`temp[idx]` is still `0` receives `static_cast<unsigned char>(index++)`.
`none` when `idx` is outside `temp`: the initialiser is then no constant
expression and the class does not build. -/
def index_mapping_step (char_is_signed : Bool) (st : List Nat × Nat) (c : Nat) :
    Option (List Nat × Nat) :=
  let idx := char_to_size char_is_signed c
  match st.1[idx]? with
  | none => none
  | some v => if v = 0 then some (st.1.set idx (st.2 % 256), st.2 + 1) else some st

/-- The inner loop of `index_mapping` over the bytes of one literal
(`switch.hpp:67-71`). -/
def index_mapping_lexem {K : Type} (char_is_signed : Bool) (st : List Nat × Nat)
    (el : List Nat × K) : Option (List Nat × Nat) :=
  el.1.foldlM (index_mapping_step char_is_signed) st

/-- Both loops of `index_mapping` (`switch.hpp:64-72`), from the zero-filled
array of 256 entries and `index = 1`. -/
def index_mapping_loop {K : Type} (char_is_signed : Bool) (lexems : Lexems K) :
    Option (List Nat × Nat) :=
  lexems.foldlM (index_mapping_lexem char_is_signed) (List.replicate 256 0, 1)

/-- The alphabet map `index_mapping` (`switch.hpp:60-75`); `none` when it does
not build. -/
def index_mapping {K : Type} (char_is_signed : Bool) (lexems : Lexems K) : Option (List Nat) :=
  (index_mapping_loop char_is_signed lexems).map Prod.fst

/-- The longest literal: `max_len = std::max({L0.size(), Ls.size()...})`
(`switch.hpp:77`). -/
def max_len {K : Type} (lexems : Lexems K) : Nat :=
  lexems.foldl (fun m el => max m el.1.length) 0

/-- The arity `max_extent` (`switch.hpp:78-83`): the number of non-zero entries
of `index_mapping`, plus one. -/
def max_extent {K : Type} (char_is_signed : Bool) (lexems : Lexems K) : Option Nat :=
  (index_mapping char_is_signed lexems).map fun m =>
    max 0 (m.foldl (fun acc i => acc + (if 0 < i then 1 else 0)) 0) + 1

/-- The lookup `get_char_index` (`switch.hpp:85-87`):
`index_mapping[static_cast<std::size_t>(index)]`; `none` when the index is not
one of the 256 entries. -/
def get_char_index {K : Type} (char_is_signed : Bool) (lexems : Lexems K) (index : Nat) :
    Option Nat :=
  match index_mapping char_is_signed lexems with
  | none => none
  | some m => m[char_to_size char_is_signed index]?

/-- The flat table `std::array<std::size_t, N>`: its number of cells and the
content of each cell.  Reads go through `FlatArray.get`, which looks at cells
below `size` only. -/
structure FlatArray where
  /-- the number of cells `N` -/
  size : Nat
  /-- the content of cell `i` -/
  cell : Nat → Option Nat

/-- The filled array: `std::fill(res.data.begin(), res.data.end(), v)`. -/
def FlatArray.fill (size : Nat) (v : Option Nat) : FlatArray :=
  { size := size, cell := fun _ => v }

/-- The store `a[i] = v`. -/
def FlatArray.set (a : FlatArray) (i : Nat) (v : Option Nat) : FlatArray :=
  { size := a.size, cell := fun j => if j = i then v else a.cell j }

/-- The read `a[i]` of a cell below `size`; the callers check the index. -/
def FlatArray.get (a : FlatArray) (i : Nat) : Option Nat :=
  if i < a.size then a.cell i else npos

/-- The table and its strides: `ArrayWrapper` (`switch.hpp:89-92`). -/
structure ArrayWrapper where
  /-- the flat table -/
  data : FlatArray
  /-- the stride vector, `max_len` entries -/
  stride : List Nat

/-- The stride vector as first initialised, `std::array<std::size_t, max_len>
stride{1}` (`switch.hpp:99`): a one followed by zeros. -/
def stride_init (n : Nat) : List Nat :=
  (List.replicate n 0).set 0 1

/-- The stride loop (`switch.hpp:108-110`):
`stride[i] = stride[i - 1] * max_extent` for `i = 1 .. max_len - 1`. -/
def stride_loop (extent n : Nat) : List Nat :=
  (List.range' 1 (n - 1)).foldl
    (fun stride i => stride.set i (stride.getD (i - 1) 0 * extent)) (stride_init n)

/-- The table size (`switch.hpp:100-106`): `size *= max_extent`, `max_len`
times, from `1`. -/
def table_size (extent n : Nat) : Nat :=
  (List.range n).foldl (fun size _ => size * extent) 1

/-- Body of the inner loop of `make_nd_map` (`switch.hpp:118-121`):
`auto j = get_char_index(c); idx += stride[i++] * j;` on the state `(idx, i)`.
`none` when a read is outside its array. -/
def lexem_index_step {K : Type} (char_is_signed : Bool) (lexems : Lexems K) (stride : List Nat)
    (st : Nat × Nat) (c : Nat) : Option (Nat × Nat) :=
  match get_char_index char_is_signed lexems c, stride[st.2]? with
  | some j, some sv => some (st.1 + sv * j, st.2 + 1)
  | _, _ => none

/-- The flat coordinate of one literal (`switch.hpp:117-121`): the inner loop
over its bytes, from `idx = 0`, `i = 0`. -/
def lexem_index {K : Type} (char_is_signed : Bool) (lexems : Lexems K) (stride : List Nat)
    (el : List Nat) : Option Nat :=
  (el.foldlM (lexem_index_step char_is_signed lexems stride) (0, 0)).map Prod.fst

/-- Body of the outer loop of `make_nd_map` (`switch.hpp:116-124`) on the state
`(res.data, k)`: `res.data[idx] = k++` at the flat coordinate of the literal.
`none` when an access is outside its array. -/
def make_nd_map_step {K : Type} (char_is_signed : Bool) (lexems : Lexems K) (stride : List Nat)
    (st : FlatArray × Nat) (el : List Nat × K) : Option (FlatArray × Nat) :=
  match lexem_index char_is_signed lexems stride el.1 with
  | none => none
  | some idx => if idx < st.1.size then some (st.1.set idx (some st.2), st.2 + 1) else none

/-- The table builder `make_nd_map` (`switch.hpp:98-127`): every cell is
`npos`, then the lexem of list index `k` stores `k` at its flat coordinate.
`none` when an access is outside its array: the class does not build. -/
def make_nd_map {K : Type} (char_is_signed : Bool) (lexems : Lexems K) : Option ArrayWrapper :=
  match max_extent char_is_signed lexems with
  | none => none
  | some extent =>
    let stride := stride_loop extent (max_len lexems)
    let size := table_size extent (max_len lexems)
    (lexems.foldlM (make_nd_map_step char_is_signed lexems stride)
      (FlatArray.fill size npos, 0)).map
      fun (r : FlatArray × Nat) => { data := r.1, stride := stride }

/-- The scan loop of `Switch::match` (`switch.hpp:158-163`) over the bytes still
to read, with the loop variables `i`, `idx` and `found_index`.  The outer
`none` is undefined behaviour: a read outside `index_mapping`, `map.stride` or
`map.data`. -/
def match_loop {K : Type} (char_is_signed : Bool) (lexems : Lexems K) ( map : ArrayWrapper) :
    List Nat → Nat → Nat → Option Nat → Option (Option Nat)
  | [], _, _, found_index => some found_index
  | ch :: rest, i, idx, found_index =>
    match get_char_index char_is_signed lexems ch, map.stride[i]? with
    | some c, some sv =>
      let idx := idx + sv * c
      if idx < map.data.size then
        let temp := map.data.get idx
        match_loop char_is_signed lexems map rest (i + 1) idx
          (if temp ≠ npos then temp else found_index)
      else none
    | _, _ => none

/-- The longest-match lookup `Switch::match(std::string_view)`
(`switch.hpp:151-166`): `some npos`, `some (some k)`, or `none` when the
behaviour is undefined. -/
def Switch.match {K : Type} (char_is_signed : Bool) (lexems : Lexems K) (s : List Nat) :
    Option (Option Nat) :=
  match make_nd_map char_is_signed lexems with
  | none => none
  | some map =>
    let size := min (max_len lexems) s.length
    match_loop char_is_signed lexems map (s.take size) 0 0 npos

/-- The one-byte lookup `Switch::match(char)` (`switch.hpp:168-171`):
`map.data[map.stride[0] * get_char_index(c)]`. -/
def Switch.match_char {K : Type} (char_is_signed : Bool) (lexems : Lexems K) (c : Nat) :
    Option (Option Nat) :=
  match make_nd_map char_is_signed lexems with
  | none => none
  | some map =>
    match get_char_index char_is_signed lexems c, map.stride[0]? with
    | some j, some sv =>
      let idx := sv * j
      if idx < map.data.size then some (map.data.get idx) else none
    | _, _ => none

/-- The accessor `str_from_index` (`switch.hpp:173`); `none` when the index is
not one of `lexems`. -/
def Switch.str_from_index {K : Type} (lexems : Lexems K) (index : Nat) : Option (List Nat) :=
  lexems[index]?.map Prod.fst

/-- The accessor `token_from_index` (`switch.hpp:174`); `none` when the index is
not one of `lexems`. -/
def Switch.token_from_index {K : Type} (lexems : Lexems K) (index : Nat) : Option K :=
  lexems[index]?.map Prod.snd

end detail

/-- The token kinds of the default configuration, `DefaultTokenKind`
(`lexer.hpp:11-59`). -/
inductive DefaultTokenKind where
  | Comma | Colon | Dot | OpenParen | CloseParen | OpenSquare | CloseSqaure
  | OpenCurly | CloseCurly | Equal
  | Plus | Minus | ForwardSlash | Star | LessThanLessThan | LessTham
  | GreaterThan | GreaterThanGreaterThan | ThinArrow | Tilde | And | AndAnd
  | Or | OrOr | Caret | Percentage | ExclamationMark | EqualEqual | Not
  | NotEqual | QuestionMark
  | Identifier | Number | Whitespace | Unknown | Eof
deriving DecidableEq, Repr

/-- The record `Token` (`lexer.hpp:162-170`); `start`, `line` and `col` are
`unsigned`, values below `2 ^ 32`. -/
structure Token (K : Type) where
  /-- the tag -/
  kind : K
  /-- the matched bytes -/
  text : List Nat
  /-- the offset of the first byte -/
  start : Nat
  /-- the line counter -/
  line : Nat
  /-- the column -/
  col : Nat
deriving DecidableEq, Repr

/-- The identifier hooks of a configuration (`detail::has_identifier`,
`lexer.hpp:146-150`) with the tag `kind_t::Identifier` their branch emits. -/
structure IdentifierHooks (K : Type) where
  /-- the start predicate -/
  is_valid_identifier_start : List Nat → Bool
  /-- the continuation predicate -/
  is_valid_identifier : List Nat → Bool
  /-- the tag `kind_t::Identifier` -/
  Identifier : K

/-- The number hooks of a configuration (`detail::has_numbers`,
`lexer.hpp:152-156`) with the tag `kind_t::Number` their branch emits. -/
structure NumberHooks (K : Type) where
  /-- the digit predicate -/
  is_digit : List Nat → Bool
  /-- the run parser -/
  parse_number : List Nat → List Nat
  /-- the tag `kind_t::Number` -/
  Number : K

/-- A lexer configuration (`detail::LexerConfig`, `lexer.hpp:125-158`): each
category is present or absent; `kind_t::Unknown` and `kind_t::Eof` are always
used. -/
structure LexerConfig (K : Type) where
  /-- the pattern set `Config::whitespace`, when declared -/
  whitespace : Option (detail.Lexems K)
  /-- the pattern set `Config::punctuations`, when declared -/
  punctuations : Option (detail.Lexems K)
  /-- the pattern set `Config::operators`, when declared -/
  operators : Option (detail.Lexems K)
  /-- the identifier hooks, when declared -/
  identifier : Option (IdentifierHooks K)
  /-- the number hooks, when declared -/
  numbers : Option (NumberHooks K)
  /-- the tag `kind_t::Unknown` -/
  Unknown : K
  /-- the tag `kind_t::Eof` -/
  Eof : K

namespace DefaultLexerConfig

open DefaultTokenKind

/-- The pattern set `DefaultLexerConfig::punctuations` (`lexer.hpp:64-74`). -/
def punctuations : detail.Lexems DefaultTokenKind :=
  [([44], Comma), ([59], Colon), ([46], Dot), ([40], OpenParen), ([41], CloseParen),
   ([91], OpenSquare), ([93], CloseSqaure), ([123], OpenCurly), ([125], CloseCurly),
   ([61], Equal)]

/-- The pattern set `DefaultLexerConfig::operators` (`lexer.hpp:76-96`). -/
def operators : detail.Lexems DefaultTokenKind :=
  [([43], Plus), ([45], Minus), ([47], ForwardSlash), ([42], Star),
   ([62, 62], GreaterThanGreaterThan), ([62], GreaterThan), ([60], LessTham),
   ([60, 60], LessThanLessThan), ([45, 62], ThinArrow), ([126], Tilde), ([38], And),
   ([38, 38], AndAnd), ([124], Or), ([124, 124], OrOr), ([94], Caret), ([37], Percentage),
   ([33], ExclamationMark), ([61, 61], EqualEqual), ([33, 61], NotEqual),
   ([63], QuestionMark)]

/-- The pattern set `DefaultLexerConfig::whitespace` (`lexer.hpp:97-101`). -/
def whitespace : detail.Lexems DefaultTokenKind :=
  [([32], Whitespace), ([10], Whitespace), ([13], Whitespace)]

/-- The predicate `is_valid_identifier_start` (`lexer.hpp:102-105`) on the first
byte `f = s[0]`; it is only called on a non-empty view. -/
def is_valid_identifier_start (s : List Nat) : Bool :=
  match s with
  | [] => false
  | f :: _ => f == 95 || f == 36 || (97 ≤ f && f ≤ 122) || (65 ≤ f && f ≤ 90)

/-- The predicate `is_valid_identifier` (`lexer.hpp:107-110`): the start
predicate, or `s[0] >= 0 && s[0] <= 9` on the raw byte. -/
def is_valid_identifier (s : List Nat) : Bool :=
  if is_valid_identifier_start s then true
  else match s with
    | [] => false
    | c :: _ => 0 ≤ c && c ≤ 9

/-- The predicate `is_digit` (`lexer.hpp:112-114`):
`s[0] >= '0' && s[0] <= '9'`. -/
def is_digit (s : List Nat) : Bool :=
  match s with
  | [] => false
  | c :: _ => 48 ≤ c && c ≤ 57

/-- The loop of `parse_number` (`lexer.hpp:117-120`) over the view
`s.substr(cursor)`, with the loop variable `cursor`. -/
def parse_number_loop : List Nat → Nat → Nat
  | [], cursor => cursor
  | c :: rest, cursor =>
    if is_digit (c :: rest) || c == 46 then parse_number_loop rest (cursor + 1) else cursor

/-- The run parser `parse_number` (`lexer.hpp:116-122`). -/
def parse_number (s : List Nat) : List Nat :=
  s.take (parse_number_loop s 0)

end DefaultLexerConfig

/-- The default configuration `DefaultLexerConfig` (`lexer.hpp:61-123`). -/
def DefaultLexerConfig : LexerConfig DefaultTokenKind where
  whitespace := some DefaultLexerConfig.whitespace
  punctuations := some DefaultLexerConfig.punctuations
  operators := some DefaultLexerConfig.operators
  identifier := some
    { is_valid_identifier_start := DefaultLexerConfig.is_valid_identifier_start
      is_valid_identifier := DefaultLexerConfig.is_valid_identifier
      Identifier := DefaultTokenKind.Identifier }
  numbers := some
    { is_digit := DefaultLexerConfig.is_digit
      parse_number := DefaultLexerConfig.parse_number
      Number := DefaultTokenKind.Number }
  Unknown := DefaultTokenKind.Unknown
  Eof := DefaultTokenKind.Eof

/-- The lexer object (`lexer.hpp:306-308`): its members `m_cursor`, an
`unsigned` (a value below `2 ^ 32`), and `m_source`. -/
structure Lexer where
  /-- the offset of the next byte to read -/
  m_cursor : Nat
  /-- the input -/
  m_source : List Nat
deriving DecidableEq, Repr

/-- The constructor `Lexer(std::string_view source)` (`lexer.hpp:174-176`):
`m_cursor{0}`. -/
def Lexer.new (source : List Nat) : Lexer :=
  { m_cursor := 0, m_source := source }

/-- What one branch of the scan loop does. -/
inductive Branch (K : Type) where
  /-- the category is absent or does not claim the position -/
  | pass : Branch K
  /-- the branch pushes a token and moves `m_cursor` -/
  | emit : Token K → Nat → Branch K
  /-- the behaviour of the branch is undefined: `match` reads outside an array,
  or the branch indexes `lexems` outside its range -/
  | undefined : Branch K

/-- The conversion `static_cast<unsigned>(n)` of a `std::size_t`
(`lexer.hpp:201`, `263`, `279`). -/
def to_unsigned (n : Nat) : Nat := n % 2 ^ 32

/-- The sum of two `unsigned` values, as in `m_cursor += size`
(`lexer.hpp:209`) and `++line` (`lexer.hpp:193`). -/
def unsigned_add (a b : Nat) : Nat := (a + b) % 2 ^ 32

/-- The difference of two `unsigned` values, as in
`m_cursor - line_start_pos` (`lexer.hpp:207`). -/
def unsigned_sub (a b : Nat) : Nat := (a + (2 ^ 32 - b % 2 ^ 32)) % 2 ^ 32

/-- A pattern-set branch of the scan loop (`lexer.hpp:196-212`, `213-229`,
`230-246`). -/
def switch_branch {K : Type} (char_is_signed : Bool) (set : Option (detail.Lexems K))
    (source : List Nat) (m_cursor line line_start_pos : Nat) : Branch K :=
  match set with
  | none => Branch.pass
  | some lexems =>
    match detail.Switch.match char_is_signed lexems source with
    | none => Branch.undefined
    | some none => Branch.pass
    | some (some id) =>
      match detail.Switch.str_from_index lexems id, detail.Switch.token_from_index lexems id with
      | some text, some kind =>
        Branch.emit
          { kind := kind, text := text, start := m_cursor, line := line,
            col := unsigned_sub m_cursor line_start_pos }
          (unsigned_add m_cursor (to_unsigned text.length))
      | _, _ => Branch.undefined

/-- The inner loop of the identifier branch (`lexer.hpp:249-252`) over the view
`source.substr(end)`, with the loop variable `end`. -/
def identifier_loop (is_valid_identifier : List Nat → Bool) : List Nat → Nat → Nat
  | [], e => e
  | c :: rest, e =>
    if is_valid_identifier (c :: rest) then identifier_loop is_valid_identifier rest (e + 1)
    else e

/-- The identifier branch (`lexer.hpp:247-266`). -/
def identifier_branch {K : Type} (hooks : Option (IdentifierHooks K)) (source : List Nat)
    (m_cursor line line_start_pos : Nat) : Branch K :=
  match hooks with
  | none => Branch.pass
  | some h =>
    if h.is_valid_identifier_start source then
      let e := identifier_loop h.is_valid_identifier source 0
      let text := source.take e
      Branch.emit
        { kind := h.Identifier, text := text, start := m_cursor, line := line,
          col := unsigned_sub m_cursor line_start_pos }
        (unsigned_add m_cursor (to_unsigned e))
    else Branch.pass

/-- The number branch (`lexer.hpp:267-282`). -/
def number_branch {K : Type} (hooks : Option (NumberHooks K)) (source : List Nat)
    (m_cursor line line_start_pos : Nat) : Branch K :=
  match hooks with
  | none => Branch.pass
  | some h =>
    if h.is_digit source then
      let text := h.parse_number source
      Branch.emit
        { kind := h.Number, text := text, start := m_cursor, line := line,
          col := unsigned_sub m_cursor line_start_pos }
        (unsigned_add m_cursor (to_unsigned text.length))
    else Branch.pass

/-- The fallback (`lexer.hpp:284-291`): one byte, tagged `Unknown`. -/
def fallback_branch {K : Type} (cfg : LexerConfig K) (source : List Nat)
    (m_cursor line line_start_pos : Nat) : Branch K :=
  Branch.emit
    { kind := cfg.Unknown, text := source.take 1, start := m_cursor, line := line,
      col := unsigned_sub m_cursor line_start_pos }
    (unsigned_add m_cursor 1)

/-- The first of two branches that does not pass. -/
def Branch.orElse {K : Type} (b : Branch K) (next : Branch K) : Branch K :=
  match b with
  | Branch.pass => next
  | r => r

/-- The priority chain of one iteration (`lexer.hpp:196-292`) on the view
`source = m_source.substr(m_cursor)`, after the line bookkeeping. -/
def lex_branches {K : Type} (char_is_signed : Bool) (cfg : LexerConfig K) (source : List Nat)
    (m_cursor line line_start_pos : Nat) : Branch K :=
  (switch_branch char_is_signed cfg.whitespace source m_cursor line line_start_pos).orElse <|
  (switch_branch char_is_signed cfg.punctuations source m_cursor line line_start_pos).orElse <|
  (switch_branch char_is_signed cfg.operators source m_cursor line line_start_pos).orElse <|
  (identifier_branch cfg.identifier source m_cursor line line_start_pos).orElse <|
  (number_branch cfg.numbers source m_cursor line line_start_pos).orElse <|
  fallback_branch cfg source m_cursor line line_start_pos

/-- The state of the scan loop: the member `m_cursor`, the locals `line` and
`line_start_pos`, all three `unsigned`, and the vector `tokens`. -/
structure LoopState (K : Type) where
  /-- the member `m_cursor` -/
  m_cursor : Nat
  /-- the local `line` -/
  line : Nat
  /-- the local `line_start_pos` -/
  line_start_pos : Nat
  /-- the vector `tokens` -/
  tokens : List (Token K)

/-- One iteration of the scan loop (`lexer.hpp:191-292`), entered with
`m_cursor < m_source.size()`; `none` when a branch is undefined. -/
def lex_iteration {K : Type} (char_is_signed : Bool) (cfg : LexerConfig K)
    (m_source : List Nat) (st : LoopState K) : Option (LoopState K) :=
  let source := m_source.drop st.m_cursor
  let line := if source.head? = some 10 then unsigned_add st.line 1 else st.line
  let line_start_pos := if source.head? = some 10 then st.m_cursor else st.line_start_pos
  match lex_branches char_is_signed cfg source st.m_cursor line line_start_pos with
  | Branch.emit t cursor =>
    some { m_cursor := cursor, line := line, line_start_pos := line_start_pos,
           tokens := st.tokens ++ [t] }
  | _ => none

/-- The scan loop `while (m_cursor < m_source.size())` (`lexer.hpp:190-293`),
run for at most `fuel` iterations; `none` when the fuel runs out before the
loop ends or an iteration is undefined.  The comparison is made in
`std::size_t`, so a cursor below `2 ^ 32` never reaches the size of a source of
`2 ^ 32` bytes or more. -/
def lex_loop {K : Type} (char_is_signed : Bool) (cfg : LexerConfig K) (m_source : List Nat) :
    Nat → LoopState K → Option (LoopState K)
  | fuel, st =>
    if st.m_cursor < m_source.length then
      match fuel with
      | 0 => none
      | fuel + 1 =>
        match lex_iteration char_is_signed cfg m_source st with
        | none => none
        | some st => lex_loop char_is_signed cfg m_source fuel st
    else some st

/-- The method `Lexer::lex` (`lexer.hpp:184-304`): the scan loop from the
current `m_cursor` with `line = 0`, `line_start_pos = 0` and no tokens, then
the `Eof` token.  `none` when an iteration is undefined or the loop does not
end: the cursor after an iteration is a function of the cursor before it, so
a loop that ends enters with each cursor value once and takes at most
`m_source.size()` iterations (`lex_loop_ends_iff`). -/
def Lexer.lex {K : Type} (char_is_signed : Bool) (cfg : LexerConfig K) (self : Lexer) :
    Option (List (Token K) × Lexer) :=
  match lex_loop char_is_signed cfg self.m_source self.m_source.length
      { m_cursor := self.m_cursor, line := 0, line_start_pos := 0, tokens := [] } with
  | none => none
  | some st =>
    some (st.tokens ++
        [{ kind := cfg.Eof, text := [], start := st.m_cursor, line := st.line,
           col := unsigned_sub st.m_cursor st.line_start_pos }],
      { self with m_cursor := st.m_cursor })

end dark

namespace example_2

/-- The token kinds of `examples/example_2.cpp` (`example_2.cpp:4-12`). -/
inductive TokenKind where
  | EscapeSequence | Colon | SemiColon | EndCharacter | Number | Unknown | Eof
deriving DecidableEq, Repr

/-- The pattern set `LexerConfig::punctuations` (`example_2.cpp:17-24`); the
first literal is the five characters backslash, `x`, `1`, `b`, `[`. -/
def punctuations : dark.detail.Lexems TokenKind :=
  [([92, 120, 49, 98, 91], TokenKind.EscapeSequence),
   ([50, 55, 91], TokenKind.EscapeSequence),
   ([92, 48, 51, 51, 91], TokenKind.EscapeSequence),
   ([58], TokenKind.Colon), ([59], TokenKind.SemiColon), ([109], TokenKind.EndCharacter)]

/-- The predicate `LexerConfig::is_digit` (`example_2.cpp:26-28`). -/
def is_digit (s : List Nat) : Bool :=
  dark.DefaultLexerConfig.is_digit s

/-- The loop of `LexerConfig::parse_number` (`example_2.cpp:31`) over the view
`s.substr(c)`, with the loop variable `c`. -/
def parse_number_loop : List Nat → Nat → Nat
  | [], c => c
  | ch :: rest, c => if is_digit (ch :: rest) then parse_number_loop rest (c + 1) else c

/-- The run parser `LexerConfig::parse_number` (`example_2.cpp:29-34`). -/
def parse_number (s : List Nat) : List Nat :=
  s.take (parse_number_loop s 0)

/-- The configuration `LexerConfig` of the example (`example_2.cpp:14-35`):
punctuations and number hooks only. -/
def LexerConfig : dark.LexerConfig TokenKind where
  whitespace := none
  punctuations := some punctuations
  operators := none
  identifier := none
  numbers := some
    { is_digit := is_digit, parse_number := parse_number, Number := TokenKind.Number }
  Unknown := TokenKind.Unknown
  Eof := TokenKind.Eof

/-- The input of the example (`example_2.cpp:52`), the ten characters
backslash, `x`, `1`, `b`, `[`, `1`, `;`, `3`, `1`, `m`. -/
def source : List Nat := [92, 120, 49, 98, 91, 49, 59, 51, 49, 109]

end example_2

namespace dark.detail.utf8

/-- The table `lookup` (`utf8.hpp:9-12`): the length of an encoding by the high
nibble of its first byte. -/
def lookup : List Nat := [1, 1, 1, 1, 1, 1, 1, 1, 1, 1, 1, 1, 2, 2, 3, 4]

/-- The function `get_length` (`utf8.hpp:14-17`): `lookup[byte >> 4]` for
`byte = static_cast<std::uint8_t>(c)`. -/
def get_length (c : Nat) : Nat :=
  lookup.getD ((c % 256) >>> 4) 0

/-- The conversion `static_cast<char32_t>(c)` of a `char` holding the byte `b`
(`utf8.hpp:24`, `35`).  Where `char` is signed the bytes from `0x80` are the
negative values `b - 256`, which convert modulo `2 ^ 32`. -/
def char_to_char32 (char_is_signed : Bool) (b : Nat) : Nat :=
  if char_is_signed = true ∧ 128 ≤ b then 2 ^ 32 - 256 + b else b

/-- The decoder `to_utf32` (`utf8.hpp:20-41`): the code point and the number of
bytes read.  `s[i]` is `s.getD i 0`; a `char32_t` holds 32 bits. -/
def to_utf32 (char_is_signed : Bool) (s : List Nat) : Nat × Nat :=
  match s with
  | [] => (0, 0)
  | c0 :: _ =>
    let size := get_length c0
    let codepoint := char_to_char32 char_is_signed c0
    let codepoint :=
      match size with
      | 1 => codepoint
      | 2 => codepoint &&& 0x1f
      | 3 => codepoint &&& 0x0f
      | 4 => codepoint &&& 0x07
      | _ => codepoint
    let codepoint := (List.range' 1 (size - 1)).foldl
      (fun cp i =>
        ((cp <<< 6) % 2 ^ 32) ||| (char_to_char32 char_is_signed (s.getD i 0) &&& 0x3f))
      codepoint
    (codepoint, size)

/-- The standard UTF-8 encoding of a code point up to `0x10FFFF`, by the bit
layout of RFC 3629: one byte `0xxxxxxx`, two bytes `110xxxxx 10xxxxxx`, three
bytes `1110xxxx 10xxxxxx 10xxxxxx`, four bytes `11110xxx 10xxxxxx 10xxxxxx
10xxxxxx`. -/
def utf8_encode (cp : Nat) : List Nat :=
  if cp < 0x80 then [cp]
  else if cp < 0x800 then [0xC0 ||| (cp >>> 6), 0x80 ||| (cp &&& 0x3f)]
  else if cp < 0x10000 then
    [0xE0 ||| (cp >>> 12), 0x80 ||| ((cp >>> 6) &&& 0x3f), 0x80 ||| (cp &&& 0x3f)]
  else
    [0xF0 ||| (cp >>> 18), 0x80 ||| ((cp >>> 12) &&& 0x3f), 0x80 ||| ((cp >>> 6) &&& 0x3f),
     0x80 ||| (cp &&& 0x3f)]

end dark.detail.utf8

/-! ## The abstract model

The same tables, matcher and scan loop over byte values and natural-number
offsets: a byte indexes the alphabet map at its value, no access is checked
and no offset wraps.  The lemmas are proved of this model; the refinement
lemmas (`match_refines`, `lex_refines`) carry them over to the code above for
patterns and inputs whose bytes convert to an index of `index_mapping` and for
sources shorter than `2 ^ 32` bytes. -/

namespace dark

namespace detail

/-- Abstract form of `index_mapping_step`: the entry is looked up at the byte
value. -/
def index_mapping_step_abs (st : List Nat × Nat) (c : Nat) : List Nat × Nat :=
  if st.1.getD c 0 = 0 then (st.1.set c (st.2 % 256), st.2 + 1) else st

/-- Abstract form of `index_mapping_loop`. -/
def index_mapping_loop_abs {K : Type} (lexems : Lexems K) : List Nat × Nat :=
  lexems.foldl (fun st el => el.1.foldl index_mapping_step_abs st) (List.replicate 256 0, 1)

/-- Abstract form of `index_mapping`. -/
def index_mapping_abs {K : Type} (lexems : Lexems K) : List Nat :=
  (index_mapping_loop_abs lexems).1

/-- Abstract form of `max_extent`. -/
def max_extent_abs {K : Type} (lexems : Lexems K) : Nat :=
  max 0 ((index_mapping_abs lexems).foldl (fun acc i => acc + (if 0 < i then 1 else 0)) 0) + 1

/-- Abstract form of `get_char_index`: the entry at the byte value, `0` for a
value that is no byte. -/
def get_char_index_abs {K : Type} (lexems : Lexems K) (index : Nat) : Nat :=
  (index_mapping_abs lexems).getD index 0

/-- Abstract form of `lexem_index`. -/
def lexem_index_abs {K : Type} (lexems : Lexems K) (stride : List Nat) (el : List Nat) : Nat :=
  (el.foldl (fun st c => (st.1 + stride.getD st.2 0 * get_char_index_abs lexems c, st.2 + 1))
    (0, 0)).1

/-- Abstract form of `make_nd_map`. -/
def make_nd_map_abs {K : Type} (lexems : Lexems K) : ArrayWrapper :=
  let stride := stride_loop (max_extent_abs lexems) (max_len lexems)
  let size := table_size (max_extent_abs lexems) (max_len lexems)
  let data := (lexems.foldl
    (fun st el => (st.1.set (lexem_index_abs lexems stride el.1) (some st.2), st.2 + 1))
    (FlatArray.fill size npos, 0)).1
  { data := data, stride := stride }

/-- Abstract form of `match_loop`. -/
def match_loop_abs {K : Type} (lexems : Lexems K) ( map : ArrayWrapper) :
    List Nat → Nat → Nat → Option Nat → Option Nat
  | [], _, _, found_index => found_index
  | ch :: rest, i, idx, found_index =>
    let c := get_char_index_abs lexems ch
    let idx := idx + map.stride.getD i 0 * c
    let temp := map.data.get idx
    match_loop_abs lexems map rest (i + 1) idx (if temp ≠ npos then temp else found_index)

/-- Abstract form of `Switch.match`. -/
def Switch.match_abs {K : Type} (lexems : Lexems K) (s : List Nat) : Option Nat :=
  let size := min (max_len lexems) s.length
  match_loop_abs lexems (make_nd_map_abs lexems) (s.take size) 0 0 npos

end detail

/-- Abstract form of `switch_branch`. -/
def switch_branch_abs {K : Type} (set : Option (detail.Lexems K)) (source : List Nat)
    (m_cursor line line_start_pos : Nat) : Branch K :=
  match set with
  | none => Branch.pass
  | some lexems =>
    match detail.Switch.match_abs lexems source with
    | some id =>
      match detail.Switch.str_from_index lexems id, detail.Switch.token_from_index lexems id with
      | some text, some kind =>
        Branch.emit
          { kind := kind, text := text, start := m_cursor, line := line,
            col := m_cursor - line_start_pos }
          (m_cursor + text.length)
      | _, _ => Branch.undefined
    | none => Branch.pass

/-- Abstract form of `identifier_branch`. -/
def identifier_branch_abs {K : Type} (hooks : Option (IdentifierHooks K)) (source : List Nat)
    (m_cursor line line_start_pos : Nat) : Branch K :=
  match hooks with
  | none => Branch.pass
  | some h =>
    if h.is_valid_identifier_start source then
      let e := identifier_loop h.is_valid_identifier source 0
      let text := source.take e
      Branch.emit
        { kind := h.Identifier, text := text, start := m_cursor, line := line,
          col := m_cursor - line_start_pos }
        (m_cursor + e)
    else Branch.pass

/-- Abstract form of `number_branch`. -/
def number_branch_abs {K : Type} (hooks : Option (NumberHooks K)) (source : List Nat)
    (m_cursor line line_start_pos : Nat) : Branch K :=
  match hooks with
  | none => Branch.pass
  | some h =>
    if h.is_digit source then
      let text := h.parse_number source
      Branch.emit
        { kind := h.Number, text := text, start := m_cursor, line := line,
          col := m_cursor - line_start_pos }
        (m_cursor + text.length)
    else Branch.pass

/-- Abstract form of `fallback_branch`. -/
def fallback_branch_abs {K : Type} (cfg : LexerConfig K) (source : List Nat)
    (m_cursor line line_start_pos : Nat) : Branch K :=
  Branch.emit
    { kind := cfg.Unknown, text := source.take 1, start := m_cursor, line := line,
      col := m_cursor - line_start_pos }
    (m_cursor + 1)

/-- Abstract form of `lex_branches`. -/
def lex_branches_abs {K : Type} (cfg : LexerConfig K) (source : List Nat)
    (m_cursor line line_start_pos : Nat) : Branch K :=
  (switch_branch_abs cfg.whitespace source m_cursor line line_start_pos).orElse <|
  (switch_branch_abs cfg.punctuations source m_cursor line line_start_pos).orElse <|
  (switch_branch_abs cfg.operators source m_cursor line line_start_pos).orElse <|
  (identifier_branch_abs cfg.identifier source m_cursor line line_start_pos).orElse <|
  (number_branch_abs cfg.numbers source m_cursor line line_start_pos).orElse <|
  fallback_branch_abs cfg source m_cursor line line_start_pos

/-- Abstract form of `lex_iteration`. -/
def lex_iteration_abs {K : Type} (cfg : LexerConfig K) (m_source : List Nat) (st : LoopState K) :
    Option (LoopState K) :=
  let source := m_source.drop st.m_cursor
  let line := if source.head? = some 10 then st.line + 1 else st.line
  let line_start_pos := if source.head? = some 10 then st.m_cursor else st.line_start_pos
  match lex_branches_abs cfg source st.m_cursor line line_start_pos with
  | Branch.emit t cursor =>
    some { m_cursor := cursor, line := line, line_start_pos := line_start_pos,
           tokens := st.tokens ++ [t] }
  | _ => none

/-- Abstract form of `lex_loop`. -/
def lex_loop_abs {K : Type} (cfg : LexerConfig K) (m_source : List Nat) :
    Nat → LoopState K → Option (LoopState K)
  | fuel, st =>
    if st.m_cursor < m_source.length then
      match fuel with
      | 0 => none
      | fuel + 1 =>
        match lex_iteration_abs cfg m_source st with
        | none => none
        | some st => lex_loop_abs cfg m_source fuel st
    else some st

/-- Abstract form of `Lexer.lex`. -/
def Lexer.lex_abs {K : Type} (cfg : LexerConfig K) (self : Lexer) :
    Option (List (Token K) × Lexer) :=
  match lex_loop_abs cfg self.m_source self.m_source.length
      { m_cursor := self.m_cursor, line := 0, line_start_pos := 0, tokens := [] } with
  | none => none
  | some st =>
    some (st.tokens ++
        [{ kind := cfg.Eof, text := [], start := st.m_cursor, line := st.line,
           col := st.m_cursor - st.line_start_pos }],
      { self with m_cursor := st.m_cursor })

end dark

/-! ## Definitions of the proofs: predicates, invariants and the pattern sets of the examples -/

namespace dark

open detail

/-- A category that does not claim the view `s`: it is absent, or its
`match` returns `npos`. -/
def Passes {K : Type} (set : Option (detail.Lexems K)) (s : List Nat) : Prop :=
  ∀ lexems, set = some lexems → detail.Switch.match_abs lexems s = detail.npos

/-- The operator patterns of the longest-match scenario: `>>` at index 0 and
`>` at index 1. -/
def shift_lexems : detail.Lexems DefaultTokenKind :=
  [([62, 62], DefaultTokenKind.GreaterThanGreaterThan), ([62], DefaultTokenKind.GreaterThan)]

/-- A pattern set over all 256 byte values: the two-byte literals
`[2 i, 2 i + 1]` for `i < 128` at the indices `0 .. 127`, then the one-byte
literal `[254]` at index 128. -/
def wrap_lexems : detail.Lexems Nat :=
  (List.range 128).map (fun i => ([2 * i, 2 * i + 1], i)) ++ [([254], 128)]

end dark

namespace dark.detail

/-- All bytes of the literals, in the order `index_mapping` scans them. -/
def pattern_bytes {K : Type} (lexems : Lexems K) : List Nat :=
  (lexems.map Prod.fst).flatten

/-- The number of non-zero entries of a list. -/
def nz_count : List Nat → Nat
  | [] => 0
  | x :: xs => (if 0 < x then 1 else 0) + nz_count xs

/-- The state of the `index_mapping` loops after the bytes `seen`, while no
symbol has wrapped. -/
structure AlphaInv (seen : List Nat) (st : List Nat × Nat) : Prop where
  len : st.1.length = 256
  idx : st.2 = seen.toFinset.card + 1
  nz : ∀ a, st.1.getD a 0 ≠ 0 ↔ a ∈ seen
  lt : ∀ a, st.1.getD a 0 < st.2
  inj : ∀ a b, st.1.getD a 0 = st.1.getD b 0 → st.1.getD a 0 ≠ 0 → a = b
  cnt : nz_count st.1 = st.2 - 1

/-- A pattern set whose literals are bytes and use at most 255 distinct byte
values: every symbol fits the `unsigned char` entries of `index_mapping`. -/
def AlphabetFits {K : Type} (lexems : Lexems K) : Prop :=
  (∀ b ∈ pattern_bytes lexems, b < 256) ∧ (pattern_bytes lexems).toFinset.card ≤ 255

instance {K : Type} (lexems : Lexems K) : Decidable (AlphabetFits lexems) := by
  unfold AlphabetFits; infer_instance

/-- The flat coordinate of a symbol sequence: `Σ_i arity^i * sym[i]`. -/
def coord (A : Nat) : List Nat → Nat
  | [] => 0
  | d :: ds => d + A * coord A ds

/-- The best match among the literals that are prefixes of `pre`: `none` when
there is none, else the index of one that no other exceeds in length. -/
def Best {K : Type} (lexems : Lexems K) (pre : List Nat) : Option Nat → Prop
  | none => ∀ el ∈ lexems, ¬ el.1 <+: pre
  | some k => ∃ el, lexems[k]? = some el ∧ el.1 <+: pre ∧
      ∀ el' ∈ lexems, el'.1 <+: pre → el'.1.length ≤ el.1.length

end dark.detail

namespace dark

open detail

/-- What a token pushed at offset `c` of `src` looks like when the iteration
is regular: it sits at the cursor, its text is the non-empty run of source
bytes from `c`, the cursor moves past it, and only its first byte can be a
newline. -/
structure Emits {K : Type} (src : List Nat) (c line lsp : Nat) (t : Token K) (c' : Nat) :
    Prop where
  start : t.start = c
  line : t.line = line
  col : t.col = c - lsp
  text : t.text <+: src.drop c
  nonempty : t.text ≠ []
  cursor : c' = c + t.text.length
  no_newline : ∀ b ∈ t.text.tail, b ≠ 10

/-- A branch result that is a regular token not tagged `eof`. -/
def Branch.Good {K : Type} (eof : K) (src : List Nat) (c line lsp : Nat) (b : Branch K) : Prop :=
  ∃ t c', b = Branch.emit t c' ∧ Emits src c line lsp t c' ∧ t.kind ≠ eof

/-- A configuration all of whose iterations are regular. -/
def Regular {K : Type} (cfg : LexerConfig K) : Prop :=
  ∀ (src : List Nat) (c line lsp : Nat), c < src.length →
    Branch.Good cfg.Eof src c line lsp (lex_branches_abs cfg (src.drop c) c line lsp)

/-- Tokens laid end to end: the first starts at `a`, each next one where the
previous ends, and the last ends at `b`. -/
def Contiguous {K : Type} : Nat → List (Token K) → Nat → Prop
  | a, [], b => a = b
  | a, t :: ts, b => t.start = a ∧ Contiguous (a + t.text.length) ts b

/-- The column of a token starting at `start`: `start - p` for the largest
`p ≤ start` holding a newline, or `start` when there is none. -/
def ColAt (s : List Nat) (start col : Nat) : Prop :=
  (∃ p, p ≤ start ∧ s[p]? = some 10 ∧ (∀ q, p < q → q ≤ start → s[q]? ≠ some 10) ∧
    col = start - p) ∨
  ((∀ q, q ≤ start → s[q]? ≠ some 10) ∧ col = start)

/-- What holds of every token pushed by the scan loop on the source `s`. -/
structure TokenOK {K : Type} (s : List Nat) (eof : K) (t : Token K) : Prop where
  text : t.text <+: s.drop t.start
  nonempty : t.text ≠ []
  kind : t.kind ≠ eof
  line : t.line = (s.take (t.start + 1)).count 10
  col : ColAt s t.start t.col

/-- The local `line_start_pos` when the cursor is at `c`: the last newline
before `c`, or `0` when there is none. -/
def LineStart (s : List Nat) (c lsp : Nat) : Prop :=
  (lsp < c ∧ s[lsp]? = some 10 ∧ ∀ q, lsp < q → q < c → s[q]? ≠ some 10) ∨
  (lsp = 0 ∧ ∀ q, q < c → s[q]? ≠ some 10)

/-- The invariant of the scan loop on the source `s`. -/
structure LoopInv {K : Type} (s : List Nat) (eof : K) (st : LoopState K) : Prop where
  le : st.m_cursor ≤ s.length
  cover : (st.tokens.map Token.text).flatten = s.take st.m_cursor
  contiguous : Contiguous 0 st.tokens st.m_cursor
  each : ∀ t ∈ st.tokens, TokenOK s eof t
  line : st.line = (s.take st.m_cursor).count 10
  ls : LineStart s st.m_cursor st.line_start_pos

/-- The branch result with the line and column of its token recomputed for
other values of the locals `line` and `line_start_pos`. -/
def Branch.reposition {K : Type} (m_cursor line line_start_pos : Nat) : Branch K → Branch K
  | Branch.emit t c =>
    Branch.emit { t with line := line, col := m_cursor - line_start_pos } c
  | b => b

end dark

namespace dark.detail

end dark.detail

namespace dark

open detail

/-- A configuration in which every branch that claims a position pushes a
non-empty text: no pattern set holds the empty literal, the identifier
continuation predicate accepts a view that the start predicate accepts, and
`parse_number` returns a non-empty text on a view that `is_digit` accepts. -/
structure Progressive {K : Type} (cfg : LexerConfig K) : Prop where
  whitespace : ∀ lexems, cfg.whitespace = some lexems → ∀ el ∈ lexems, el.1 ≠ []
  punctuations : ∀ lexems, cfg.punctuations = some lexems → ∀ el ∈ lexems, el.1 ≠ []
  operators : ∀ lexems, cfg.operators = some lexems → ∀ el ∈ lexems, el.1 ≠ []
  identifier : ∀ h, cfg.identifier = some h → ∀ c r,
    h.is_valid_identifier_start (c :: r) = true → h.is_valid_identifier (c :: r) = true
  numbers : ∀ n, cfg.numbers = some n → ∀ c r,
    n.is_digit (c :: r) = true → n.parse_number (c :: r) ≠ []

/-- A branch result that pushes a non-empty text and moves the cursor by its
length. -/
def Branch.Advances {K : Type} (m_cursor : Nat) (b : Branch K) : Prop :=
  ∃ t c', b = Branch.emit t c' ∧ t.text ≠ [] ∧ c' = m_cursor + t.text.length

end dark

namespace dark.detail

end dark.detail

namespace dark

open detail

/-- A token that the branches push at its own start offset in the source
`s`. -/
def Pushed {K : Type} (cfg : LexerConfig K) (s : List Nat) (t : Token K) : Prop :=
  t.start < s.length ∧
  ∃ line lsp c', lex_branches_abs cfg (s.drop t.start) t.start line lsp = Branch.emit t c'

end dark

namespace dark.detail

/-- The accesses of the scan loop of `Switch::match` (`switch.hpp:158-163`), in
order: for each iteration the index `i` of the read `map.stride[i]` and the
index `idx` of the read `map.data[idx]`. -/
def match_loop_reads_abs {K : Type} (lexems : Lexems K) ( map : ArrayWrapper) :
    List Nat → Nat → Nat → List (Nat × Nat)
  | [], _, _ => []
  | ch :: rest, i, idx =>
    let c := get_char_index_abs lexems ch
    let idx := idx + map.stride.getD i 0 * c
    (i, idx) :: match_loop_reads_abs lexems map rest (i + 1) idx

/-- The accesses of `Switch::match(std::string_view)` (`switch.hpp:151-166`). -/
def Switch.match_reads_abs {K : Type} (lexems : Lexems K) (s : List Nat) : List (Nat × Nat) :=
  let size := min (max_len lexems) s.length
  match_loop_reads_abs lexems (make_nd_map_abs lexems) (s.take size) 0 0

/-- Bytes that convert to an index of the 256-entry `index_mapping`: every byte
where `char` is unsigned, the bytes below `0x80` where it is signed. -/
def BytesInRange (char_is_signed : Bool) (s : List Nat) : Prop :=
  ∀ b ∈ s, char_to_size char_is_signed b < 256

instance (char_is_signed : Bool) (s : List Nat) : Decidable (BytesInRange char_is_signed s) := by
  unfold BytesInRange; infer_instance

/-- A pattern set whose literals hold bytes in range: the constants of its
`Switch` build. -/
def PatternsInRange {K : Type} (char_is_signed : Bool) (lexems : Lexems K) : Prop :=
  BytesInRange char_is_signed (pattern_bytes lexems)

instance {K : Type} (char_is_signed : Bool) (lexems : Lexems K) :
    Decidable (PatternsInRange char_is_signed lexems) := by
  unfold PatternsInRange; infer_instance

end dark.detail

namespace dark

open detail

/-- A configuration whose pattern sets hold bytes in range. -/
structure ConfigInRange {K : Type} (char_is_signed : Bool) (cfg : LexerConfig K) : Prop where
  whitespace : ∀ lexems, cfg.whitespace = some lexems → PatternsInRange char_is_signed lexems
  punctuations : ∀ lexems, cfg.punctuations = some lexems → PatternsInRange char_is_signed lexems
  operators : ∀ lexems, cfg.operators = some lexems → PatternsInRange char_is_signed lexems

/-- The branch result of the abstract model with the `unsigned` arithmetic of
the code: the column is `m_cursor - line_start_pos` and the cursor moves by
the converted length, both modulo `2 ^ 32`. -/
def Branch.unsigned {K : Type} (m_cursor line_start_pos : Nat) : Branch K → Branch K
  | Branch.emit t c =>
    Branch.emit { t with col := unsigned_sub m_cursor line_start_pos }
      (unsigned_add m_cursor (to_unsigned (c - m_cursor)))
  | b => b

/-- A branch of the code that is defined is the abstract branch with the
`unsigned` arithmetic. -/
def Branch.Simulates {K : Type} (c lsp : Nat) (f a : Branch K) : Prop :=
  f ≠ Branch.undefined → f = a.unsigned c lsp

/-- The branch result with the line and column of its token replaced. -/
def Branch.relocate {K : Type} (line col : Nat) : Branch K → Branch K
  | Branch.emit t c => Branch.emit { t with line := line, col := col } c
  | b => b

end dark

namespace dark.detail

/-- The alphabet map after the loops of `index_mapping` scanned the bytes
`0, 1, .., n - 1` in this order: byte `b < n` has symbol `b + 1`, every other
entry is `0`. -/
def wrap_mapping (n : Nat) : List Nat :=
  (List.range 256).map (fun b => if b < n then b + 1 else 0)

end dark.detail

namespace dark

open detail

/-- A pattern set with the one literal `0x80`, a byte that is negative where
`char` is signed. -/
def high_byte_lexems : Lexems DefaultTokenKind :=
  [([128], DefaultTokenKind.Unknown)]

end dark

namespace dark.detail

end dark.detail

/-! ## Lemmas and claims -/

namespace dark.detail

theorem foldl_nz_count (l : List Nat) (a : Nat) :
    l.foldl (fun acc i => acc + (if 0 < i then 1 else 0)) a = a + nz_count l := by
  induction l generalizing a with
  | nil => simp [nz_count]
  | cons x xs ih => simp only [List.foldl_cons, ih, nz_count]; omega

theorem nz_count_set (l : List Nat) (c v : Nat) (hc : c < l.length) (h0 : l.getD c 0 = 0)
    (hv : 0 < v) : nz_count (l.set c v) = nz_count l + 1 := by
  induction l generalizing c with
  | nil => simp at hc
  | cons x xs ih =>
    cases c with
    | zero =>
      simp at h0
      subst h0
      simp [nz_count, hv]; omega
    | succ c =>
      simp at hc h0
      have := ih c hc (by simpa using h0)
      simp [nz_count, this]; omega

theorem max_extent_eq {K : Type} (lexems : Lexems K) :
    max_extent_abs lexems = nz_count (index_mapping_abs lexems) + 1 := by
  simp [max_extent_abs, foldl_nz_count]

theorem index_mapping_loop_eq {K : Type} (lexems : Lexems K) :
    index_mapping_loop_abs lexems =
      (pattern_bytes lexems).foldl index_mapping_step_abs (List.replicate 256 0, 1) := by
  unfold index_mapping_loop_abs pattern_bytes
  generalize (List.replicate 256 0, 1) = st
  induction lexems generalizing st with
  | nil => simp
  | cons el rest ih => simp [List.foldl_append, ih]

theorem getD_replicate_zero (n a : Nat) : (List.replicate n 0).getD a 0 = 0 := by
  simp only [List.getD_eq_getElem?_getD, List.getElem?_replicate]
  split <;> rfl

theorem nz_count_replicate_zero (n : Nat) : nz_count (List.replicate n 0) = 0 := by
  induction n with
  | zero => rfl
  | succ n ih => simp [List.replicate_succ, nz_count, ih]

theorem alpha_inv_init : AlphaInv [] (List.replicate 256 0, 1) where
  len := List.length_replicate _ _
  idx := by simp
  nz := by
    intro a
    simp only [getD_replicate_zero]
    simp
  lt := by
    intro a
    simp only [getD_replicate_zero]
    omega
  inj := by
    intro a b _ h
    exact absurd (getD_replicate_zero 256 a) h
  cnt := by simp only [nz_count_replicate_zero]

theorem getD_set_eq (l : List Nat) (c v a : Nat) (hc : c < l.length) :
    (l.set c v).getD a 0 = if a = c then v else l.getD a 0 := by
  simp only [List.getD_eq_getElem?_getD, List.getElem?_set]
  by_cases h : c = a
  · subst h; simp [hc]
  · simp [h, Ne.symm h]

theorem alpha_inv_step {seen : List Nat} {st : List Nat × Nat} (h : AlphaInv seen st) (c : Nat)
    (hc : c < 256) (hcard : (seen ++ [c]).toFinset.card ≤ 255) :
    AlphaInv (seen ++ [c]) (index_mapping_step_abs st c) := by
  unfold index_mapping_step_abs
  by_cases h0 : st.1.getD c 0 = 0
  · have hns : c ∉ seen := fun hm => (h.nz c).2 hm h0
    have hcard' : (seen ++ [c]).toFinset.card = seen.toFinset.card + 1 := by
      rw [List.toFinset_append]
      simp only [List.toFinset_cons, List.toFinset_nil, insert_emptyc_eq]
      rw [Finset.union_comm, ← Finset.insert_eq, Finset.card_insert_of_not_mem (by simpa using hns)]
    have hidx : st.2 ≤ 255 := by rw [h.idx]; omega
    have hpos : 0 < st.2 := by rw [h.idx]; omega
    have hmod : st.2 % 256 = st.2 := Nat.mod_eq_of_lt (by omega)
    have hlen : c < st.1.length := by rw [h.len]; exact hc
    rw [if_pos h0, hmod]
    refine ⟨by simp [h.len], by show st.2 + 1 = _; rw [hcard', h.idx], ?_, ?_, ?_, ?_⟩
    · intro a
      simp only [getD_set_eq _ _ _ _ hlen]
      by_cases hac : a = c
      · subst hac; simp; omega
      · simp only [hac, if_false, h.nz a, List.mem_append, List.mem_singleton, or_false]
    · intro a
      simp only [getD_set_eq _ _ _ _ hlen]
      have := h.lt a
      split <;> omega
    · intro a b
      simp only [getD_set_eq _ _ _ _ hlen]
      have ha := h.lt a
      have hb := h.lt b
      by_cases hac : a = c <;> by_cases hbc : b = c
      · intros; rw [hac, hbc]
      · simp only [hac, hbc, if_true, if_false]; intro e; omega
      · simp only [hac, hbc, if_true, if_false]; intro e; omega
      · simp only [hac, hbc, if_false]; exact h.inj a b
    · simp only
      rw [nz_count_set _ _ _ hlen h0 hpos, h.cnt]; omega
  · have hs : c ∈ seen := (h.nz c).1 h0
    have hfs : (seen ++ [c]).toFinset = seen.toFinset := by
      ext a; simp; intro e; subst e; exact hs
    rw [if_neg h0]
    refine ⟨h.len, by rw [hfs]; exact h.idx, ?_, h.lt, h.inj, h.cnt⟩
    intro a
    rw [h.nz a]; simp
    intro e; subst e; exact hs

theorem alpha_inv_fold {seen : List Nat} {st : List Nat × Nat} (h : AlphaInv seen st)
    (bs : List Nat) (hb : ∀ b ∈ bs, b < 256) (hcard : (seen ++ bs).toFinset.card ≤ 255) :
    AlphaInv (seen ++ bs) (bs.foldl index_mapping_step_abs st) := by
  induction bs generalizing seen st with
  | nil => simpa using h
  | cons c bs ih =>
    have hsub : (seen ++ [c]).toFinset ⊆ (seen ++ c :: bs).toFinset := by
      intro a; simp; tauto
    have h1 := alpha_inv_step h c (hb c (by simp)) (le_trans (Finset.card_le_card hsub) hcard)
    have := ih h1 (fun b hb' => hb b (by simp [hb'])) (by simpa using hcard)
    simpa using this

theorem alphabet_inv {K : Type} (lexems : Lexems K) (h : AlphabetFits lexems) :
    AlphaInv (pattern_bytes lexems) (index_mapping_loop_abs lexems) := by
  rw [index_mapping_loop_eq]
  have := alpha_inv_fold alpha_inv_init (pattern_bytes lexems) h.1 (by rw [List.nil_append]; exact h.2)
  rwa [List.nil_append] at this

theorem get_char_index_ne_zero {K : Type} (lexems : Lexems K) (h : AlphabetFits lexems) (a : Nat) :
    get_char_index_abs lexems a ≠ 0 ↔ a ∈ pattern_bytes lexems :=
  (alphabet_inv lexems h).nz a

theorem get_char_index_inj {K : Type} (lexems : Lexems K) (h : AlphabetFits lexems) (a b : Nat)
    (hab : get_char_index_abs lexems a = get_char_index_abs lexems b)
    (ha : get_char_index_abs lexems a ≠ 0) : a = b :=
  (alphabet_inv lexems h).inj a b hab ha

theorem get_char_index_lt {K : Type} (lexems : Lexems K) (h : AlphabetFits lexems) (a : Nat) :
    get_char_index_abs lexems a < max_extent_abs lexems := by
  have hi := alphabet_inv lexems h
  have h1 := hi.lt a
  have h2 := hi.cnt
  rw [max_extent_eq]
  unfold get_char_index_abs index_mapping_abs
  omega

theorem table_size_eq (A n : Nat) : table_size A n = A ^ n := by
  unfold table_size
  induction n with
  | zero => simp
  | succ n ih => rw [List.range_succ, List.foldl_append, ih]; simp [pow_succ]

theorem stride_init_length (n : Nat) : (stride_init n).length = n := by
  simp [stride_init]

theorem stride_upto (A n m : Nat) (hm : m ≤ n - 1) :
    ((List.range' 1 m).foldl
        (fun stride i => stride.set i (stride.getD (i - 1) 0 * A)) (stride_init n)).length = n ∧
    ∀ i, i ≤ m → i < n →
      ((List.range' 1 m).foldl
        (fun stride i => stride.set i (stride.getD (i - 1) 0 * A)) (stride_init n)).getD i 0
        = A ^ i := by
  induction m with
  | zero =>
    refine ⟨by simp [stride_init_length], ?_⟩
    intro i hi hn
    have : i = 0 := by omega
    subst this
    simp only [List.range'_zero, List.foldl_nil, stride_init]
    rw [getD_set_eq _ _ _ _ (by simpa using hn)]
    simp
  | succ m ih =>
    obtain ⟨hl, hg⟩ := ih (by omega)
    rw [List.range'_concat, List.foldl_append]
    simp only [List.foldl_cons, List.foldl_nil, Nat.one_mul]
    have e1 : 1 + m - 1 = m := by omega
    rw [e1]
    refine ⟨by rw [List.length_set]; exact hl, ?_⟩
    intro i hi hn
    rw [getD_set_eq _ _ _ _ (by rw [hl]; omega)]
    by_cases h : i = 1 + m
    · rw [if_pos h, hg m (le_refl _) (by omega), h, Nat.add_comm 1 m, pow_succ]
    · rw [if_neg h]
      exact hg i (by omega) hn

theorem stride_loop_getD (A n i : Nat) (hi : i < n) : (stride_loop A n).getD i 0 = A ^ i :=
  (stride_upto A n (n - 1) (le_refl _)).2 i (by omega) hi

theorem coord_append (A : Nat) (x y : List Nat) :
    coord A (x ++ y) = coord A x + A ^ x.length * coord A y := by
  induction x with
  | nil => simp [coord]
  | cons d ds ih =>
    rw [List.cons_append]
    simp only [coord, ih, List.length_cons, pow_succ]
    ring

theorem coord_lt (A : Nat) (x : List Nat) (hx : ∀ d ∈ x, d < A) :
    coord A x < A ^ x.length ∨ (x = [] ∧ A = 0) := by
  induction x with
  | nil =>
    by_cases h : A = 0
    · right; exact ⟨rfl, h⟩
    · left; simp [coord]
  | cons d ds ih =>
    left
    have hd : d < A := hx d (by simp)
    have hA : 0 < A := by omega
    have h1 : coord A ds < A ^ ds.length := by
      rcases ih (fun e he => hx e (by simp [he])) with h | ⟨_, h⟩
      · exact h
      · omega
    simp only [coord, List.length_cons, pow_succ]
    have : A * coord A ds + A ≤ A * A ^ ds.length := by
      have := Nat.mul_le_mul_left A (Nat.succ_le_of_lt h1)
      simpa [Nat.mul_succ] using this
    rw [Nat.mul_comm (A ^ ds.length) A]
    omega

theorem coord_lt_pow (A n : Nat) (hA : 0 < A) (x : List Nat) (hx : ∀ d ∈ x, d < A)
    (hn : x.length ≤ n) : coord A x < A ^ n := by
  have h1 : coord A x < A ^ x.length := by
    rcases coord_lt A x hx with h | ⟨_, h⟩
    · exact h
    · omega
  exact lt_of_lt_of_le h1 (Nat.pow_le_pow_right hA hn)

theorem coord_eq_zero (A : Nat) (hA : 0 < A) (y : List Nat) (h : coord A y = 0) :
    ∀ d ∈ y, d = 0 := by
  induction y with
  | nil => simp
  | cons e es ih =>
    simp only [coord] at h
    have he : e = 0 := by omega
    have hes : coord A es = 0 := by
      have : A * coord A es = 0 := by omega
      rcases Nat.mul_eq_zero.1 this with h | h
      · omega
      · exact h
    intro d hd
    rcases List.mem_cons.1 hd with h | h
    · rw [h, he]
    · exact ih hes d h

theorem coord_zeros (A : Nat) (z : List Nat) (hz : ∀ d ∈ z, d = 0) : coord A z = 0 := by
  induction z with
  | nil => rfl
  | cons e es ih =>
    simp only [coord]
    rw [hz e (by simp), ih (fun d hd => hz d (by simp [hd]))]
    simp

theorem coord_eq (A : Nat) (hA : 0 < A) (x y : List Nat) (hx : ∀ d ∈ x, d < A ∧ d ≠ 0)
    (hy : ∀ d ∈ y, d < A) (h : coord A x = coord A y) :
    ∃ z, y = x ++ z ∧ ∀ d ∈ z, d = 0 := by
  induction x generalizing y with
  | nil =>
    refine ⟨y, rfl, coord_eq_zero A hA y ?_⟩
    simpa [coord] using h.symm
  | cons d ds ih =>
    obtain ⟨hdA, hd0⟩ := hx d (by simp)
    cases y with
    | nil =>
      simp only [coord] at h
      omega
    | cons e es =>
      have heA : e < A := hy e (by simp)
      simp only [coord] at h
      have hmod : d = e := by
        have h1 : (d + A * coord A ds) % A = (e + A * coord A es) % A := by rw [h]
        simpa [Nat.add_mul_mod_self_left, Nat.mod_eq_of_lt hdA, Nat.mod_eq_of_lt heA] using h1
      subst hmod
      have hrest : coord A ds = coord A es := by
        have : A * coord A ds = A * coord A es := by omega
        exact Nat.eq_of_mul_eq_mul_left hA this
      obtain ⟨z, hz, hz0⟩ := ih es (fun e he => hx e (by simp [he]))
        (fun e he => hy e (by simp [he])) hrest
      exact ⟨z, by rw [hz]; rfl, hz0⟩

theorem lexem_fold {K : Type} (lexems : Lexems K) (A n : Nat) (stride : List Nat)
    (hs : ∀ i, i < n → stride.getD i 0 = A ^ i) (el : List Nat) (x i : Nat)
    (h : i + el.length ≤ n) :
    el.foldl (fun st c => (st.1 + stride.getD st.2 0 * get_char_index_abs lexems c, st.2 + 1)) (x, i)
      = (x + A ^ i * coord A (el.map (get_char_index_abs lexems)), i + el.length) := by
  induction el generalizing x i with
  | nil => simp [coord]
  | cons c cs ih =>
    simp only [List.length_cons] at h
    simp only [List.foldl_cons, List.map_cons, coord, List.length_cons]
    rw [ih _ _ (by omega), hs i (by omega)]
    congr 1
    · rw [pow_succ]; ring
    · omega

theorem max_len_ge {K : Type} (lexems : Lexems K) (el : List Nat × K) (h : el ∈ lexems) :
    el.1.length ≤ max_len lexems := by
  unfold max_len
  have gen : ∀ (l : Lexems K) (m : Nat),
      m ≤ l.foldl (fun m el => max m el.1.length) m ∧
      ∀ el ∈ l, el.1.length ≤ l.foldl (fun m el => max m el.1.length) m := by
    intro l
    induction l with
    | nil => intro m; simp
    | cons a l ih =>
      intro m
      simp only [List.foldl_cons]
      obtain ⟨h1, h2⟩ := ih (max m a.1.length)
      refine ⟨le_trans (le_max_left _ _) h1, ?_⟩
      intro el hel
      rcases List.mem_cons.1 hel with h | h
      · rw [h]; exact le_trans (le_max_right _ _) h1
      · exact h2 el h
  exact (gen lexems 0).2 el h

theorem lexem_index_eq {K : Type} (lexems : Lexems K) (el : List Nat)
    (h : el.length ≤ max_len lexems) :
    lexem_index_abs lexems (stride_loop (max_extent_abs lexems) (max_len lexems)) el
      = coord (max_extent_abs lexems) (el.map (get_char_index_abs lexems)) := by
  unfold lexem_index_abs
  rw [lexem_fold lexems (max_extent_abs lexems) (max_len lexems) _
    (fun i hi => stride_loop_getD _ _ i hi) el 0 0 (by omega)]
  simp

theorem fold_set_size {α : Type} (g : α → Nat) (ps : List α) (arr : FlatArray) (k : Nat) :
    (ps.foldl (fun st el => (st.1.set (g el) (some st.2), st.2 + 1)) (arr, k)).1.size
      = arr.size := by
  induction ps generalizing arr k with
  | nil => rfl
  | cons p ps ih => simp only [List.foldl_cons]; rw [ih]; rfl

theorem fold_set_not_mem {α : Type} (g : α → Nat) (ps : List α) (arr : FlatArray) (k j : Nat)
    (hj : j ∉ ps.map g) :
    (ps.foldl (fun st el => (st.1.set (g el) (some st.2), st.2 + 1)) (arr, k)).1.cell j
      = arr.cell j := by
  induction ps generalizing arr k with
  | nil => rfl
  | cons p ps ih =>
    simp only [List.map_cons, List.mem_cons, not_or] at hj
    simp only [List.foldl_cons]
    rw [ih _ _ hj.2]
    simp [FlatArray.set, hj.1]

theorem fold_set_nodup {α : Type} (g : α → Nat) (ps : List α) (arr : FlatArray) (k i : Nat)
    (el : α) (hnd : (ps.map g).Nodup) (hi : ps[i]? = some el) :
    (ps.foldl (fun st el => (st.1.set (g el) (some st.2), st.2 + 1)) (arr, k)).1.cell (g el)
      = some (k + i) := by
  induction ps generalizing arr k i with
  | nil => simp at hi
  | cons p ps ih =>
    simp only [List.map_cons, List.nodup_cons] at hnd
    simp only [List.foldl_cons]
    cases i with
    | zero =>
      simp only [List.getElem?_cons_zero, Option.some.injEq] at hi
      subst hi
      rw [fold_set_not_mem g ps _ _ _ hnd.1]
      simp [FlatArray.set]
    | succ i =>
      simp only [List.getElem?_cons_succ] at hi
      rw [ih _ _ _ hnd.2 hi]
      congr 1; omega

theorem fold_set_cell {α : Type} (g : α → Nat) (ps : List α) (size j m : Nat)
    (hnd : (ps.map g).Nodup) :
    (ps.foldl (fun st el => (st.1.set (g el) (some st.2), st.2 + 1))
        (FlatArray.fill size npos, 0)).1.cell j = some m
      ↔ ∃ el, ps[m]? = some el ∧ g el = j := by
  constructor
  · intro h
    by_cases hj : j ∈ ps.map g
    · obtain ⟨el, hel, hg⟩ := List.mem_map.1 hj
      obtain ⟨i, hi⟩ := List.getElem?_of_mem hel
      have := fold_set_nodup g ps (FlatArray.fill size npos) 0 i el hnd hi
      rw [hg, h] at this
      simp only [Nat.zero_add, Option.some.injEq] at this
      subst this
      exact ⟨el, hi, hg⟩
    · rw [fold_set_not_mem g ps _ _ _ hj] at h
      simp [FlatArray.fill, npos] at h
  · rintro ⟨el, hel, hg⟩
    have := fold_set_nodup g ps (FlatArray.fill size npos) 0 m el hnd hel
    rw [hg] at this
    simpa using this

theorem max_extent_pos {K : Type} (lexems : Lexems K) : 0 < max_extent_abs lexems := by
  rw [max_extent_eq]; omega

theorem mem_pattern_bytes {K : Type} (lexems : Lexems K) (el : List Nat × K) (hel : el ∈ lexems)
    (b : Nat) (hb : b ∈ el.1) : b ∈ pattern_bytes lexems := by
  unfold pattern_bytes
  simp only [List.mem_flatten, List.mem_map]
  exact ⟨el.1, ⟨el, hel, rfl⟩, hb⟩

theorem map_sym_inj {K : Type} (lexems : Lexems K) (hfit : AlphabetFits lexems) (x y : List Nat)
    (hx : ∀ b ∈ x, get_char_index_abs lexems b ≠ 0)
    (h : x.map (get_char_index_abs lexems) = y.map (get_char_index_abs lexems)) : x = y := by
  induction x generalizing y with
  | nil =>
    cases y with
    | nil => rfl
    | cons _ _ => simp at h
  | cons a x ih =>
    cases y with
    | nil => simp at h
    | cons b y =>
      simp only [List.map_cons, List.cons.injEq] at h
      have hab := get_char_index_inj lexems hfit a b h.1 (hx a (by simp))
      rw [hab, ih y (fun c hc => hx c (by simp [hc])) h.2]

/-- The symbols of a literal are non-zero and below the arity. -/
theorem pattern_syms {K : Type} (lexems : Lexems K) (hfit : AlphabetFits lexems)
    (el : List Nat × K) (hel : el ∈ lexems) :
    ∀ d ∈ el.1.map (get_char_index_abs lexems), d < max_extent_abs lexems ∧ d ≠ 0 := by
  intro d hd
  obtain ⟨b, hb, rfl⟩ := List.mem_map.1 hd
  exact ⟨get_char_index_lt lexems hfit b,
    (get_char_index_ne_zero lexems hfit b).2 (mem_pattern_bytes lexems el hel b hb)⟩

/-- Two byte strings have the same flat coordinate exactly when the second is
the first, a literal, followed by bytes of symbol `0`. -/
theorem coord_pattern_eq {K : Type} (lexems : Lexems K) (hfit : AlphabetFits lexems)
    (el : List Nat × K) (hel : el ∈ lexems) (t : List Nat) :
    coord (max_extent_abs lexems) (el.1.map (get_char_index_abs lexems))
        = coord (max_extent_abs lexems) (t.map (get_char_index_abs lexems))
      ↔ ∃ z, t = el.1 ++ z ∧ ∀ b ∈ z, get_char_index_abs lexems b = 0 := by
  constructor
  · intro h
    obtain ⟨z, hz, hz0⟩ := coord_eq _ (max_extent_pos lexems) _ _ (pattern_syms lexems hfit el hel)
      (fun d hd => by
        obtain ⟨b, _, rfl⟩ := List.mem_map.1 hd
        exact get_char_index_lt lexems hfit b) h
    obtain ⟨t1, t2, ht, h1, h2⟩ := List.map_eq_append_iff.1 hz
    have e1 : el.1 = t1 := map_sym_inj lexems hfit el.1 t1
      (fun b hb => (pattern_syms lexems hfit el hel _ (List.mem_map_of_mem _ hb)).2) h1.symm
    refine ⟨t2, by rw [ht, e1], ?_⟩
    intro b hb
    exact hz0 _ (by rw [← h2]; exact List.mem_map_of_mem _ hb)
  · rintro ⟨z, rfl, hz⟩
    rw [List.map_append, coord_append, coord_zeros _ (z.map _)]
    · simp
    · intro d hd
      obtain ⟨b, hb, rfl⟩ := List.mem_map.1 hd
      exact hz b hb

theorem lexem_index_nodup {K : Type} (lexems : Lexems K) (hfit : AlphabetFits lexems)
    (hnd : (lexems.map Prod.fst).Nodup) :
    (lexems.map (fun el => lexem_index_abs lexems
      (stride_loop (max_extent_abs lexems) (max_len lexems)) el.1)).Nodup := by
  apply List.Nodup.map_on _ (List.Nodup.of_map _ hnd)
  intro x hx y hy hxy
  rw [lexem_index_eq lexems x.1 (max_len_ge lexems x hx),
    lexem_index_eq lexems y.1 (max_len_ge lexems y hy)] at hxy
  obtain ⟨z, hz, hz0⟩ := (coord_pattern_eq lexems hfit x hx y.1).1 hxy
  have hznil : z = [] := by
    cases z with
    | nil => rfl
    | cons b z =>
      exfalso
      have hb : b ∈ y.1 := by rw [hz]; simp
      exact (pattern_syms lexems hfit y hy _ (List.mem_map_of_mem _ hb)).2 (hz0 b (by simp))
  rw [hznil, List.append_nil] at hz
  exact List.inj_on_of_nodup_map hnd hy hx hz |>.symm

/-- What the table holds at the coordinate of a byte string no longer than
`max_len`. -/
theorem map_data_get {K : Type} (lexems : Lexems K) (hfit : AlphabetFits lexems)
    (hnd : (lexems.map Prod.fst).Nodup) (t : List Nat) (ht : t.length ≤ max_len lexems)
    (k : Nat) :
    (make_nd_map_abs lexems).data.get (coord (max_extent_abs lexems) (t.map (get_char_index_abs lexems)))
        = some k
      ↔ ∃ el, lexems[k]? = some el ∧ ∃ z, t = el.1 ++ z ∧ ∀ b ∈ z, get_char_index_abs lexems b = 0 := by
  have hlt : coord (max_extent_abs lexems) (t.map (get_char_index_abs lexems))
      < table_size (max_extent_abs lexems) (max_len lexems) := by
    rw [table_size_eq]
    apply coord_lt_pow _ _ (max_extent_pos lexems)
    · intro d hd
      obtain ⟨b, _, rfl⟩ := List.mem_map.1 hd
      exact get_char_index_lt lexems hfit b
    · simpa using ht
  unfold make_nd_map_abs FlatArray.get
  simp only [fold_set_size, FlatArray.fill, hlt, if_true]
  have := fold_set_cell (fun el : List Nat × K => lexem_index_abs lexems
      (stride_loop (max_extent_abs lexems) (max_len lexems)) el.1) lexems
      (table_size (max_extent_abs lexems) (max_len lexems))
      (coord (max_extent_abs lexems) (t.map (get_char_index_abs lexems))) k
      (lexem_index_nodup lexems hfit hnd)
  simp only [FlatArray.fill] at this
  rw [this]
  constructor
  · rintro ⟨el, hel, hg⟩
    have hmem := List.getElem?_mem hel
    rw [lexem_index_eq lexems el.1 (max_len_ge lexems el hmem)] at hg
    exact ⟨el, hel, (coord_pattern_eq lexems hfit el hmem t).1 hg⟩
  · rintro ⟨el, hel, hz⟩
    have hmem := List.getElem?_mem hel
    refine ⟨el, hel, ?_⟩
    rw [lexem_index_eq lexems el.1 (max_len_ge lexems el hmem)]
    exact (coord_pattern_eq lexems hfit el hmem t).2 hz

theorem concat_prefix_cases (p pre : List Nat) (ch : Nat) (h : p <+: pre ++ [ch]) :
    p <+: pre ∨ p = pre ++ [ch] := by
  obtain ⟨w, hw⟩ := h
  rcases List.eq_nil_or_concat w with rfl | ⟨w', c', rfl⟩
  · right; simpa using hw
  · left
    rw [List.concat_eq_append, ← List.append_assoc] at hw
    have := List.append_inj' hw (by simp)
    exact ⟨w', this.1⟩

theorem match_loop_best {K : Type} (lexems : Lexems K) (hfit : AlphabetFits lexems)
    (hnd : (lexems.map Prod.fst).Nodup)
    (rest pre : List Nat) (found : Option Nat)
    (hlen : pre.length + rest.length ≤ max_len lexems) (hbest : Best lexems pre found) :
    Best lexems (pre ++ rest)
      (match_loop_abs lexems (make_nd_map_abs lexems) rest pre.length
        (coord (max_extent_abs lexems) (pre.map (get_char_index_abs lexems))) found) := by
  induction rest generalizing pre found with
  | nil => simpa [match_loop_abs] using hbest
  | cons ch rest ih =>
    simp only [List.length_cons] at hlen
    have hstride : (make_nd_map_abs lexems).stride.getD pre.length 0
        = max_extent_abs lexems ^ pre.length :=
      stride_loop_getD _ _ _ (by omega)
    have hidx : coord (max_extent_abs lexems) (pre.map (get_char_index_abs lexems))
          + (make_nd_map_abs lexems).stride.getD pre.length 0 * get_char_index_abs lexems ch
        = coord (max_extent_abs lexems) ((pre ++ [ch]).map (get_char_index_abs lexems)) := by
      rw [hstride, List.map_append, coord_append]
      simp [coord]
    have hpl : (pre ++ [ch]).length = pre.length + 1 := by simp
    unfold match_loop_abs
    simp only [hidx]
    rw [← hpl, show pre ++ ch :: rest = (pre ++ [ch]) ++ rest by simp]
    apply ih
    · rw [hpl]; omega
    · cases htemp : (make_nd_map_abs lexems).data.get
          (coord (max_extent_abs lexems) ((pre ++ [ch]).map (get_char_index_abs lexems))) with
      | some k =>
        simp only [npos, ne_eq, not_false_eq_true, if_true, reduceCtorEq]
        obtain ⟨el, hel, z, hz, hz0⟩ :=
          (map_data_get lexems hfit hnd (pre ++ [ch]) (by rw [hpl]; omega) k).1 htemp
        refine ⟨el, hel, ⟨z, hz.symm⟩, ?_⟩
        intro el' hel' hpre'
        by_contra hcon
        have hlt : el.1.length < el'.1.length := by omega
        -- the byte of `el'` right after `el` lies in `z`
        obtain ⟨w', hw'⟩ := hpre'
        rw [hz] at hw'
        have hpre : el.1 <+: el'.1 :=
          List.prefix_of_prefix_length_le ⟨z, rfl⟩ ⟨w', hw'⟩ (by omega)
        obtain ⟨u, hu⟩ := hpre
        have hune : u ≠ [] := by
          intro h0; rw [h0, List.append_nil] at hu; rw [hu] at hlt; omega
        rw [← hu, List.append_assoc] at hw'
        have hzu := List.append_cancel_left hw'
        obtain ⟨b, u', rfl⟩ := List.exists_cons_of_ne_nil hune
        have hbz : b ∈ z := by rw [← hzu]; simp
        have hbel : b ∈ el'.1 := by rw [← hu]; simp
        exact (pattern_syms lexems hfit el' hel' _ (List.mem_map_of_mem _ hbel)).2 (hz0 b hbz)
      | none =>
        simp only [npos, ne_eq, not_true_eq_false, if_false]
        have hnone : ∀ el ∈ lexems, el.1 ≠ pre ++ [ch] := by
          intro el hel heq
          obtain ⟨i, hi⟩ := List.getElem?_of_mem hel
          have := (map_data_get lexems hfit hnd (pre ++ [ch]) (by rw [hpl]; omega) i).2
            ⟨el, hi, [], by simp [heq], by simp⟩
          rw [htemp] at this
          exact absurd this (by simp)
        cases found with
        | none =>
          intro el hel hp
          rcases concat_prefix_cases _ _ _ hp with h | h
          · exact hbest el hel h
          · exact hnone el hel h
        | some k =>
          obtain ⟨el, hel, hp, hmax⟩ := hbest
          refine ⟨el, hel, hp.trans (List.prefix_append _ _), ?_⟩
          intro el' hel' hp'
          rcases concat_prefix_cases _ _ _ hp' with h | h
          · exact hmax el' hel' h
          · exact absurd h (hnone el' hel')

/-- `Switch::match` returns the best match among the literals that are prefixes
of the input. -/
theorem match_best {K : Type} (lexems : Lexems K) (hfit : AlphabetFits lexems)
    (hne : ∀ el ∈ lexems, el.1 ≠ []) (hnd : (lexems.map Prod.fst).Nodup) (s : List Nat) :
    Best lexems s (Switch.match_abs lexems s) := by
  have h0 : Best lexems [] none := by
    intro el hel hp
    exact hne el hel (List.prefix_nil.1 hp)
  have h1 := match_loop_best lexems hfit hnd (s.take (min (max_len lexems) s.length)) [] none
    (by simp) h0
  simp only [List.nil_append, List.length_nil, List.map_nil, coord] at h1
  have hiff : ∀ el ∈ lexems, (el.1 <+: s.take (min (max_len lexems) s.length) ↔ el.1 <+: s) := by
    intro el hel
    constructor
    · intro h; exact h.trans (List.take_prefix _ _)
    · intro h
      have hl := h.length_le
      have hm := max_len_ge lexems el hel
      rw [List.prefix_iff_eq_take] at h ⊢
      have e : min el.1.length (min (max_len lexems) s.length) = el.1.length := by omega
      rw [List.take_take, e]
      exact h
  unfold Switch.match_abs
  simp only [npos]
  cases hr : match_loop_abs lexems (make_nd_map_abs lexems) (s.take (min (max_len lexems) s.length))
      0 0 none with
  | none =>
    rw [hr] at h1
    intro el hel hp
    exact h1 el hel ((hiff el hel).2 hp)
  | some k =>
    rw [hr] at h1
    obtain ⟨el, hel, hp, hmax⟩ := h1
    exact ⟨el, hel, (hiff el (List.getElem?_mem hel)).1 hp,
      fun el' hel' hp' => hmax el' hel' ((hiff el' hel').2 hp')⟩

end dark.detail

namespace dark

open detail

theorem branch_orElse_good {K : Type} (eof : K) (src : List Nat) (c line lsp : Nat)
    (b n : Branch K) (hb : b = Branch.pass ∨ Branch.Good eof src c line lsp b)
    (hn : Branch.Good eof src c line lsp n) : Branch.Good eof src c line lsp (b.orElse n) := by
  rcases hb with rfl | ⟨t, c', rfl, h⟩
  · exact hn
  · exact ⟨t, c', rfl, h⟩

/-- A pattern-set branch passes or pushes one of its lexems, a prefix of the
view. -/
theorem switch_branch_cases {K : Type} (lexems : Lexems K) (hfit : AlphabetFits lexems)
    (hne : ∀ el ∈ lexems, el.1 ≠ []) (hnd : (lexems.map Prod.fst).Nodup)
    (source : List Nat) (c line lsp : Nat) :
    (Switch.match_abs lexems source = none ∧
      switch_branch_abs (some lexems) source c line lsp = Branch.pass) ∨
    ∃ k el, Switch.match_abs lexems source = some k ∧ lexems[k]? = some el ∧ el.1 <+: source ∧
      (∀ el' ∈ lexems, el'.1 <+: source → el'.1.length ≤ el.1.length) ∧
      switch_branch_abs (some lexems) source c line lsp =
        Branch.emit { kind := el.2, text := el.1, start := c, line := line, col := c - lsp }
          (c + el.1.length) := by
  have hb := match_best lexems hfit hne hnd source
  cases hm : Switch.match_abs lexems source with
  | none => left; exact ⟨rfl, by simp only [switch_branch_abs, hm]⟩
  | some k =>
    right
    rw [hm] at hb
    obtain ⟨el, hel, hp, hmax⟩ := hb
    refine ⟨k, el, rfl, hel, hp, hmax, ?_⟩
    simp [switch_branch_abs, hm, Switch.str_from_index, Switch.token_from_index, hel]

theorem switch_branch_good {K : Type} (eof : K) (lexems : Lexems K) (hfit : AlphabetFits lexems)
    (hne : ∀ el ∈ lexems, el.1 ≠ []) (hnd : (lexems.map Prod.fst).Nodup)
    (hnl : ∀ el ∈ lexems, ∀ b ∈ el.1.tail, b ≠ 10) (hk : ∀ el ∈ lexems, el.2 ≠ eof)
    (src : List Nat) (c line lsp : Nat) :
    switch_branch_abs (some lexems) (src.drop c) c line lsp = Branch.pass ∨
    Branch.Good eof src c line lsp (switch_branch_abs (some lexems) (src.drop c) c line lsp) := by
  rcases switch_branch_cases lexems hfit hne hnd (src.drop c) c line lsp with
    ⟨_, h⟩ | ⟨k, el, _, hel, hp, _, h⟩
  · left; exact h
  · right
    have hmem := List.getElem?_mem hel
    exact ⟨_, _, h, ⟨rfl, rfl, rfl, hp, hne el hmem, rfl, hnl el hmem⟩, hk el hmem⟩

theorem identifier_loop_acc (p : List Nat → Bool) (src : List Nat) (e : Nat) :
    identifier_loop p src e = e + identifier_loop p src 0 := by
  induction src generalizing e with
  | nil => simp [identifier_loop]
  | cons c r ih =>
    unfold identifier_loop
    split
    · rw [ih (e + 1), ih (0 + 1)]; omega
    · rfl

theorem identifier_loop_le (p : List Nat → Bool) (src : List Nat) :
    identifier_loop p src 0 ≤ src.length := by
  induction src with
  | nil => simp [identifier_loop]
  | cons c r ih =>
    unfold identifier_loop
    split
    · rw [identifier_loop_acc]; simp; omega
    · simp

theorem identifier_loop_mem (p : List Nat → Bool) (src : List Nat) :
    ∀ b ∈ src.take (identifier_loop p src 0), ∃ r, p (b :: r) = true := by
  induction src with
  | nil => simp
  | cons c r ih =>
    unfold identifier_loop
    split
    · rename_i hp
      rw [identifier_loop_acc, Nat.add_comm, Nat.zero_add, List.take_succ_cons]
      intro b hb
      rcases List.mem_cons.1 hb with h | h
      · exact ⟨r, by rw [h]; exact hp⟩
      · exact ih b h
    · simp

theorem identifier_loop_pos (p : List Nat → Bool) (c : Nat) (r : List Nat)
    (h : p (c :: r) = true) : 0 < identifier_loop p (c :: r) 0 := by
  unfold identifier_loop
  rw [if_pos h, identifier_loop_acc]; omega

theorem parse_number_loop_eq (src : List Nat) (e : Nat) :
    DefaultLexerConfig.parse_number_loop src e =
      identifier_loop (fun s => DefaultLexerConfig.is_digit s || s.head? == some 46) src e := by
  induction src generalizing e with
  | nil => rfl
  | cons c r ih =>
    unfold DefaultLexerConfig.parse_number_loop identifier_loop
    simp only [List.head?_cons, ih]
    have : (some c == some 46) = (c == 46) := by
      by_cases h : c = 46 <;> simp [h]
    simp only [this]

theorem take_run_emits {K : Type} (p : List Nat → Bool) (src : List Nat) (c line lsp : Nat)
    (kind : K) (hp : p (src.drop c) = true) (hnil : p [] = false)
    (hnl : ∀ r, p (10 :: r) = false) :
    Emits src c line lsp
      { kind := kind, text := (src.drop c).take (identifier_loop p (src.drop c) 0), start := c,
        line := line, col := c - lsp }
      (c + identifier_loop p (src.drop c) 0) := by
  have hle := identifier_loop_le p (src.drop c)
  have hne : src.drop c ≠ [] := by
    intro h0; rw [h0, hnil] at hp; exact absurd hp (by simp)
  obtain ⟨f, r, hsrc⟩ := List.exists_cons_of_ne_nil hne
  have hpos : 0 < identifier_loop p (src.drop c) 0 := by
    rw [hsrc] at hp ⊢
    exact identifier_loop_pos p f r hp
  have hlen : (src.drop c).length ≠ 0 := by rw [hsrc]; simp
  refine ⟨rfl, rfl, rfl, List.take_prefix _ _, ?_, ?_, ?_⟩
  · intro h
    have := congrArg List.length h
    simp only [List.length_take, List.length_nil] at this
    omega
  · simp only [List.length_take]; omega
  · intro b hb
    have hb' : b ∈ (src.drop c).take (identifier_loop p (src.drop c) 0) :=
      List.mem_of_mem_tail hb
    obtain ⟨r', hr'⟩ := identifier_loop_mem p (src.drop c) b hb'
    intro h10
    rw [h10, hnl] at hr'
    exact absurd hr' (by simp)

theorem identifier_branch_good {K : Type} (eof : K) (h : IdentifierHooks K)
    (hstart : ∀ s, h.is_valid_identifier_start s = true → h.is_valid_identifier s = true)
    (hnil : h.is_valid_identifier [] = false)
    (hnl : ∀ r, h.is_valid_identifier (10 :: r) = false) (hk : h.Identifier ≠ eof)
    (src : List Nat) (c line lsp : Nat) :
    identifier_branch_abs (some h) (src.drop c) c line lsp = Branch.pass ∨
    Branch.Good eof src c line lsp (identifier_branch_abs (some h) (src.drop c) c line lsp) := by
  unfold identifier_branch_abs
  by_cases hs : h.is_valid_identifier_start (src.drop c) = true
  · right
    simp only [hs, if_true]
    exact ⟨_, _, rfl, take_run_emits h.is_valid_identifier src c line lsp h.Identifier
      (hstart _ hs) hnil hnl, hk⟩
  · left; simp only [hs]; rfl

theorem default_number_branch_good (src : List Nat) (c line lsp : Nat) :
    number_branch_abs DefaultLexerConfig.numbers (src.drop c) c line lsp = Branch.pass ∨
    Branch.Good DefaultTokenKind.Eof src c line lsp
      (number_branch_abs DefaultLexerConfig.numbers (src.drop c) c line lsp) := by
  simp only [DefaultLexerConfig, number_branch_abs]
  by_cases hs : DefaultLexerConfig.is_digit (src.drop c) = true
  · right
    simp only [hs, if_true, DefaultLexerConfig.parse_number, parse_number_loop_eq]
    have hlen : ((src.drop c).take (identifier_loop
        (fun s => DefaultLexerConfig.is_digit s || s.head? == some 46) (src.drop c) 0)).length
        = identifier_loop
        (fun s => DefaultLexerConfig.is_digit s || s.head? == some 46) (src.drop c) 0 := by
      rw [List.length_take]
      exact Nat.min_eq_left (identifier_loop_le _ _)
    rw [hlen]
    refine ⟨_, _, rfl, take_run_emits _ src c line lsp DefaultTokenKind.Number ?_ ?_ ?_, ?_⟩
    · simp [hs]
    · simp [DefaultLexerConfig.is_digit]
    · intro r; simp [DefaultLexerConfig.is_digit]
    · exact (by decide : DefaultTokenKind.Number ≠ DefaultTokenKind.Eof)
  · left; simp only [hs]; rfl

theorem fallback_branch_good {K : Type} (cfg : LexerConfig K) (hk : cfg.Unknown ≠ cfg.Eof)
    (src : List Nat) (c line lsp : Nat) (hc : c < src.length) :
    Branch.Good cfg.Eof src c line lsp (fallback_branch_abs cfg (src.drop c) c line lsp) := by
  refine ⟨_, _, rfl, ⟨rfl, rfl, rfl, List.take_prefix _ _, ?_, ?_, ?_⟩, hk⟩
  · intro h
    have := congrArg List.length h
    simp only [List.length_take, List.length_drop, List.length_nil] at this
    omega
  · simp only [List.length_take, List.length_drop]; omega
  · intro b hb
    have hl : ((src.drop c).take 1).tail = [] := by
      cases src.drop c <;> simp
    rw [hl] at hb
    exact absurd hb (by simp)

theorem default_whitespace_wf :
    AlphabetFits DefaultLexerConfig.whitespace ∧
    (∀ el ∈ DefaultLexerConfig.whitespace, el.1 ≠ []) ∧
    (DefaultLexerConfig.whitespace.map Prod.fst).Nodup ∧
    (∀ el ∈ DefaultLexerConfig.whitespace, ∀ b ∈ el.1.tail, b ≠ 10) ∧
    (∀ el ∈ DefaultLexerConfig.whitespace, el.2 ≠ DefaultTokenKind.Eof) := by
  decide

theorem default_punctuations_wf :
    AlphabetFits DefaultLexerConfig.punctuations ∧
    (∀ el ∈ DefaultLexerConfig.punctuations, el.1 ≠ []) ∧
    (DefaultLexerConfig.punctuations.map Prod.fst).Nodup ∧
    (∀ el ∈ DefaultLexerConfig.punctuations, ∀ b ∈ el.1.tail, b ≠ 10) ∧
    (∀ el ∈ DefaultLexerConfig.punctuations, el.2 ≠ DefaultTokenKind.Eof) := by
  decide

theorem default_operators_wf :
    AlphabetFits DefaultLexerConfig.operators ∧
    (∀ el ∈ DefaultLexerConfig.operators, el.1 ≠ []) ∧
    (DefaultLexerConfig.operators.map Prod.fst).Nodup ∧
    (∀ el ∈ DefaultLexerConfig.operators, ∀ b ∈ el.1.tail, b ≠ 10) ∧
    (∀ el ∈ DefaultLexerConfig.operators, el.2 ≠ DefaultTokenKind.Eof) := by
  decide

/-- Every iteration of the default configuration is regular. -/
theorem default_regular : Regular DefaultLexerConfig := by
  intro src c line lsp hc
  unfold lex_branches_abs
  obtain ⟨w1, w2, w3, w4, w5⟩ := default_whitespace_wf
  obtain ⟨p1, p2, p3, p4, p5⟩ := default_punctuations_wf
  obtain ⟨o1, o2, o3, o4, o5⟩ := default_operators_wf
  apply branch_orElse_good _ _ _ _ _ _ _
    (switch_branch_good _ _ w1 w2 w3 w4 w5 src c line lsp)
  apply branch_orElse_good _ _ _ _ _ _ _
    (switch_branch_good _ _ p1 p2 p3 p4 p5 src c line lsp)
  apply branch_orElse_good _ _ _ _ _ _ _
    (switch_branch_good _ _ o1 o2 o3 o4 o5 src c line lsp)
  apply branch_orElse_good _ _ _ _ _ _ _
    (identifier_branch_good _ _ ?_ ?_ ?_ ?_ src c line lsp)
  apply branch_orElse_good _ _ _ _ _ _ _ (default_number_branch_good src c line lsp)
  · exact fallback_branch_good DefaultLexerConfig (by decide) src c line lsp hc
  · intro s hs
    have hs' : DefaultLexerConfig.is_valid_identifier_start s = true := hs
    simp only [DefaultLexerConfig.is_valid_identifier, hs', if_true]
  · rfl
  · intro r
    simp [DefaultLexerConfig.is_valid_identifier, DefaultLexerConfig.is_valid_identifier_start]
  · decide

theorem contiguous_append {K : Type} (a m : Nat) (ts : List (Token K)) (t : Token K)
    (h : Contiguous a ts m) (ht : t.start = m) :
    Contiguous a (ts ++ [t]) (m + t.text.length) := by
  induction ts generalizing a with
  | nil =>
    simp only [Contiguous] at h
    subst h
    exact ⟨ht, rfl⟩
  | cons u us ih =>
    exact ⟨h.1, ih _ h.2⟩

theorem emits_length_le {K : Type} {s : List Nat} {c line lsp c' : Nat} {t : Token K}
    (h : Emits s c line lsp t c') : c' ≤ s.length ∧ c < c' := by
  have h1 := h.text.length_le
  have h2 : 0 < t.text.length := List.length_pos.2 h.nonempty
  rw [List.length_drop] at h1
  rw [h.cursor]
  omega

theorem emits_text_eq {K : Type} {s : List Nat} {c line lsp c' : Nat} {t : Token K}
    (h : Emits s c line lsp t c') : t.text = (s.drop c).take t.text.length :=
  List.prefix_iff_eq_take.1 h.text

theorem emits_take {K : Type} {s : List Nat} {c line lsp c' : Nat} {t : Token K}
    (h : Emits s c line lsp t c') : s.take c' = s.take c ++ t.text := by
  rw [h.cursor, List.take_add, ← (emits_text_eq h)]

theorem emits_head {K : Type} {s : List Nat} {c line lsp c' : Nat} {t : Token K}
    (h : Emits s c line lsp t c') : t.text.head? = s[c]? := by
  obtain ⟨w, hw⟩ := h.text
  have h0 := h.nonempty
  cases htx : t.text with
  | nil => exact absurd htx h0
  | cons f r =>
    rw [htx] at hw
    have : (s.drop c)[0]? = some f := by rw [← hw]; simp
    rw [List.getElem?_drop] at this
    simpa using this.symm

theorem emits_inner {K : Type} {s : List Nat} {c line lsp c' : Nat} {t : Token K}
    (h : Emits s c line lsp t c') (q : Nat) (h1 : c < q) (h2 : q < c') :
    s[q]? ≠ some 10 := by
  obtain ⟨w, hw⟩ := h.text
  have hc := h.cursor
  intro hq
  have e1 : (s.drop c)[q - c]? = some 10 := by
    rw [List.getElem?_drop]
    rw [show c + (q - c) = q by omega]
    exact hq
  rw [← hw, List.getElem?_append_left (by omega)] at e1
  cases htx : t.text with
  | nil => rw [htx] at e1; simp at e1
  | cons f r =>
    rw [htx] at e1
    obtain ⟨j, hj⟩ : ∃ j, q - c = j + 1 := ⟨q - c - 1, by omega⟩
    rw [hj, List.getElem?_cons_succ] at e1
    have hm : 10 ∈ t.text.tail := by rw [htx]; exact List.getElem?_mem e1
    exact h.no_newline 10 hm rfl

theorem emits_count {K : Type} {s : List Nat} {c line lsp c' : Nat} {t : Token K}
    (h : Emits s c line lsp t c') :
    t.text.count 10 = if s[c]? = some 10 then 1 else 0 := by
  rw [← emits_head h]
  have hn := h.no_newline
  cases htx : t.text with
  | nil => exact absurd htx h.nonempty
  | cons f r =>
    rw [htx] at hn
    simp only [List.tail_cons] at hn
    have hr : r.count 10 = 0 := List.count_eq_zero.2 (fun hm => hn 10 hm rfl)
    by_cases hf : f = 10
    · subst hf; simp [hr]
    · simp [hr, hf, List.count_cons]

theorem count_take_succ (s : List Nat) (c : Nat) :
    (s.take (c + 1)).count 10 = (s.take c).count 10 + if s[c]? = some 10 then 1 else 0 := by
  rw [List.take_succ, List.count_append]
  congr 1
  cases h : s[c]? with
  | none => simp
  | some x =>
    by_cases hx : x = 10
    · subst hx; simp
    · simp [hx, List.count_cons]

/-- What one iteration does in a regular configuration, whatever the state. -/
theorem lex_iteration_regular {K : Type} (cfg : LexerConfig K) (hreg : Regular cfg)
    (s : List Nat) (st : LoopState K) (hc : st.m_cursor < s.length) :
    ∃ t c', Emits s st.m_cursor
        (if s[st.m_cursor]? = some 10 then st.line + 1 else st.line)
        (if s[st.m_cursor]? = some 10 then st.m_cursor else st.line_start_pos) t c' ∧
      t.kind ≠ cfg.Eof ∧
      lex_iteration_abs cfg s st = some
        { m_cursor := c',
          line := if s[st.m_cursor]? = some 10 then st.line + 1 else st.line,
          line_start_pos := if s[st.m_cursor]? = some 10 then st.m_cursor else st.line_start_pos,
          tokens := st.tokens ++ [t] } := by
  obtain ⟨t, c', hb, he, hk⟩ := hreg s st.m_cursor
    (if s[st.m_cursor]? = some 10 then st.line + 1 else st.line)
    (if s[st.m_cursor]? = some 10 then st.m_cursor else st.line_start_pos) hc
  refine ⟨t, c', he, hk, ?_⟩
  unfold lex_iteration_abs
  simp only [List.head?_drop, hb]

theorem lex_iteration_inv {K : Type} (cfg : LexerConfig K) (hreg : Regular cfg)
    (s : List Nat) (st : LoopState K) (hinv : LoopInv s cfg.Eof st) (hc : st.m_cursor < s.length) :
    ∃ st', lex_iteration_abs cfg s st = some st' ∧ LoopInv s cfg.Eof st' ∧
      st.m_cursor < st'.m_cursor := by
  obtain ⟨t, c', he, hk, hit⟩ := lex_iteration_regular cfg hreg s st hc
  refine ⟨_, hit, ?_, (emits_length_le he).2⟩
  have hcol : ColAt s st.m_cursor
      (st.m_cursor - if s[st.m_cursor]? = some 10 then st.m_cursor else st.line_start_pos) := by
    by_cases hnl : s[st.m_cursor]? = some 10
    · left
      exact ⟨st.m_cursor, le_refl _, hnl, fun q h1 h2 => by omega, by simp [hnl]⟩
    · rcases hinv.ls with ⟨h1, h2, h3⟩ | ⟨h1, h2⟩
      · left
        refine ⟨st.line_start_pos, by omega, h2, ?_, by simp [hnl]⟩
        intro q hq1 hq2
        by_cases hqc : q = st.m_cursor
        · rw [hqc]; exact hnl
        · exact h3 q hq1 (by omega)
      · right
        refine ⟨?_, by simp [hnl, h1]⟩
        intro q hq
        by_cases hqc : q = st.m_cursor
        · rw [hqc]; exact hnl
        · exact h2 q (by omega)
  refine ⟨(emits_length_le he).1, ?_, ?_, ?_, ?_, ?_⟩
  · simp only [List.map_append, List.flatten_append, hinv.cover, (emits_take he)]
    simp
  · have := contiguous_append 0 st.m_cursor st.tokens t hinv.contiguous he.start
    rw [he.cursor]; exact this
  · intro u hu
    rcases List.mem_append.1 hu with h | h
    · exact hinv.each u h
    · rw [List.mem_singleton] at h
      subst h
      refine ⟨by rw [he.start]; exact he.text, he.nonempty, hk, ?_, ?_⟩
      · rw [he.line, he.start, count_take_succ, hinv.line]
        split <;> rfl
      · rw [he.col, he.start]; exact hcol
  · simp only [(emits_take he), List.count_append, (emits_count he), hinv.line]
    split <;> rfl
  · simp only
    by_cases hnl : s[st.m_cursor]? = some 10
    · left
      rw [if_pos hnl]
      exact ⟨(emits_length_le he).2, hnl, fun q h1 h2 => emits_inner he q h1 h2⟩
    · rw [if_neg hnl]
      rcases hinv.ls with ⟨h1, h2, h3⟩ | ⟨h1, h2⟩
      · left
        refine ⟨by have := (emits_length_le he).2; omega, h2, ?_⟩
        intro q hq1 hq2
        rcases Nat.lt_trichotomy q st.m_cursor with h | h | h
        · exact h3 q hq1 h
        · rw [h]; exact hnl
        · exact emits_inner he q h hq2
      · right
        refine ⟨h1, ?_⟩
        intro q hq
        rcases Nat.lt_trichotomy q st.m_cursor with h | h | h
        · exact h2 q h
        · rw [h]; exact hnl
        · exact emits_inner he q h hq

theorem lex_loop_inv {K : Type} (cfg : LexerConfig K) (hreg : Regular cfg) (s : List Nat)
    (fuel : Nat) (st : LoopState K) (hinv : LoopInv s cfg.Eof st)
    (hfuel : s.length - st.m_cursor ≤ fuel) :
    ∃ st', lex_loop_abs cfg s fuel st = some st' ∧ LoopInv s cfg.Eof st' ∧
      st'.m_cursor = s.length := by
  induction fuel generalizing st with
  | zero =>
    have hle := hinv.le
    refine ⟨st, ?_, hinv, by omega⟩
    unfold lex_loop_abs
    rw [if_neg (by omega)]
  | succ fuel ih =>
    by_cases hc : st.m_cursor < s.length
    · obtain ⟨st1, h1, hinv1, hlt⟩ := lex_iteration_inv cfg hreg s st hinv hc
      obtain ⟨st2, h2, hinv2, hfin⟩ := ih st1 hinv1 (by omega)
      refine ⟨st2, ?_, hinv2, hfin⟩
      unfold lex_loop_abs
      rw [if_pos hc]
      simp only [h1, h2]
    · have hle := hinv.le
      refine ⟨st, ?_, hinv, by omega⟩
      unfold lex_loop_abs
      rw [if_neg hc]

theorem loop_inv_init {K : Type} (s : List Nat) (eof : K) :
    LoopInv s eof { m_cursor := 0, line := 0, line_start_pos := 0, tokens := [] } where
  le := Nat.zero_le _
  cover := by simp
  contiguous := rfl
  each := by intro t ht; simp at ht
  line := by simp
  ls := Or.inr ⟨rfl, fun q hq => absurd hq (Nat.not_lt_zero q)⟩

/-- In a regular configuration `lex` on a fresh lexer ends, and the loop
invariant holds of the tokens before the `Eof` token. -/
theorem lex_regular {K : Type} (cfg : LexerConfig K) (hreg : Regular cfg) (s : List Nat) :
    ∃ st : LoopState K, LoopInv s cfg.Eof st ∧ st.m_cursor = s.length ∧
      Lexer.lex_abs cfg (Lexer.new s) = some
        (st.tokens ++ [{ kind := cfg.Eof, text := [], start := st.m_cursor, line := st.line,
                         col := st.m_cursor - st.line_start_pos }],
         { m_cursor := st.m_cursor, m_source := s }) := by
  obtain ⟨st, h1, hinv, hfin⟩ := lex_loop_inv cfg hreg s s.length _ (loop_inv_init s cfg.Eof)
    (by simp)
  refine ⟨st, hinv, hfin, ?_⟩
  unfold Lexer.lex_abs Lexer.new
  simp only [h1]

theorem contiguous_head {K : Type} (a b : Nat) (t : Token K) (ts : List (Token K))
    (h : Contiguous a (t :: ts) b) : t.start = a := h.1

theorem contiguous_next {K : Type} (a b : Nat) (ts : List (Token K)) (h : Contiguous a ts b)
    (i : Nat) (t u : Token K) (ht : ts[i]? = some t) (hu : ts[i + 1]? = some u) :
    u.start = t.start + t.text.length := by
  induction ts generalizing a i with
  | nil => simp at ht
  | cons x xs ih =>
    cases i with
    | zero =>
      simp only [List.getElem?_cons_zero, Option.some.injEq] at ht
      subst ht
      cases xs with
      | nil => simp at hu
      | cons y ys =>
        simp only [Nat.zero_add, List.getElem?_cons_succ, List.getElem?_cons_zero,
          Option.some.injEq] at hu
        subst hu
        rw [h.2.1, h.1]
    | succ i =>
      simp only [List.getElem?_cons_succ] at ht hu
      exact ih _ h.2 i ht hu

theorem sum_length_ge {K : Type} (ts : List (Token K)) (h : ∀ t ∈ ts, t.text ≠ []) :
    ts.length ≤ (ts.map (fun t => t.text.length)).sum := by
  induction ts with
  | nil => simp
  | cons t ts ih =>
    have h1 : 0 < t.text.length := List.length_pos.2 (h t (by simp))
    have h2 := ih (fun u hu => h u (by simp [hu]))
    simp only [List.length_cons, List.map_cons, List.sum_cons]
    omega

theorem lex_iteration_tokens {K : Type} (cfg : LexerConfig K) (s : List Nat)
    (st st1 : LoopState K) (h : lex_iteration_abs cfg s st = some st1) :
    ∃ t c, lex_branches_abs cfg (s.drop st.m_cursor) st.m_cursor
        (if (s.drop st.m_cursor).head? = some 10 then st.line + 1 else st.line)
        (if (s.drop st.m_cursor).head? = some 10 then st.m_cursor else st.line_start_pos)
        = Branch.emit t c ∧ st1.tokens = st.tokens ++ [t] := by
  unfold lex_iteration_abs at h
  simp only at h
  split at h
  · rename_i t c hb
    simp only [Option.some.injEq] at h
    exact ⟨t, c, hb, by rw [← h]⟩
  · simp at h

theorem lex_loop_tokens {K : Type} (cfg : LexerConfig K) (s : List Nat) (fuel : Nat)
    (st st' : LoopState K) (h : lex_loop_abs cfg s fuel st = some st') :
    ∃ more, st'.tokens = st.tokens ++ more := by
  induction fuel generalizing st with
  | zero =>
    unfold lex_loop_abs at h
    split at h
    · simp at h
    · simp only [Option.some.injEq] at h
      exact ⟨[], by rw [h]; simp⟩
  | succ fuel ih =>
    unfold lex_loop_abs at h
    split at h
    · simp only at h
      cases hit : lex_iteration_abs cfg s st with
      | none => rw [hit] at h; simp at h
      | some st1 =>
        rw [hit] at h
        obtain ⟨t, c, _, ht⟩ := lex_iteration_tokens cfg s st st1 hit
        obtain ⟨more, hm⟩ := ih st1 h
        exact ⟨t :: more, by rw [hm, ht]; simp⟩
    · simp only [Option.some.injEq] at h
      exact ⟨[], by rw [h]; simp⟩

/-- The first token `lex` returns on a non-empty source is the one the branches
push at offset `0`. -/
theorem lex_first_token {K : Type} (cfg : LexerConfig K) (s : List Nat) (toks : List (Token K))
    (l : Lexer) (hs : s ≠ []) (hlex : Lexer.lex_abs cfg (Lexer.new s) = some (toks, l)) :
    ∃ t c, lex_branches_abs cfg s 0 (if s.head? = some 10 then 1 else 0) 0 = Branch.emit t c ∧
      toks.head? = some t := by
  unfold Lexer.lex_abs Lexer.new at hlex
  simp only at hlex
  obtain ⟨n, hn⟩ : ∃ n, s.length = n + 1 := ⟨s.length - 1, by
    have := List.length_pos.2 hs; omega⟩
  rw [hn] at hlex
  unfold lex_loop_abs at hlex
  simp only [hn, Nat.zero_lt_succ, if_true] at hlex
  cases hit : lex_iteration_abs cfg s
      { m_cursor := 0, line := 0, line_start_pos := 0, tokens := [] } with
  | none => rw [hit] at hlex; simp at hlex
  | some st1 =>
    rw [hit] at hlex
    simp only at hlex
    obtain ⟨t, c, hb, ht⟩ := lex_iteration_tokens cfg s _ st1 hit
    simp only [List.drop_zero, List.nil_append, Nat.zero_add] at hb ht
    cases hl : lex_loop_abs cfg s n st1 with
    | none => rw [hl] at hlex; simp at hlex
    | some st2 =>
      rw [hl] at hlex
      simp only [Option.some.injEq, Prod.mk.injEq] at hlex
      obtain ⟨more, hm⟩ := lex_loop_tokens cfg s n st1 st2 hl
      refine ⟨t, c, ?_, ?_⟩
      · have e : (if s.head? = some 10 then (0 : Nat) else 0) = 0 := by split <;> rfl
        rw [e] at hb
        exact hb
      · rw [← hlex.1, hm, ht]; rfl

theorem branch_orElse_emit {K : Type} (b n : Branch K) (t : Token K) (c : Nat)
    (h : b.orElse n = Branch.emit t c) :
    b = Branch.emit t c ∨ (b = Branch.pass ∧ n = Branch.emit t c) := by
  cases b with
  | pass => right; exact ⟨rfl, h⟩
  | emit u d => left; exact h
  | undefined => simp [Branch.orElse] at h

theorem switch_branch_start {K : Type} (set : Option (Lexems K)) (source : List Nat)
    (m_cursor line lsp : Nat) (t : Token K) (c : Nat)
    (h : switch_branch_abs set source m_cursor line lsp = Branch.emit t c) : t.start = m_cursor := by
  unfold switch_branch_abs at h
  split at h
  · simp at h
  · split at h
    · split at h
      · simp only [Branch.emit.injEq] at h
        rw [← h.1]
      · simp at h
    · simp at h

theorem lex_branches_start {K : Type} (cfg : LexerConfig K) (source : List Nat)
    (m_cursor line lsp : Nat) (t : Token K) (c : Nat)
    (h : lex_branches_abs cfg source m_cursor line lsp = Branch.emit t c) : t.start = m_cursor := by
  unfold lex_branches_abs at h
  rcases branch_orElse_emit _ _ _ _ h with h1 | ⟨_, h⟩
  · exact switch_branch_start _ _ _ _ _ _ _ h1
  rcases branch_orElse_emit _ _ _ _ h with h1 | ⟨_, h⟩
  · exact switch_branch_start _ _ _ _ _ _ _ h1
  rcases branch_orElse_emit _ _ _ _ h with h1 | ⟨_, h⟩
  · exact switch_branch_start _ _ _ _ _ _ _ h1
  rcases branch_orElse_emit _ _ _ _ h with h1 | ⟨_, h⟩
  · unfold identifier_branch_abs at h1
    split at h1
    · simp at h1
    · split at h1
      · simp only [Branch.emit.injEq] at h1
        rw [← h1.1]
      · simp at h1
  rcases branch_orElse_emit _ _ _ _ h with h1 | ⟨_, h⟩
  · unfold number_branch_abs at h1
    split at h1
    · simp at h1
    · split at h1
      · simp only [Branch.emit.injEq] at h1
        rw [← h1.1]
      · simp at h1
  · unfold fallback_branch_abs at h
    simp only [Branch.emit.injEq] at h
    rw [← h.1]

theorem switch_branch_reposition {K : Type} (set : Option (Lexems K)) (source : List Nat)
    (c line lsp line2 lsp2 : Nat) :
    switch_branch_abs set source c line2 lsp2 =
      (switch_branch_abs set source c line lsp).reposition c line2 lsp2 := by
  unfold switch_branch_abs
  cases set with
  | none => rfl
  | some lexems =>
    simp only
    cases Switch.match_abs lexems source with
    | none => rfl
    | some id =>
      simp only
      cases Switch.str_from_index lexems id <;> cases Switch.token_from_index lexems id <;> rfl

theorem identifier_branch_reposition {K : Type} (hooks : Option (IdentifierHooks K))
    (source : List Nat) (c line lsp line2 lsp2 : Nat) :
    identifier_branch_abs hooks source c line2 lsp2 =
      (identifier_branch_abs hooks source c line lsp).reposition c line2 lsp2 := by
  unfold identifier_branch_abs
  cases hooks with
  | none => rfl
  | some h =>
    simp only
    split <;> rfl

theorem number_branch_reposition {K : Type} (hooks : Option (NumberHooks K))
    (source : List Nat) (c line lsp line2 lsp2 : Nat) :
    number_branch_abs hooks source c line2 lsp2 =
      (number_branch_abs hooks source c line lsp).reposition c line2 lsp2 := by
  unfold number_branch_abs
  cases hooks with
  | none => rfl
  | some h =>
    simp only
    split <;> rfl

theorem orElse_reposition {K : Type} (c line lsp : Nat) (b n : Branch K) :
    (b.orElse n).reposition c line lsp =
      (b.reposition c line lsp).orElse (n.reposition c line lsp) := by
  cases b <;> rfl

/-- The locals `line` and `line_start_pos` only enter the line and column of
the token an iteration pushes. -/
theorem lex_branches_reposition {K : Type} (cfg : LexerConfig K) (source : List Nat)
    (c line lsp line2 lsp2 : Nat) :
    lex_branches_abs cfg source c line2 lsp2 =
      (lex_branches_abs cfg source c line lsp).reposition c line2 lsp2 := by
  unfold lex_branches_abs
  simp only [orElse_reposition]
  rw [← switch_branch_reposition, ← switch_branch_reposition, ← switch_branch_reposition,
    ← identifier_branch_reposition, ← number_branch_reposition]
  rfl

theorem switch_branch_cursor {K : Type} (set : Option (Lexems K)) (source : List Nat)
    (m_cursor line lsp : Nat) (t : Token K) (c : Nat)
    (h : switch_branch_abs set source m_cursor line lsp = Branch.emit t c) : m_cursor ≤ c := by
  unfold switch_branch_abs at h
  split at h
  · simp at h
  · split at h
    · split at h
      · simp only [Branch.emit.injEq] at h
        omega
      · simp at h
    · simp at h

/-- No iteration moves the cursor backwards. -/
theorem lex_branches_cursor {K : Type} (cfg : LexerConfig K) (source : List Nat)
    (m_cursor line lsp : Nat) (t : Token K) (c : Nat)
    (h : lex_branches_abs cfg source m_cursor line lsp = Branch.emit t c) : m_cursor ≤ c := by
  unfold lex_branches_abs at h
  rcases branch_orElse_emit _ _ _ _ h with h1 | ⟨_, h⟩
  · exact switch_branch_cursor _ _ _ _ _ _ _ h1
  rcases branch_orElse_emit _ _ _ _ h with h1 | ⟨_, h⟩
  · exact switch_branch_cursor _ _ _ _ _ _ _ h1
  rcases branch_orElse_emit _ _ _ _ h with h1 | ⟨_, h⟩
  · exact switch_branch_cursor _ _ _ _ _ _ _ h1
  rcases branch_orElse_emit _ _ _ _ h with h1 | ⟨_, h⟩
  · unfold identifier_branch_abs at h1
    split at h1
    · simp at h1
    · split at h1
      · simp only [Branch.emit.injEq] at h1
        omega
      · simp at h1
  rcases branch_orElse_emit _ _ _ _ h with h1 | ⟨_, h⟩
  · unfold number_branch_abs at h1
    split at h1
    · simp at h1
    · split at h1
      · simp only [Branch.emit.injEq] at h1
        omega
      · simp at h1
  · unfold fallback_branch_abs at h
    simp only [Branch.emit.injEq] at h
    omega

/-- Where an iteration leaves the cursor depends on the cursor it starts from
only. -/
theorem lex_iteration_cursor {K : Type} (cfg : LexerConfig K) (s : List Nat)
    (st st1 st2 : LoopState K) (h : lex_iteration_abs cfg s st = some st1)
    (hc : st2.m_cursor = st.m_cursor) :
    st.m_cursor ≤ st1.m_cursor ∧
    ∃ st3, lex_iteration_abs cfg s st2 = some st3 ∧ st3.m_cursor = st1.m_cursor := by
  unfold lex_iteration_abs at h ⊢
  simp only at h ⊢
  split at h
  · rename_i t c hb
    simp only [Option.some.injEq] at h
    refine ⟨by rw [← h]; exact lex_branches_cursor _ _ _ _ _ _ _ hb, ?_⟩
    rw [hc, lex_branches_reposition cfg _ st.m_cursor
      (if (s.drop st.m_cursor).head? = some 10 then st.line + 1 else st.line)
      (if (s.drop st.m_cursor).head? = some 10 then st.m_cursor else st.line_start_pos), hb]
    simp only [Branch.reposition]
    exact ⟨_, rfl, by rw [← h]⟩
  · simp at h

theorem lex_loop_succ {K : Type} (cfg : LexerConfig K) (s : List Nat) (fuel : Nat)
    (st r : LoopState K) (h : lex_loop_abs cfg s fuel st = some r) :
    lex_loop_abs cfg s (fuel + 1) st = some r := by
  induction fuel generalizing st with
  | zero =>
    unfold lex_loop_abs at h ⊢
    split at h
    · simp at h
    · rename_i hc; rw [if_neg hc]; exact h
  | succ fuel ih =>
    unfold lex_loop_abs at h ⊢
    split at h
    · rename_i hc
      rw [if_pos hc]
      simp only at h ⊢
      cases hit : lex_iteration_abs cfg s st with
      | none => rw [hit] at h; simp at h
      | some st1 =>
        rw [hit] at h
        simp only at h ⊢
        exact ih st1 h
    · rename_i hc; rw [if_neg hc]; exact h

theorem lex_loop_mono {K : Type} (cfg : LexerConfig K) (s : List Nat) (fuel fuel2 : Nat)
    (st r : LoopState K) (h : lex_loop_abs cfg s fuel st = some r) (hle : fuel ≤ fuel2) :
    lex_loop_abs cfg s fuel2 st = some r := by
  induction hle with
  | refl => exact h
  | step _ ih => exact lex_loop_succ cfg s _ st r ih

/-- An iteration that leaves the cursor in place repeats for ever: the loop
does not end from any state with that cursor. -/
theorem lex_loop_stuck {K : Type} (cfg : LexerConfig K) (s : List Nat) (c : Nat)
    (hc : c < s.length)
    (hstuck : ∀ st st1 : LoopState K, st.m_cursor = c → lex_iteration_abs cfg s st = some st1 →
      st1.m_cursor = c)
    (fuel : Nat) (st : LoopState K) (hst : st.m_cursor = c) :
    lex_loop_abs cfg s fuel st = none := by
  induction fuel generalizing st with
  | zero =>
    unfold lex_loop_abs
    rw [if_pos (by rw [hst]; exact hc)]
  | succ fuel ih =>
    unfold lex_loop_abs
    rw [if_pos (by rw [hst]; exact hc)]
    simp only
    cases hit : lex_iteration_abs cfg s st with
    | none => rfl
    | some st1 => exact ih st1 (hstuck st st1 hst hit)

/-- The fuel of `lex` is enough: when the scan loop ends after any number of
iterations, it ends within `m_source.size() - m_cursor` of them with the same
state. -/
theorem lex_loop_fuel {K : Type} (cfg : LexerConfig K) (s : List Nat) (fuel : Nat)
    (st r : LoopState K) (h : lex_loop_abs cfg s fuel st = some r) :
    lex_loop_abs cfg s (s.length - st.m_cursor) st = some r := by
  induction fuel generalizing st with
  | zero =>
    unfold lex_loop_abs at h
    split at h
    · simp at h
    · rename_i hc
      unfold lex_loop_abs
      rw [if_neg hc]; exact h
  | succ fuel ih =>
    unfold lex_loop_abs at h
    split at h
    · rename_i hc
      simp only at h
      cases hit : lex_iteration_abs cfg s st with
      | none => rw [hit] at h; simp at h
      | some st1 =>
        rw [hit] at h
        simp only at h
        have hge := (lex_iteration_cursor cfg s st st1 st hit rfl).1
        have hlt : st.m_cursor < st1.m_cursor := by
          rcases Nat.lt_or_ge st.m_cursor st1.m_cursor with hl | hl
          · exact hl
          · exfalso
            have heq : st1.m_cursor = st.m_cursor := by omega
            have hstuck : ∀ a a1 : LoopState K, a.m_cursor = st.m_cursor →
                lex_iteration_abs cfg s a = some a1 → a1.m_cursor = st.m_cursor := by
              intro a a1 ha ha1
              obtain ⟨_, st3, h3, h3c⟩ := lex_iteration_cursor cfg s st st1 a hit ha
              rw [ha1] at h3
              simp only [Option.some.injEq] at h3
              rw [h3, h3c, heq]
            have := lex_loop_stuck cfg s st.m_cursor hc hstuck fuel st1 heq
            rw [this] at h
            simp at h
        have h1 := ih st1 h
        have h2 := lex_loop_mono cfg s _ (s.length - st.m_cursor - 1) st1 r h1 (by omega)
        obtain ⟨m, hm⟩ : ∃ m, s.length - st.m_cursor = m + 1 :=
          ⟨s.length - st.m_cursor - 1, by omega⟩
        rw [hm]
        unfold lex_loop_abs
        rw [if_pos hc]
        simp only [hit]
        rw [show m = s.length - st.m_cursor - 1 by omega]
        exact h2
    · rename_i hc
      unfold lex_loop_abs
      rw [if_neg hc]; exact h

/-- The scan loop ends after some number of iterations exactly when it ends
within the `m_source.size()` iterations that `lex` allows. -/
theorem lex_loop_abs_ends_iff {K : Type} (cfg : LexerConfig K) (s : List Nat)
    (st r : LoopState K) :
    (∃ fuel, lex_loop_abs cfg s fuel st = some r) ↔ lex_loop_abs cfg s s.length st = some r := by
  constructor
  · rintro ⟨fuel, h⟩
    exact lex_loop_mono cfg s _ _ st r (lex_loop_fuel cfg s fuel st r h) (Nat.sub_le _ _)
  · intro h
    exact ⟨_, h⟩

/-- In the abstract model: under the default configuration `lex` returns, for every input `s`,
tokens whose texts, concatenated in emission order with the final `Eof` token
included, are exactly `s`. -/
theorem lex_round_trip_abs (s : List Nat) :
    ∃ toks l, Lexer.lex_abs DefaultLexerConfig (Lexer.new s) = some (toks, l) ∧
      (toks.map Token.text).flatten = s := by
  obtain ⟨st, hinv, hfin, hlex⟩ := lex_regular DefaultLexerConfig default_regular s
  refine ⟨_, _, hlex, ?_⟩
  simp only [List.map_append, List.flatten_append, hinv.cover, hfin, List.take_length]
  simp

/-- In the abstract model: under the default configuration, on an input of length `n`, every
iteration of the scan loop moves the cursor forward by at least one byte and
not past `n`; `lex` returns; it returns at most `n + 1` tokens; and the text
lengths of the tokens before the final `Eof` token sum to `n`. -/
theorem lex_terminates_with_progress_abs (s : List Nat) :
    (∀ st : LoopState DefaultTokenKind, st.m_cursor < s.length →
      ∃ st', lex_iteration_abs DefaultLexerConfig s st = some st' ∧
        st.m_cursor + 1 ≤ st'.m_cursor ∧ st'.m_cursor ≤ s.length) ∧
    ∃ toks l, Lexer.lex_abs DefaultLexerConfig (Lexer.new s) = some (toks, l) ∧
      toks.length ≤ s.length + 1 ∧
      (toks.dropLast.map (fun t => t.text.length)).sum = s.length ∧
      (toks.getLast?.map Token.kind = some DefaultTokenKind.Eof) := by
  constructor
  · intro st hc
    obtain ⟨t, c', he, _, hit⟩ := lex_iteration_regular DefaultLexerConfig default_regular s st hc
    exact ⟨_, hit, (emits_length_le he).2, (emits_length_le he).1⟩
  · obtain ⟨st, hinv, hfin, hlex⟩ := lex_regular DefaultLexerConfig default_regular s
    refine ⟨_, _, hlex, ?_, ?_, ?_⟩
    · have h1 := sum_length_ge st.tokens (fun t ht => (hinv.each t ht).nonempty)
      have h2 : (st.tokens.map (fun t => t.text.length)).sum = s.length := by
        have := congrArg List.length hinv.cover
        rw [List.length_flatten, List.map_map, hfin, List.take_length] at this
        exact this
      simp only [List.length_append, List.length_cons, List.length_nil]
      omega
    · rw [List.dropLast_concat]
      have := congrArg List.length hinv.cover
      rw [List.length_flatten, List.map_map, hfin, List.take_length] at this
      exact this
    · simp [DefaultLexerConfig]

/-- In the abstract model: under the default configuration, for every input `s` the returned
tokens `t_0 .. t_m` satisfy `t_0.start = 0`, `t_(i+1).start = t_i.start +
|t_i.text|`, `t_m.start = |s|`, and the text of every token, also of one
pushed by a pattern set, is the slice of `s` of that length at `start`. -/
theorem lex_token_positions_abs (s : List Nat) :
    ∃ toks l, Lexer.lex_abs DefaultLexerConfig (Lexer.new s) = some (toks, l) ∧
      toks.head?.map Token.start = some 0 ∧
      (∀ i t u, toks[i]? = some t → toks[i + 1]? = some u →
        u.start = t.start + t.text.length) ∧
      toks.getLast?.map Token.start = some s.length ∧
      ∀ t ∈ toks, t.text = (s.drop t.start).take t.text.length := by
  obtain ⟨st, hinv, hfin, hlex⟩ := lex_regular DefaultLexerConfig default_regular s
  have hcont := contiguous_append 0 st.m_cursor st.tokens
    { kind := DefaultLexerConfig.Eof, text := [], start := st.m_cursor, line := st.line,
      col := st.m_cursor - st.line_start_pos } hinv.contiguous rfl
  refine ⟨_, _, hlex, ?_, ?_, ?_, ?_⟩
  · cases htk : st.tokens with
    | nil =>
      have := hinv.contiguous
      rw [htk] at this
      simp only [Contiguous] at this
      simp [← this]
    | cons t ts =>
      have := hinv.contiguous
      rw [htk] at this
      simp [this.1]
  · intro i t u ht hu
    exact contiguous_next 0 _ _ hcont i t u ht hu
  · simp [hfin]
  · intro t ht
    rcases List.mem_append.1 ht with h | h
    · exact List.prefix_iff_eq_take.1 (hinv.each t h).text
    · rw [List.mem_singleton] at h
      subst h
      simp

/-- In the abstract model: for every configuration and every non-empty input `s`, the first
token `lex` returns starts at offset 0 and comes from the first category that
claims `s`, in the order whitespace set, punctuation set, operator set,
identifier hooks, number hooks, `Unknown` fallback; it carries that category's
tag and text. -/
theorem lex_category_priority_abs {K : Type} (cfg : LexerConfig K) (s : List Nat)
    (toks : List (Token K)) (l : Lexer) (hs : s ≠ [])
    (hlex : Lexer.lex_abs cfg (Lexer.new s) = some (toks, l)) :
    ∃ first, toks.head? = some first ∧ first.start = 0 ∧
      (∀ ws id text kind, cfg.whitespace = some ws → Switch.match_abs ws s = some id →
        ws[id]? = some (text, kind) → first.kind = kind ∧ first.text = text) ∧
      (Passes cfg.whitespace s →
        ∀ ps id text kind, cfg.punctuations = some ps → Switch.match_abs ps s = some id →
          ps[id]? = some (text, kind) → first.kind = kind ∧ first.text = text) ∧
      (Passes cfg.whitespace s → Passes cfg.punctuations s →
        ∀ os id text kind, cfg.operators = some os → Switch.match_abs os s = some id →
          os[id]? = some (text, kind) → first.kind = kind ∧ first.text = text) ∧
      (Passes cfg.whitespace s → Passes cfg.punctuations s → Passes cfg.operators s →
        ∀ h, cfg.identifier = some h → h.is_valid_identifier_start s = true →
          first.kind = h.Identifier ∧
          first.text = s.take (identifier_loop h.is_valid_identifier s 0)) ∧
      (Passes cfg.whitespace s → Passes cfg.punctuations s → Passes cfg.operators s →
        (∀ h, cfg.identifier = some h → h.is_valid_identifier_start s = false) →
        ∀ n, cfg.numbers = some n → n.is_digit s = true →
          first.kind = n.Number ∧ first.text = n.parse_number s) ∧
      (Passes cfg.whitespace s → Passes cfg.punctuations s → Passes cfg.operators s →
        (∀ h, cfg.identifier = some h → h.is_valid_identifier_start s = false) →
        (∀ n, cfg.numbers = some n → n.is_digit s = false) →
        first.kind = cfg.Unknown ∧ first.text = s.take 1) := by
  obtain ⟨t, c, hb, hhead⟩ := lex_first_token cfg s toks l hs hlex
  have hsw : ∀ (set : Option (Lexems K)) (line : Nat), Passes set s →
      switch_branch_abs set s 0 line 0 = Branch.pass := by
    intro set line hp
    cases set with
    | none => rfl
    | some ws =>
      have := hp ws rfl
      simp only [npos] at this
      simp only [switch_branch_abs, this]
  have hsw2 : ∀ (ws : Lexems K) (line id : Nat) (text : List Nat) (kind : K),
      Switch.match_abs ws s = some id → ws[id]? = some (text, kind) →
      switch_branch_abs (some ws) s 0 line 0 =
        Branch.emit { kind := kind, text := text, start := 0, line := line, col := 0 }
          (0 + text.length) := by
    intro ws line id text kind hm hid
    simp [switch_branch_abs, hm, Switch.str_from_index, Switch.token_from_index, hid]
  have hid : ∀ line, (∀ h, cfg.identifier = some h → h.is_valid_identifier_start s = false) →
      identifier_branch_abs cfg.identifier s 0 line 0 = Branch.pass := by
    intro line hp
    cases hci : cfg.identifier with
    | none => rfl
    | some h => simp [identifier_branch_abs, hp h hci]
  have hnum : ∀ line, (∀ n, cfg.numbers = some n → n.is_digit s = false) →
      number_branch_abs cfg.numbers s 0 line 0 = Branch.pass := by
    intro line hp
    cases hcn : cfg.numbers with
    | none => rfl
    | some n => simp [number_branch_abs, hp n hcn]
  have hstart := lex_branches_start cfg s 0 _ 0 t c hb
  unfold lex_branches_abs at hb
  refine ⟨t, hhead, hstart, ?_, ?_, ?_, ?_, ?_, ?_⟩
  · intro ws id text kind hc hm hi
    rw [hc, hsw2 ws _ id text kind hm hi] at hb
    simp only [Branch.orElse, Branch.emit.injEq] at hb
    rw [← hb.1]; exact ⟨rfl, rfl⟩
  · intro p1 ps id text kind hc hm hi
    rw [hsw _ _ p1, hc, hsw2 ps _ id text kind hm hi] at hb
    simp only [Branch.orElse, Branch.emit.injEq] at hb
    rw [← hb.1]; exact ⟨rfl, rfl⟩
  · intro p1 p2 os id text kind hc hm hi
    rw [hsw _ _ p1, hsw _ _ p2, hc, hsw2 os _ id text kind hm hi] at hb
    simp only [Branch.orElse, Branch.emit.injEq] at hb
    rw [← hb.1]; exact ⟨rfl, rfl⟩
  · intro p1 p2 p3 h hc hst
    rw [hsw _ _ p1, hsw _ _ p2, hsw _ _ p3, hc] at hb
    simp only [Branch.orElse, identifier_branch_abs, hst, if_true, Branch.emit.injEq] at hb
    rw [← hb.1]; exact ⟨rfl, rfl⟩
  · intro p1 p2 p3 p4 n hc hd
    rw [hsw _ _ p1, hsw _ _ p2, hsw _ _ p3, hid _ p4, hc] at hb
    simp only [Branch.orElse, number_branch_abs, hd, if_true, Branch.emit.injEq] at hb
    rw [← hb.1]; exact ⟨rfl, rfl⟩
  · intro p1 p2 p3 p4 p5
    rw [hsw _ _ p1, hsw _ _ p2, hsw _ _ p3, hid _ p4, hnum _ p5] at hb
    simp only [Branch.orElse, fallback_branch_abs, Branch.emit.injEq] at hb
    rw [← hb.1]; exact ⟨rfl, rfl⟩

/-- In the abstract model: under the default configuration, for every input `s` and every
returned token `t`, the `Eof` token included, `t.line` is the number of
newline bytes of `s` at indices `≤ t.start`, and `t.col` is `t.start - p` for
the largest index `p ≤ t.start` with `s[p]` a newline, or `t.start` when no
index `≤ t.start` holds a newline. -/
theorem lex_line_col_abs (s : List Nat) :
    ∃ toks l, Lexer.lex_abs DefaultLexerConfig (Lexer.new s) = some (toks, l) ∧
      ∀ t ∈ toks,
        t.line = (s.take (t.start + 1)).count 10 ∧
        ((∃ p, p ≤ t.start ∧ s[p]? = some 10 ∧
            (∀ q, p < q → q ≤ t.start → s[q]? ≠ some 10) ∧ t.col = t.start - p) ∨
          ((∀ q, q ≤ t.start → s[q]? ≠ some 10) ∧ t.col = t.start)) := by
  obtain ⟨st, hinv, hfin, hlex⟩ := lex_regular DefaultLexerConfig default_regular s
  refine ⟨_, _, hlex, ?_⟩
  intro t ht
  rcases List.mem_append.1 ht with h | h
  · exact ⟨(hinv.each t h).line, (hinv.each t h).col⟩
  · rw [List.mem_singleton] at h
    subst h
    have hnone : s[s.length]? ≠ some 10 := by simp
    refine ⟨?_, ?_⟩
    · simp only [hinv.line, hfin]
      rw [List.take_of_length_le (le_refl _), List.take_of_length_le (Nat.le_succ _)]
    · simp only [hfin]
      rcases hinv.ls with ⟨h1, h2, h3⟩ | ⟨h1, h2⟩
      · left
        rw [hfin] at h1 h3
        refine ⟨st.line_start_pos, by omega, h2, ?_, rfl⟩
        intro q hq1 hq2
        by_cases hq : q = s.length
        · rw [hq]; exact hnone
        · exact h3 q hq1 (by omega)
      · right
        rw [hfin] at h2
        refine ⟨?_, by rw [h1]; rfl⟩
        intro q hq
        by_cases hq' : q = s.length
        · rw [hq']; exact hnone
        · exact h2 q (by omega)

/-- In the abstract model: under the default configuration, for every input the returned token
sequence is non-empty, its last token has kind `Eof` and empty text, and no
token before the last has empty text or kind `Eof`. -/
theorem lex_single_terminal_token_abs (s : List Nat) :
    ∃ toks l, Lexer.lex_abs DefaultLexerConfig (Lexer.new s) = some (toks, l) ∧
      toks ≠ [] ∧
      (∃ last, toks.getLast? = some last ∧ last.kind = DefaultTokenKind.Eof ∧ last.text = []) ∧
      ∀ t ∈ toks.dropLast, t.text ≠ [] ∧ t.kind ≠ DefaultTokenKind.Eof := by
  obtain ⟨st, hinv, hfin, hlex⟩ := lex_regular DefaultLexerConfig default_regular s
  refine ⟨_, _, hlex, by simp, ⟨_, List.getLast?_concat _, rfl, rfl⟩, ?_⟩
  rw [List.dropLast_concat]
  intro t ht
  exact ⟨(hinv.each t ht).nonempty, (hinv.each t ht).kind⟩

end dark

namespace dark.detail

theorem stride_loop_length (A n : Nat) : (stride_loop A n).length = n :=
  (stride_upto A n (n - 1) (le_refl _)).1

end dark.detail

namespace dark

open detail

end dark

namespace dark.detail

theorem fold_set_last {α : Type} (g : α → Nat) (ps : List α) (arr : FlatArray) (k i : Nat)
    (el : α) (hi : ps[i]? = some el)
    (hlast : ∀ i' el', i < i' → ps[i']? = some el' → g el' ≠ g el) :
    (ps.foldl (fun st el => (st.1.set (g el) (some st.2), st.2 + 1)) (arr, k)).1.cell (g el)
      = some (k + i) := by
  induction ps generalizing arr k i with
  | nil => simp at hi
  | cons p ps ih =>
    simp only [List.foldl_cons]
    cases i with
    | zero =>
      simp only [List.getElem?_cons_zero, Option.some.injEq] at hi
      subst hi
      have hnm : g p ∉ ps.map g := by
        intro hm
        obtain ⟨q, hq, hgq⟩ := List.mem_map.1 hm
        obtain ⟨n, hn⟩ := List.getElem?_of_mem hq
        exact hlast (n + 1) q (Nat.succ_pos n) (by simpa using hn) hgq
      rw [fold_set_not_mem g ps _ _ _ hnm]
      simp [FlatArray.set]
    | succ i =>
      simp only [List.getElem?_cons_succ] at hi
      rw [ih _ _ _ hi (fun i' el' h1 h2 => hlast (i' + 1) el' (by omega) (by simpa using h2))]
      congr 1; omega

theorem exists_last {α β : Type} (g : α → β) (ps : List α) (j : β) (hj : j ∈ ps.map g) :
    ∃ (i : Nat) (el : α), ps[i]? = some el ∧ g el = j ∧
      ∀ (i' : Nat) (el' : α), i < i' → ps[i']? = some el' → g el' ≠ j := by
  induction ps with
  | nil => simp at hj
  | cons p ps ih =>
    by_cases hm : j ∈ ps.map g
    · obtain ⟨i, el, hi, hg, hl⟩ := ih hm
      refine ⟨i + 1, el, by simpa using hi, hg, ?_⟩
      intro i' el' h1 h2
      obtain ⟨n, rfl⟩ : ∃ n, i' = n + 1 := ⟨i' - 1, by omega⟩
      exact hl n el' (by omega) (by simpa using h2)
    · have hp : g p = j := by
        rcases List.mem_map.1 hj with ⟨q, hq, hgq⟩
        rcases List.mem_cons.1 hq with h | h
        · rw [← h]; exact hgq
        · exact absurd (List.mem_map.2 ⟨q, h, hgq⟩) hm
      refine ⟨0, p, by simp, hp, ?_⟩
      intro i' el' h1 h2
      obtain ⟨n, rfl⟩ : ∃ n, i' = n + 1 := ⟨i' - 1, by omega⟩
      intro hge
      exact hm (List.mem_map.2 ⟨el', List.getElem?_mem (by simpa using h2), hge⟩)

/-- The cells of the table when coordinates may repeat: a cell holds the last
index written to it. -/
theorem fold_set_cell_last {α : Type} (g : α → Nat) (ps : List α) (size j m : Nat) :
    (ps.foldl (fun st el => (st.1.set (g el) (some st.2), st.2 + 1))
        (FlatArray.fill size npos, 0)).1.cell j = some m
      ↔ ∃ el, ps[m]? = some el ∧ g el = j ∧
          ∀ i' el', m < i' → ps[i']? = some el' → g el' ≠ j := by
  constructor
  · intro h
    by_cases hj : j ∈ ps.map g
    · obtain ⟨i, el, hi, hg, hl⟩ := exists_last g ps j hj
      have := fold_set_last g ps (FlatArray.fill size npos) 0 i el hi (by rw [hg]; exact hl)
      rw [hg, h] at this
      simp only [Nat.zero_add, Option.some.injEq] at this
      subst this
      exact ⟨el, hi, hg, hl⟩
    · rw [fold_set_not_mem g ps _ _ _ hj] at h
      simp [FlatArray.fill, npos] at h
  · rintro ⟨el, hel, hg, hl⟩
    have := fold_set_last g ps (FlatArray.fill size npos) 0 m el hel (by rw [hg]; exact hl)
    rw [hg] at this
    simpa using this

end dark.detail

namespace dark

open detail

/-- A non-`npos` cell of the table is the index of a lexem. -/
theorem data_get_lt {K : Type} (lexems : Lexems K) (j m : Nat)
    (h : (make_nd_map_abs lexems).data.get j = some m) : m < lexems.length := by
  unfold make_nd_map_abs FlatArray.get at h
  simp only at h
  split at h
  · obtain ⟨el, hel, _⟩ := (fold_set_cell_last _ lexems _ j m).1 h
    exact (List.getElem?_eq_some_iff.1 hel).1
  · simp [npos] at h

theorem match_loop_lt {K : Type} (lexems : Lexems K) (rest : List Nat) (i idx : Nat)
    (found : Option Nat) (hf : ∀ k, found = some k → k < lexems.length) :
    ∀ k, match_loop_abs lexems (make_nd_map_abs lexems) rest i idx found = some k →
      k < lexems.length := by
  induction rest generalizing i idx found with
  | nil => intro k hk; exact hf k hk
  | cons ch rest ih =>
    unfold match_loop_abs
    simp only
    apply ih
    intro k hk
    split at hk
    · exact data_get_lt lexems _ k hk
    · exact hf k hk

/-- A non-`npos` result of `Switch::match` is the index of a lexem. -/
theorem match_lt {K : Type} (lexems : Lexems K) (s : List Nat) (k : Nat)
    (h : Switch.match_abs lexems s = some k) : k < lexems.length :=
  match_loop_lt lexems _ 0 0 npos (fun k hk => by simp [npos] at hk) k h

theorem switch_branch_advances {K : Type} (set : Option (Lexems K))
    (hne : ∀ lexems, set = some lexems → ∀ el ∈ lexems, el.1 ≠ [])
    (source : List Nat) (c line lsp : Nat) :
    switch_branch_abs set source c line lsp = Branch.pass ∨
    Branch.Advances c (switch_branch_abs set source c line lsp) := by
  cases set with
  | none => left; rfl
  | some lexems =>
    cases hm : Switch.match_abs lexems source with
    | none => left; simp only [switch_branch_abs, hm]
    | some id =>
      right
      have hlt := match_lt lexems source id hm
      have hel : lexems[id]? = some lexems[id] := List.getElem?_eq_getElem hlt
      refine ⟨{ kind := lexems[id].2, text := lexems[id].1, start := c, line := line,
                col := c - lsp }, c + lexems[id].1.length, ?_, ?_, rfl⟩
      · simp [switch_branch_abs, hm, Switch.str_from_index, Switch.token_from_index, hel]
      · exact hne lexems rfl _ (List.getElem_mem _)

theorem identifier_branch_advances {K : Type} (hooks : Option (IdentifierHooks K))
    (hid : ∀ h, hooks = some h → ∀ c r,
      h.is_valid_identifier_start (c :: r) = true → h.is_valid_identifier (c :: r) = true)
    (b : Nat) (r : List Nat) (c line lsp : Nat) :
    identifier_branch_abs hooks (b :: r) c line lsp = Branch.pass ∨
    Branch.Advances c (identifier_branch_abs hooks (b :: r) c line lsp) := by
  cases hooks with
  | none => left; rfl
  | some h =>
    unfold identifier_branch_abs
    simp only
    by_cases hs : h.is_valid_identifier_start (b :: r) = true
    · right
      rw [if_pos hs]
      have hpos := identifier_loop_pos h.is_valid_identifier b r (hid h rfl b r hs)
      have hle := identifier_loop_le h.is_valid_identifier (b :: r)
      refine ⟨_, _, rfl, ?_, ?_⟩
      · intro h0
        have := congrArg List.length h0
        simp only [List.length_take, List.length_nil] at this
        simp only [List.length_cons] at this hle
        omega
      · simp only [List.length_take]
        omega
    · left; rw [if_neg hs]

theorem number_branch_advances {K : Type} (hooks : Option (NumberHooks K))
    (hnum : ∀ n, hooks = some n → ∀ c r,
      n.is_digit (c :: r) = true → n.parse_number (c :: r) ≠ [])
    (b : Nat) (r : List Nat) (c line lsp : Nat) :
    number_branch_abs hooks (b :: r) c line lsp = Branch.pass ∨
    Branch.Advances c (number_branch_abs hooks (b :: r) c line lsp) := by
  cases hooks with
  | none => left; rfl
  | some n =>
    unfold number_branch_abs
    simp only
    by_cases hs : n.is_digit (b :: r) = true
    · right
      rw [if_pos hs]
      exact ⟨_, _, rfl, hnum n rfl b r hs, rfl⟩
    · left; rw [if_neg hs]

theorem branch_orElse_advances {K : Type} (c : Nat) (b n : Branch K)
    (hb : b = Branch.pass ∨ Branch.Advances c b) (hn : Branch.Advances c n) :
    Branch.Advances c (b.orElse n) := by
  rcases hb with rfl | ⟨t, c', rfl, h⟩
  · exact hn
  · exact ⟨t, c', rfl, h⟩

/-- In a progressive configuration the branches push a non-empty text on every
non-empty view and move the cursor by its length. -/
theorem lex_branches_advances {K : Type} (cfg : LexerConfig K) (hp : Progressive cfg)
    (b : Nat) (r : List Nat) (c line lsp : Nat) :
    Branch.Advances c (lex_branches_abs cfg (b :: r) c line lsp) := by
  unfold lex_branches_abs
  apply branch_orElse_advances _ _ _ (switch_branch_advances _ hp.whitespace _ c line lsp)
  apply branch_orElse_advances _ _ _ (switch_branch_advances _ hp.punctuations _ c line lsp)
  apply branch_orElse_advances _ _ _ (switch_branch_advances _ hp.operators _ c line lsp)
  apply branch_orElse_advances _ _ _ (identifier_branch_advances _ hp.identifier b r c line lsp)
  apply branch_orElse_advances _ _ _ (number_branch_advances _ hp.numbers b r c line lsp)
  exact ⟨_, _, rfl, by simp [fallback_branch_abs], by simp [fallback_branch_abs]⟩

theorem lex_iteration_advances {K : Type} (cfg : LexerConfig K) (hp : Progressive cfg)
    (s : List Nat) (st : LoopState K) (hc : st.m_cursor < s.length) :
    ∃ st' t, lex_iteration_abs cfg s st = some st' ∧ st'.tokens = st.tokens ++ [t] ∧
      t.text ≠ [] ∧ st'.m_cursor = st.m_cursor + t.text.length := by
  obtain ⟨b, r, hsrc⟩ : ∃ b r, s.drop st.m_cursor = b :: r := by
    cases h : s.drop st.m_cursor with
    | nil =>
      have := congrArg List.length h
      simp only [List.length_drop, List.length_nil] at this
      omega
    | cons b r => exact ⟨b, r, rfl⟩
  unfold lex_iteration_abs
  simp only [hsrc]
  obtain ⟨t, c', hb, hne, hc'⟩ := lex_branches_advances cfg hp b r st.m_cursor
    (if (b :: r).head? = some 10 then st.line + 1 else st.line)
    (if (b :: r).head? = some 10 then st.m_cursor else st.line_start_pos)
  rw [hb]
  exact ⟨_, t, rfl, rfl, hne, hc'⟩

/-- A loop whose every iteration moves the cursor forward ends within the
iterations that the distance to the end of the source allows. -/
theorem lex_loop_ends {K : Type} (cfg : LexerConfig K) (s : List Nat)
    (hstep : ∀ st : LoopState K, st.m_cursor < s.length →
      ∃ st', lex_iteration_abs cfg s st = some st' ∧ st.m_cursor < st'.m_cursor)
    (fuel : Nat) (st : LoopState K) (hfuel : s.length - st.m_cursor ≤ fuel) :
    ∃ r, lex_loop_abs cfg s fuel st = some r := by
  induction fuel generalizing st with
  | zero =>
    refine ⟨st, ?_⟩
    unfold lex_loop_abs
    rw [if_neg (by omega)]
  | succ fuel ih =>
    by_cases hc : st.m_cursor < s.length
    · obtain ⟨st1, h1, hlt⟩ := hstep st hc
      obtain ⟨r, hr⟩ := ih st1 (by omega)
      refine ⟨r, ?_⟩
      unfold lex_loop_abs
      rw [if_pos hc]
      simp only [h1, hr]
    · refine ⟨st, ?_⟩
      unfold lex_loop_abs
      rw [if_neg hc]

/-- An iteration that pushes a token and leaves the cursor in place: from the
states with that cursor the loop never ends. -/
theorem lex_loop_never_ends {K : Type} (cfg : LexerConfig K) (s : List Nat)
    (st0 : LoopState K) (hc : st0.m_cursor < s.length)
    (h : (lex_iteration_abs cfg s st0).map LoopState.m_cursor = some st0.m_cursor) :
    ∀ fuel (st : LoopState K), st.m_cursor = st0.m_cursor → lex_loop_abs cfg s fuel st = none := by
  cases hit : lex_iteration_abs cfg s st0 with
  | none => rw [hit] at h; simp at h
  | some st1 =>
    rw [hit] at h
    simp only [Option.map_some', Option.some.injEq] at h
    intro fuel st hst
    apply lex_loop_stuck cfg s st0.m_cursor hc _ fuel st hst
    intro a a1 ha ha1
    obtain ⟨_, st3, h3, h3c⟩ := lex_iteration_cursor cfg s st0 st1 a hit ha
    rw [ha1] at h3
    simp only [Option.some.injEq] at h3
    rw [h3, h3c, h]

/-- In the abstract model: for every configuration in which no pattern set holds the
empty literal, the identifier continuation predicate accepts what the start
predicate accepts, and `parse_number` returns a non-empty text where `is_digit`
accepts, and for every input: each iteration of the scan loop pushes a token
with non-empty text and increases the cursor by that token's byte length, and
`lex` returns. -/
theorem lex_forward_progress_abs {K : Type} (cfg : LexerConfig K) (s : List Nat)
    (hp : Progressive cfg) :
    (∀ st : LoopState K, st.m_cursor < s.length →
      ∃ st' t, lex_iteration_abs cfg s st = some st' ∧ st'.tokens = st.tokens ++ [t] ∧
        t.text ≠ [] ∧ st'.m_cursor = st.m_cursor + t.text.length) ∧
    ∃ toks l, Lexer.lex_abs cfg (Lexer.new s) = some (toks, l) := by
  refine ⟨fun st hc => lex_iteration_advances cfg hp s st hc, ?_⟩
  obtain ⟨r, hr⟩ := lex_loop_ends cfg s
    (fun st hc => by
      obtain ⟨st', t, h1, _, h3, h4⟩ := lex_iteration_advances cfg hp s st hc
      have := List.length_pos.2 h3
      exact ⟨st', h1, by omega⟩)
    s.length { m_cursor := 0, line := 0, line_start_pos := 0, tokens := [] } (by simp)
  have hlex : Lexer.lex_abs cfg (Lexer.new s) = some
      (r.tokens ++ [{ kind := cfg.Eof, text := [], start := r.m_cursor, line := r.line,
                      col := r.m_cursor - r.line_start_pos }],
       { m_cursor := r.m_cursor, m_source := s }) := by
    unfold Lexer.lex_abs Lexer.new
    simp only [hr]
  exact ⟨_, _, hlex⟩

end dark

namespace dark.detail

theorem index_mapping_step_length (st : List Nat × Nat) (c : Nat) :
    (index_mapping_step_abs st c).1.length = st.1.length := by
  unfold index_mapping_step_abs
  split
  · simp
  · rfl

theorem index_mapping_length {K : Type} (lexems : Lexems K) :
    (index_mapping_abs lexems).length = 256 := by
  unfold index_mapping_abs
  rw [index_mapping_loop_eq]
  have gen : ∀ (bs : List Nat) (st : List Nat × Nat),
      (bs.foldl index_mapping_step_abs st).1.length = st.1.length := by
    intro bs
    induction bs with
    | nil => intro st; rfl
    | cons b bs ih => intro st; rw [List.foldl_cons, ih, index_mapping_step_length]
  rw [gen]
  exact List.length_replicate _ _

theorem index_mapping_step_keeps (st : List Nat × Nat) (c a : Nat) (h : st.1.getD a 0 ≠ 0) :
    (index_mapping_step_abs st c).1.getD a 0 = st.1.getD a 0 := by
  unfold index_mapping_step_abs
  split
  · rename_i h0
    have hca : c ≠ a := by
      intro e; rw [e] at h0; exact h h0
    simp only [List.getD_eq_getElem?_getD, List.getElem?_set, if_neg hca]
  · rfl

theorem index_mapping_fold_keeps (bs : List Nat) (st : List Nat × Nat) (a : Nat)
    (h : st.1.getD a 0 ≠ 0) :
    (bs.foldl index_mapping_step_abs st).1.getD a 0 = st.1.getD a 0 := by
  induction bs generalizing st with
  | nil => rfl
  | cons c bs ih =>
    rw [List.foldl_cons, ih _ (by rw [index_mapping_step_keeps st c a h]; exact h),
      index_mapping_step_keeps st c a h]

/-- A byte receives, at its first occurrence, the number of distinct bytes
scanned before it, plus one. -/
theorem get_char_index_first {K : Type} (lexems : Lexems K) (hfit : AlphabetFits lexems)
    (pre rest : List Nat) (b : Nat) (hsplit : pattern_bytes lexems = pre ++ b :: rest)
    (hb : b ∉ pre) : get_char_index_abs lexems b = pre.toFinset.card + 1 := by
  obtain ⟨hbytes, hcard⟩ := hfit
  rw [hsplit] at hbytes hcard
  have hsub : (pre ++ [b]).toFinset ⊆ (pre ++ b :: rest).toFinset := by
    intro a; simp; tauto
  have hsub0 : pre.toFinset ⊆ (pre ++ b :: rest).toFinset := by
    intro a; simp; tauto
  have hpre := alpha_inv_fold alpha_inv_init pre
    (fun a ha => hbytes a (by simp [ha]))
    (by rw [List.nil_append]; exact le_trans (Finset.card_le_card hsub0) hcard)
  rw [List.nil_append] at hpre
  have h0 : (pre.foldl index_mapping_step_abs (List.replicate 256 0, 1)).1.getD b 0 = 0 := by
    by_contra hne
    exact hb ((hpre.nz b).1 hne)
  have hcard1 : (pre ++ [b]).toFinset.card = pre.toFinset.card + 1 := by
    rw [List.toFinset_append]
    simp only [List.toFinset_cons, List.toFinset_nil, insert_emptyc_eq]
    rw [Finset.union_comm, ← Finset.insert_eq, Finset.card_insert_of_not_mem (by simpa using hb)]
  have hle : pre.toFinset.card + 1 ≤ 255 := by
    rw [← hcard1]; exact le_trans (Finset.card_le_card hsub) hcard
  have hstep : ∀ st : List Nat × Nat, AlphaInv pre st → st.1.getD b 0 = 0 →
      (index_mapping_step_abs st b).1.getD b 0 = pre.toFinset.card + 1 := by
    intro st hst hz
    unfold index_mapping_step_abs
    rw [if_pos hz]
    simp only
    rw [getD_set_eq _ _ _ _ (by rw [hst.len]; exact hbytes b (by simp)), if_pos rfl, hst.idx,
      Nat.mod_eq_of_lt (by omega)]
  have hstep := hstep _ hpre h0
  unfold get_char_index_abs index_mapping_abs
  rw [index_mapping_loop_eq, hsplit, List.foldl_append, List.foldl_cons,
    index_mapping_fold_keeps _ _ _ (by rw [hstep]; omega), hstep]

theorem max_extent_card {K : Type} (lexems : Lexems K) (hfit : AlphabetFits lexems) :
    max_extent_abs lexems = (pattern_bytes lexems).toFinset.card + 1 := by
  have hi := alphabet_inv lexems hfit
  rw [max_extent_eq]
  have h1 := hi.cnt
  have h2 := hi.idx
  unfold index_mapping_abs
  omega

end dark.detail

namespace dark

open detail

/-- In the abstract model: for every ordered pattern list that uses at most 255
distinct byte values, `index_mapping[b] = 0` exactly when byte `b` occurs in no
pattern; a byte that occurs receives, at its first occurrence in the scan of
the patterns in declaration order, byte by byte, the number of distinct bytes
scanned before it plus one, so the symbols are `1 .. K` in order of first
occurrence; distinct occurring bytes receive distinct symbols; and `max_extent`
is `K + 1` for `K` the number of distinct bytes that occur. -/
theorem index_mapping_first_occurrence_abs {K : Type} (lexems : Lexems K)
    (hfit : AlphabetFits lexems) :
    (∀ b, (index_mapping_abs lexems).getD b 0 = 0 ↔ b ∉ pattern_bytes lexems) ∧
    (∀ pre rest b, pattern_bytes lexems = pre ++ b :: rest → b ∉ pre →
      (index_mapping_abs lexems).getD b 0 = pre.toFinset.card + 1) ∧
    (∀ b ∈ pattern_bytes lexems, 1 ≤ (index_mapping_abs lexems).getD b 0 ∧
      (index_mapping_abs lexems).getD b 0 ≤ (pattern_bytes lexems).toFinset.card) ∧
    (∀ a ∈ pattern_bytes lexems, ∀ b ∈ pattern_bytes lexems,
      (index_mapping_abs lexems).getD a 0 = (index_mapping_abs lexems).getD b 0 → a = b) ∧
    max_extent_abs lexems = (pattern_bytes lexems).toFinset.card + 1 := by
  have hi := alphabet_inv lexems hfit
  refine ⟨?_, ?_, ?_, ?_, max_extent_card lexems hfit⟩
  · intro b
    have := get_char_index_ne_zero lexems hfit b
    unfold get_char_index_abs at this
    constructor
    · intro h0 hm; exact (this.2 hm) h0
    · intro hn; by_contra hne; exact hn (this.1 hne)
  · intro pre rest b hs hb
    exact get_char_index_first lexems hfit pre rest b hs hb
  · intro b hb
    have h1 := (get_char_index_ne_zero lexems hfit b).2 hb
    have h2 := get_char_index_lt lexems hfit b
    rw [max_extent_card lexems hfit] at h2
    unfold get_char_index_abs at h1 h2
    omega
  · intro a ha b _ hab
    exact get_char_index_inj lexems hfit a b hab ((get_char_index_ne_zero lexems hfit a).2 ha)

end dark

namespace dark.detail

end dark.detail

namespace dark

open detail

theorem lex_iteration_pushed {K : Type} (cfg : LexerConfig K) (s : List Nat)
    (st st1 : LoopState K) (hc : st.m_cursor < s.length)
    (h : lex_iteration_abs cfg s st = some st1) :
    ∃ t, st1.tokens = st.tokens ++ [t] ∧ Pushed cfg s t := by
  obtain ⟨t, c, hb, ht⟩ := lex_iteration_tokens cfg s st st1 h
  have hstart := lex_branches_start cfg _ _ _ _ t c hb
  refine ⟨t, ht, ?_, ?_⟩
  · rw [hstart]; exact hc
  · rw [hstart]; exact ⟨_, _, c, hb⟩

theorem lex_loop_pushed {K : Type} (cfg : LexerConfig K) (s : List Nat) (fuel : Nat)
    (st st' : LoopState K) (h : lex_loop_abs cfg s fuel st = some st')
    (hall : ∀ t ∈ st.tokens, Pushed cfg s t) : ∀ t ∈ st'.tokens, Pushed cfg s t := by
  induction fuel generalizing st with
  | zero =>
    unfold lex_loop_abs at h
    split at h
    · simp at h
    · simp only [Option.some.injEq] at h
      rw [← h]; exact hall
  | succ fuel ih =>
    unfold lex_loop_abs at h
    split at h
    · rename_i hc
      simp only at h
      cases hit : lex_iteration_abs cfg s st with
      | none => rw [hit] at h; simp at h
      | some st1 =>
        rw [hit] at h
        obtain ⟨t, ht, hp⟩ := lex_iteration_pushed cfg s st st1 hc hit
        apply ih st1 h
        intro u hu
        rw [ht] at hu
        rcases List.mem_append.1 hu with h1 | h1
        · exact hall u h1
        · rw [List.mem_singleton] at h1
          rw [h1]; exact hp
    · simp only [Option.some.injEq] at h
      rw [← h]; exact hall

/-- Every token that `lex` returns before the `Eof` token was pushed by the
branches at its start offset. -/
theorem lex_pushed {K : Type} (cfg : LexerConfig K) (s : List Nat) (toks : List (Token K))
    (l : Lexer) (h : Lexer.lex_abs cfg (Lexer.new s) = some (toks, l)) :
    ∀ t ∈ toks.dropLast, Pushed cfg s t := by
  unfold Lexer.lex_abs Lexer.new at h
  simp only at h
  cases hl : lex_loop_abs cfg s s.length
      { m_cursor := 0, line := 0, line_start_pos := 0, tokens := [] } with
  | none => rw [hl] at h; simp at h
  | some st =>
    rw [hl] at h
    simp only [Option.some.injEq, Prod.mk.injEq] at h
    rw [← h.1, List.dropLast_concat]
    exact lex_loop_pushed cfg s _ _ st hl (by intro t ht; simp at ht)

theorem switch_branch_emit_inv {K : Type} (set : Option (Lexems K)) (source : List Nat)
    (c line lsp : Nat) (t : Token K) (c' : Nat)
    (h : switch_branch_abs set source c line lsp = Branch.emit t c') :
    ∃ lexems id el, set = some lexems ∧ Switch.match_abs lexems source = some id ∧
      lexems[id]? = some el ∧ t.kind = el.2 ∧ t.text = el.1 := by
  cases set with
  | none => simp [switch_branch_abs] at h
  | some lexems =>
    cases hm : Switch.match_abs lexems source with
    | none => simp [switch_branch_abs, hm] at h
    | some id =>
      cases hel : lexems[id]? with
      | none => simp [switch_branch_abs, hm, Switch.str_from_index, Switch.token_from_index, hel] at h
      | some el =>
        simp only [switch_branch_abs, hm, Switch.str_from_index, Switch.token_from_index, hel,
          Option.map_some', Branch.emit.injEq] at h
        exact ⟨lexems, id, el, rfl, hm, hel, by rw [← h.1], by rw [← h.1]⟩

theorem switch_branch_pass_inv {K : Type} (set : Option (Lexems K)) (source : List Nat)
    (c line lsp : Nat) (h : switch_branch_abs set source c line lsp = Branch.pass) :
    Passes set source := by
  intro lexems hs
  rw [hs] at h
  cases hm : Switch.match_abs lexems source with
  | none => rfl
  | some id =>
    exfalso
    cases hel : lexems[id]? with
    | none => simp [switch_branch_abs, hm, Switch.str_from_index, Switch.token_from_index, hel] at h
    | some el =>
      simp [switch_branch_abs, hm, Switch.str_from_index, Switch.token_from_index, hel] at h

theorem identifier_branch_inv {K : Type} (hooks : Option (IdentifierHooks K))
    (source : List Nat) (c line lsp : Nat) :
    (identifier_branch_abs hooks source c line lsp = Branch.pass ∧
      ∀ h, hooks = some h → h.is_valid_identifier_start source = false) ∨
    ∃ h, hooks = some h ∧ h.is_valid_identifier_start source = true ∧
      identifier_branch_abs hooks source c line lsp =
        Branch.emit
          { kind := h.Identifier,
            text := source.take (identifier_loop h.is_valid_identifier source 0),
            start := c, line := line, col := c - lsp }
          (c + identifier_loop h.is_valid_identifier source 0) := by
  cases hooks with
  | none => left; exact ⟨rfl, fun h hh => by simp at hh⟩
  | some h =>
    by_cases hs : h.is_valid_identifier_start source = true
    · right
      exact ⟨h, rfl, hs, by simp only [identifier_branch_abs, hs, if_true]⟩
    · left
      refine ⟨by simp only [identifier_branch_abs, hs]; rfl, ?_⟩
      intro h' hh
      simp only [Option.some.injEq] at hh
      rw [← hh]
      simpa using hs

theorem number_branch_inv {K : Type} (hooks : Option (NumberHooks K))
    (source : List Nat) (c line lsp : Nat) :
    (number_branch_abs hooks source c line lsp = Branch.pass ∧
      ∀ n, hooks = some n → n.is_digit source = false) ∨
    ∃ n, hooks = some n ∧ n.is_digit source = true ∧
      number_branch_abs hooks source c line lsp =
        Branch.emit
          { kind := n.Number, text := n.parse_number source, start := c, line := line,
            col := c - lsp }
          (c + (n.parse_number source).length) := by
  cases hooks with
  | none => left; exact ⟨rfl, fun n hn => by simp at hn⟩
  | some n =>
    by_cases hs : n.is_digit source = true
    · right
      exact ⟨n, rfl, hs, by simp only [number_branch_abs, hs, if_true]⟩
    · left
      refine ⟨by simp only [number_branch_abs, hs]; rfl, ?_⟩
      intro n' hn
      simp only [Option.some.injEq] at hn
      rw [← hn]
      simpa using hs

/-- The branch that pushed a token: the first category, in the fixed order,
that claims the view. -/
theorem lex_branches_cases {K : Type} (cfg : LexerConfig K) (source : List Nat)
    (c line lsp : Nat) (t : Token K) (c' : Nat)
    (h : lex_branches_abs cfg source c line lsp = Branch.emit t c') :
    (∃ lexems id el, cfg.whitespace = some lexems ∧ Switch.match_abs lexems source = some id ∧
      lexems[id]? = some el ∧ t.kind = el.2 ∧ t.text = el.1) ∨
    (Passes cfg.whitespace source ∧
      ∃ lexems id el, cfg.punctuations = some lexems ∧ Switch.match_abs lexems source = some id ∧
        lexems[id]? = some el ∧ t.kind = el.2 ∧ t.text = el.1) ∨
    (Passes cfg.whitespace source ∧ Passes cfg.punctuations source ∧
      ∃ lexems id el, cfg.operators = some lexems ∧ Switch.match_abs lexems source = some id ∧
        lexems[id]? = some el ∧ t.kind = el.2 ∧ t.text = el.1) ∨
    (Passes cfg.whitespace source ∧ Passes cfg.punctuations source ∧
      Passes cfg.operators source ∧
      ∃ hk, cfg.identifier = some hk ∧ hk.is_valid_identifier_start source = true ∧
        t.kind = hk.Identifier ∧
        t.text = source.take (identifier_loop hk.is_valid_identifier source 0)) ∨
    (Passes cfg.whitespace source ∧ Passes cfg.punctuations source ∧
      Passes cfg.operators source ∧
      (∀ hk, cfg.identifier = some hk → hk.is_valid_identifier_start source = false) ∧
      ∃ n, cfg.numbers = some n ∧ n.is_digit source = true ∧ t.kind = n.Number ∧
        t.text = n.parse_number source) ∨
    (Passes cfg.whitespace source ∧ Passes cfg.punctuations source ∧
      Passes cfg.operators source ∧
      (∀ hk, cfg.identifier = some hk → hk.is_valid_identifier_start source = false) ∧
      (∀ n, cfg.numbers = some n → n.is_digit source = false) ∧
      t.kind = cfg.Unknown ∧ t.text = source.take 1) := by
  unfold lex_branches_abs at h
  rcases branch_orElse_emit _ _ _ _ h with h1 | ⟨hw, h⟩
  · left; exact switch_branch_emit_inv _ _ _ _ _ _ _ h1
  have pw := switch_branch_pass_inv _ _ _ _ _ hw
  right
  rcases branch_orElse_emit _ _ _ _ h with h1 | ⟨hp, h⟩
  · left; exact ⟨pw, switch_branch_emit_inv _ _ _ _ _ _ _ h1⟩
  have pp := switch_branch_pass_inv _ _ _ _ _ hp
  right
  rcases branch_orElse_emit _ _ _ _ h with h1 | ⟨ho, h⟩
  · left; exact ⟨pw, pp, switch_branch_emit_inv _ _ _ _ _ _ _ h1⟩
  have po := switch_branch_pass_inv _ _ _ _ _ ho
  right
  rcases identifier_branch_inv cfg.identifier source c line lsp with ⟨hi, pi⟩ | ⟨hk, hc, hs, he⟩
  · rw [hi] at h
    right
    rcases number_branch_inv cfg.numbers source c line lsp with ⟨hn, pn⟩ | ⟨n, hc, hs, he⟩
    · rw [hn] at h
      right
      simp only [Branch.orElse, fallback_branch_abs, Branch.emit.injEq] at h
      exact ⟨pw, pp, po, pi, pn, by rw [← h.1], by rw [← h.1]⟩
    · rw [he] at h
      left
      simp only [Branch.orElse, Branch.emit.injEq] at h
      exact ⟨pw, pp, po, pi, n, hc, hs, by rw [← h.1], by rw [← h.1]⟩
  · rw [he] at h
    left
    simp only [Branch.orElse, Branch.emit.injEq] at h
    exact ⟨pw, pp, po, hk, hc, hs, by rw [← h.1], by rw [← h.1]⟩

/-- The run that `identifier_loop` measures ends before a view that the
predicate rejects. -/
theorem identifier_loop_stop (p : List Nat → Bool) (src : List Nat) (b : Nat) (r : List Nat)
    (h : src.drop (identifier_loop p src 0) = b :: r) : p (b :: r) = false := by
  induction src with
  | nil => simp [identifier_loop] at h
  | cons c cs ih =>
    unfold identifier_loop at h
    split at h
    · rw [identifier_loop_acc, Nat.add_comm, Nat.zero_add, List.drop_succ_cons] at h
      exact ih h
    · rename_i hp
      simp only [List.drop_zero, List.cons.injEq] at h
      rw [← h.1, ← h.2]
      simpa using hp

/-- No run of accepted bytes from the start of the view is longer than the one
that `identifier_loop` measures, for a predicate on the first byte. -/
theorem identifier_loop_longest (p : List Nat → Bool) (q : Nat → Prop)
    (hq : ∀ b r, q b → p (b :: r) = true)
    (src pre : List Nat) (hpre : pre <+: src) (hall : ∀ b ∈ pre, q b) :
    pre.length ≤ identifier_loop p src 0 := by
  induction src generalizing pre with
  | nil =>
    rw [List.prefix_nil] at hpre
    rw [hpre]; simp
  | cons c cs ih =>
    cases pre with
    | nil => simp
    | cons a pre' =>
      obtain ⟨w, hw⟩ := hpre
      rw [List.cons_append] at hw
      have hac : a = c := (List.cons.inj hw).1
      have hrest : pre' <+: cs := ⟨w, (List.cons.inj hw).2⟩
      have hpc : p (c :: cs) = true := hq c cs (by rw [← hac]; exact hall a (by simp))
      unfold identifier_loop
      rw [if_pos hpc, identifier_loop_acc]
      have := ih pre' hrest (fun b hb => hall b (by simp [hb]))
      simp only [List.length_cons]
      omega

/-- The byte after a token whose text is the run measured on the view at its
start. -/
theorem run_followed {K : Type} (p : List Nat → Bool) (s : List Nat) (t : Token K)
    (ht : t.text = (s.drop t.start).take (identifier_loop p (s.drop t.start) 0))
    (b : Nat) (hb : s[t.start + t.text.length]? = some b) : ∃ r, p (b :: r) = false := by
  have hle := identifier_loop_le p (s.drop t.start)
  have hlen : t.text.length = identifier_loop p (s.drop t.start) 0 := by
    rw [ht, List.length_take]; omega
  rw [hlen, ← List.getElem?_drop, ← List.head?_drop] at hb
  cases hd : (s.drop t.start).drop (identifier_loop p (s.drop t.start) 0) with
  | nil => rw [hd] at hb; simp at hb
  | cons x r =>
    rw [hd] at hb
    simp only [List.head?_cons, Option.some.injEq] at hb
    rw [← hb]
    exact ⟨r, identifier_loop_stop p _ x r hd⟩

theorem match_some_mem {K : Type} (lexems : Lexems K) (hfit : AlphabetFits lexems)
    (hne : ∀ el ∈ lexems, el.1 ≠ []) (hnd : (lexems.map Prod.fst).Nodup) (s : List Nat)
    (id : Nat) (el : List Nat × K) (hm : Switch.match_abs lexems s = some id)
    (hel : lexems[id]? = some el) : el ∈ lexems ∧ el.1 <+: s := by
  have hb := match_best lexems hfit hne hnd s
  rw [hm] at hb
  obtain ⟨el', h1, h2, _⟩ := hb
  rw [hel] at h1
  simp only [Option.some.injEq] at h1
  rw [h1]
  exact ⟨List.getElem?_mem (by rw [← h1]; exact hel), h2⟩

theorem passes_no_literal {K : Type} (lexems : Lexems K) (hfit : AlphabetFits lexems)
    (hne : ∀ el ∈ lexems, el.1 ≠ []) (hnd : (lexems.map Prod.fst).Nodup) (s : List Nat)
    (hp : Passes (some lexems) s) : ∀ el ∈ lexems, ¬ el.1 <+: s := by
  have hb := match_best lexems hfit hne hnd s
  rw [hp lexems rfl] at hb
  exact hb

theorem prefix_take_one (l : List Nat) (b : Nat) (r : List Nat) (h : l <+: b :: r)
    (hne : l ≠ []) : l.take 1 = [b] := by
  cases l with
  | nil => exact absurd rfl hne
  | cons a l' =>
    obtain ⟨w, hw⟩ := h
    rw [List.cons_append] at hw
    rw [(List.cons.inj hw).1]
    rfl

theorem default_whitespace_heads :
    ∀ el ∈ DefaultLexerConfig.whitespace,
      el.1.take 1 ∈ [[32], [10], [13]] ∧ el.2 = DefaultTokenKind.Whitespace := by
  decide

theorem default_punctuations_heads :
    ∀ el ∈ DefaultLexerConfig.punctuations,
      el.1.take 1 ∈ [[44], [59], [46], [40], [41], [91], [93], [123], [125], [61]] ∧
      el.2 ≠ DefaultTokenKind.Unknown ∧ el.2 ≠ DefaultTokenKind.Number ∧
      el.2 ≠ DefaultTokenKind.Identifier := by
  decide

theorem default_operators_heads :
    ∀ el ∈ DefaultLexerConfig.operators,
      el.1.take 1 ∈ [[43], [45], [47], [42], [62], [60], [126], [38], [124], [94], [37],
        [33], [63], [61]] ∧
      el.2 ≠ DefaultTokenKind.Unknown ∧ el.2 ≠ DefaultTokenKind.Number ∧
      el.2 ≠ DefaultTokenKind.Identifier := by
  decide

theorem default_whitespace_bytes :
    ∀ b ∈ [32, 10, 13], ∃ el ∈ DefaultLexerConfig.whitespace, el.1 = [b] := by
  decide

theorem default_punctuations_bytes :
    ∀ b ∈ [44, 59, 46, 40, 41, 91, 93, 123, 125, 61],
      ∃ el ∈ DefaultLexerConfig.punctuations, el.1 = [b] := by
  decide

theorem default_operators_bytes :
    ∀ b ∈ [43, 45, 47, 42, 62, 60, 126, 38, 124, 94, 37, 33, 63],
      ∃ el ∈ DefaultLexerConfig.operators, el.1 = [b] := by
  decide

theorem passes_no_byte {K : Type} (lexems : Lexems K) (hfit : AlphabetFits lexems)
    (hne : ∀ el ∈ lexems, el.1 ≠ []) (hnd : (lexems.map Prod.fst).Nodup) (b : Nat)
    (r : List Nat) (hp : Passes (some lexems) (b :: r)) (bytes : List Nat)
    (hbytes : ∀ x ∈ bytes, ∃ el ∈ lexems, el.1 = [x]) : b ∉ bytes := by
  intro hb
  obtain ⟨el, hel, h1⟩ := hbytes b hb
  apply passes_no_literal lexems hfit hne hnd (b :: r) hp el hel
  rw [h1]
  exact ⟨r, rfl⟩

theorem default_is_digit_iff (c : Nat) (r : List Nat) :
    DefaultLexerConfig.is_digit (c :: r) = true ↔ (48 ≤ c ∧ c ≤ 57) := by
  simp [DefaultLexerConfig.is_digit]

theorem default_start_iff (c : Nat) (r : List Nat) :
    DefaultLexerConfig.is_valid_identifier_start (c :: r) = true ↔
      (c = 95 ∨ c = 36 ∨ (97 ≤ c ∧ c ≤ 122) ∨ (65 ≤ c ∧ c ≤ 90)) := by
  simp [DefaultLexerConfig.is_valid_identifier_start, or_assoc]

theorem default_valid_iff (c : Nat) (r : List Nat) :
    DefaultLexerConfig.is_valid_identifier (c :: r) = true ↔
      (c = 95 ∨ c = 36 ∨ (97 ≤ c ∧ c ≤ 122) ∨ (65 ≤ c ∧ c ≤ 90) ∨ c ≤ 9) := by
  unfold DefaultLexerConfig.is_valid_identifier
  by_cases h : DefaultLexerConfig.is_valid_identifier_start (c :: r) = true
  · rw [if_pos h]
    have := (default_start_iff c r).1 h
    simp only [true_iff]
    tauto
  · rw [if_neg h]
    have := fun x => h ((default_start_iff c r).2 x)
    simp only [Nat.zero_le, decide_True, Bool.true_and, decide_eq_true_eq]
    tauto

theorem default_number_run_iff (c : Nat) (r : List Nat) :
    (DefaultLexerConfig.is_digit (c :: r) || (c :: r).head? == some 46) = true ↔
      ((48 ≤ c ∧ c ≤ 57) ∨ c = 46) := by
  simp [DefaultLexerConfig.is_digit]

/-- The branch that pushed a token of the default configuration, by the first
byte `b` of the view. -/
theorem default_branches_cases (b : Nat) (r : List Nat) (c line lsp : Nat)
    (t : Token DefaultTokenKind) (c' : Nat)
    (h : lex_branches_abs DefaultLexerConfig (b :: r) c line lsp = Branch.emit t c') :
    (b ∈ [32, 10, 13] ∧ (t.text, t.kind) ∈ DefaultLexerConfig.whitespace) ∨
    (b ∉ [32, 10, 13] ∧ b ∈ [44, 59, 46, 40, 41, 91, 93, 123, 125, 61] ∧
      (t.text, t.kind) ∈ DefaultLexerConfig.punctuations) ∨
    (b ∉ [32, 10, 13] ∧ b ∉ [44, 59, 46, 40, 41, 91, 93, 123, 125, 61] ∧
      b ∈ [43, 45, 47, 42, 62, 60, 126, 38, 124, 94, 37, 33, 63] ∧
      (t.text, t.kind) ∈ DefaultLexerConfig.operators) ∨
    (b ∉ [32, 10, 13] ∧ b ∉ [44, 59, 46, 40, 41, 91, 93, 123, 125, 61] ∧
      b ∉ [43, 45, 47, 42, 62, 60, 126, 38, 124, 94, 37, 33, 63] ∧
      DefaultLexerConfig.is_valid_identifier_start (b :: r) = true ∧
      t.kind = DefaultTokenKind.Identifier ∧
      t.text = (b :: r).take
        (identifier_loop DefaultLexerConfig.is_valid_identifier (b :: r) 0)) ∨
    (b ∉ [32, 10, 13] ∧ b ∉ [44, 59, 46, 40, 41, 91, 93, 123, 125, 61] ∧
      b ∉ [43, 45, 47, 42, 62, 60, 126, 38, 124, 94, 37, 33, 63] ∧
      DefaultLexerConfig.is_valid_identifier_start (b :: r) = false ∧
      DefaultLexerConfig.is_digit (b :: r) = true ∧
      t.kind = DefaultTokenKind.Number ∧
      t.text = DefaultLexerConfig.parse_number (b :: r)) ∨
    (b ∉ [32, 10, 13] ∧ b ∉ [44, 59, 46, 40, 41, 91, 93, 123, 125, 61] ∧
      b ∉ [43, 45, 47, 42, 62, 60, 126, 38, 124, 94, 37, 33, 63] ∧
      DefaultLexerConfig.is_valid_identifier_start (b :: r) = false ∧
      DefaultLexerConfig.is_digit (b :: r) = false ∧
      t.kind = DefaultTokenKind.Unknown ∧ t.text = [b]) := by
  obtain ⟨wf, wne, wnd, _, _⟩ := default_whitespace_wf
  obtain ⟨pf, pne, pnd, _, _⟩ := default_punctuations_wf
  obtain ⟨of, one, ond, _⟩ := default_operators_wf
  have nw : Passes (some DefaultLexerConfig.whitespace) (b :: r) → b ∉ [32, 10, 13] := fun hp =>
    passes_no_byte _ wf wne wnd b r hp _ default_whitespace_bytes
  have np : Passes (some DefaultLexerConfig.punctuations) (b :: r) →
      b ∉ [44, 59, 46, 40, 41, 91, 93, 123, 125, 61] := fun hp =>
    passes_no_byte _ pf pne pnd b r hp _ default_punctuations_bytes
  have no : Passes (some DefaultLexerConfig.operators) (b :: r) →
      b ∉ [43, 45, 47, 42, 62, 60, 126, 38, 124, 94, 37, 33, 63] := fun hp =>
    passes_no_byte _ of one ond b r hp _ default_operators_bytes
  have one_byte : ∀ (x : Nat) (l : List (List Nat)), [x] ∈ l → x ∈ l.filterMap List.head? := by
    intro x l hx
    exact List.mem_filterMap.2 ⟨[x], hx, rfl⟩
  rcases lex_branches_cases DefaultLexerConfig (b :: r) c line lsp t c' h with
    ⟨lexems, id, el, hs, hm, hel, hk, ht⟩ | ⟨pw, lexems, id, el, hs, hm, hel, hk, ht⟩ |
    ⟨pw, pp, lexems, id, el, hs, hm, hel, hk, ht⟩ | ⟨pw, pp, po, hk, hs, hst, hkind, ht⟩ |
    ⟨pw, pp, po, pi, n, hs, hd, hkind, ht⟩ | ⟨pw, pp, po, pi, pn, hkind, ht⟩
  · left
    simp only [DefaultLexerConfig, Option.some.injEq] at hs
    subst hs
    obtain ⟨hmem, hpre⟩ := match_some_mem _ wf wne wnd _ id el hm hel
    have h1 := (default_whitespace_heads el hmem).1
    rw [prefix_take_one _ b r hpre (wne el hmem)] at h1
    refine ⟨one_byte b _ h1, ?_⟩
    rw [ht, hk]; exact hmem
  · right; left
    simp only [DefaultLexerConfig, Option.some.injEq] at hs
    subst hs
    obtain ⟨hmem, hpre⟩ := match_some_mem _ pf pne pnd _ id el hm hel
    have h1 := (default_punctuations_heads el hmem).1
    rw [prefix_take_one _ b r hpre (pne el hmem)] at h1
    refine ⟨nw pw, one_byte b _ h1, ?_⟩
    rw [ht, hk]; exact hmem
  · right; right; left
    simp only [DefaultLexerConfig, Option.some.injEq] at hs
    subst hs
    obtain ⟨hmem, hpre⟩ := match_some_mem _ of one ond _ id el hm hel
    have h1 := (default_operators_heads el hmem).1
    rw [prefix_take_one _ b r hpre (one el hmem)] at h1
    have h2 := one_byte b _ h1
    have h3 := np pp
    refine ⟨nw pw, h3, ?_, ?_⟩
    · simp only [List.filterMap, List.head?, List.mem_cons, List.mem_singleton,
        List.not_mem_nil, or_false, not_or] at h2 h3 ⊢
      omega
    · rw [ht, hk]; exact hmem
  · right; right; right; left
    simp only [DefaultLexerConfig, Option.some.injEq] at hs
    subst hs
    exact ⟨nw pw, np pp, no po, hst, hkind, ht⟩
  · right; right; right; right; left
    simp only [DefaultLexerConfig, Option.some.injEq] at hs
    subst hs
    exact ⟨nw pw, np pp, no po, pi _ rfl, hd, hkind, ht⟩
  · right; right; right; right; right
    exact ⟨nw pw, np pp, no po, pi _ rfl, pn _ rfl, hkind, ht⟩

/-- The tokens that `lex` returns for the default configuration: the pushed
tokens, each with the byte at its start, then the `Eof` token at the end of
the source. -/
theorem default_lex_tokens (s : List Nat) :
    ∃ pushed eof l, Lexer.lex_abs DefaultLexerConfig (Lexer.new s) = some (pushed ++ [eof], l) ∧
      eof.kind = DefaultTokenKind.Eof ∧ eof.start = s.length ∧
      ∀ t ∈ pushed, ∃ b r line lsp c', s.drop t.start = b :: r ∧ s[t.start]? = some b ∧
        lex_branches_abs DefaultLexerConfig (b :: r) t.start line lsp = Branch.emit t c' := by
  obtain ⟨st, _, hfin, hlex⟩ := lex_regular DefaultLexerConfig default_regular s
  refine ⟨_, _, _, hlex, rfl, hfin, ?_⟩
  intro t ht
  have hp := lex_pushed DefaultLexerConfig s _ _ hlex t (by rw [List.dropLast_concat]; exact ht)
  obtain ⟨hlt, line, lsp, c', hb⟩ := hp
  have hd : s.drop t.start = s[t.start] :: s.drop (t.start + 1) := List.drop_eq_getElem_cons hlt
  rw [hd] at hb
  exact ⟨_, _, line, lsp, c', hd, List.getElem?_eq_getElem hlt, hb⟩

/-- In the abstract model: under the default configuration `is_digit` accepts exactly the views
that start with an ASCII digit (48..57); `parse_number v` is the longest prefix
of `v` made of ASCII digits and `.` (46); and every `Number` token that `lex`
returns starts with an ASCII digit, holds only ASCII digits and `.`, is the
number run of the source at its start offset, and is followed in the source,
if at all, by a byte that is neither an ASCII digit nor `.`. -/
theorem lex_number_scan_abs (s : List Nat) :
    (∀ c r, DefaultLexerConfig.is_digit (c :: r) = true ↔ (48 ≤ c ∧ c ≤ 57)) ∧
    (∀ v : List Nat,
      DefaultLexerConfig.parse_number v <+: v ∧
      (∀ b ∈ DefaultLexerConfig.parse_number v, (48 ≤ b ∧ b ≤ 57) ∨ b = 46) ∧
      ∀ p, p <+: v → (∀ b ∈ p, (48 ≤ b ∧ b ≤ 57) ∨ b = 46) →
        p.length ≤ (DefaultLexerConfig.parse_number v).length) ∧
    ∃ toks l, Lexer.lex_abs DefaultLexerConfig (Lexer.new s) = some (toks, l) ∧
      ∀ t ∈ toks, t.kind = DefaultTokenKind.Number →
        (∃ d r, t.text = d :: r ∧ 48 ≤ d ∧ d ≤ 57) ∧
        (∀ b ∈ t.text, (48 ≤ b ∧ b ≤ 57) ∨ b = 46) ∧
        t.text = DefaultLexerConfig.parse_number (s.drop t.start) ∧
        ∀ b, s[t.start + t.text.length]? = some b → ¬ ((48 ≤ b ∧ b ≤ 57) ∨ b = 46) := by
  have hmem : ∀ v : List Nat, ∀ b ∈ DefaultLexerConfig.parse_number v,
      (48 ≤ b ∧ b ≤ 57) ∨ b = 46 := by
    intro v b hb
    unfold DefaultLexerConfig.parse_number at hb
    rw [parse_number_loop_eq] at hb
    obtain ⟨r, hr⟩ := identifier_loop_mem _ v b hb
    exact (default_number_run_iff b r).1 hr
  refine ⟨default_is_digit_iff, ?_, ?_⟩
  · intro v
    refine ⟨List.take_prefix _ _, hmem v, ?_⟩
    intro p hp hall
    have h1 := identifier_loop_longest
      (fun s => DefaultLexerConfig.is_digit s || s.head? == some 46)
      (fun b => (48 ≤ b ∧ b ≤ 57) ∨ b = 46)
      (fun b r hq => (default_number_run_iff b r).2 hq) v p hp hall
    have h2 := identifier_loop_le
      (fun s => DefaultLexerConfig.is_digit s || s.head? == some 46) v
    unfold DefaultLexerConfig.parse_number
    rw [parse_number_loop_eq, List.length_take]
    omega
  · obtain ⟨pushed, eof, l, hlex, hek, _, hall⟩ := default_lex_tokens s
    refine ⟨_, _, hlex, ?_⟩
    intro t ht hkind
    rcases List.mem_append.1 ht with ht | ht
    · obtain ⟨b, r, line, lsp, c', hd, _, hb⟩ := hall t ht
      have hcase := default_branches_cases b r t.start line lsp t c' hb
      have hpk := default_punctuations_heads (t.text, t.kind)
      have hok := default_operators_heads (t.text, t.kind)
      have hwk := default_whitespace_heads (t.text, t.kind)
      rcases hcase with ⟨_, h⟩ | ⟨_, _, h⟩ | ⟨_, _, _, h⟩ | ⟨_, _, _, _, h, _⟩ |
        ⟨_, _, _, _, hdig, _, htext⟩ | ⟨_, _, _, _, _, h, _⟩
      · have := (hwk h).2
        simp only at this
        rw [hkind] at this
        exact absurd this (by decide)
      · exact absurd hkind (hpk h).2.2.1
      · exact absurd hkind (hok h).2.2.1
      · rw [hkind] at h; exact absurd h (by decide)
      · have hrun : t.text = (s.drop t.start).take
            (identifier_loop (fun s => DefaultLexerConfig.is_digit s || s.head? == some 46)
              (s.drop t.start) 0) := by
          rw [htext, hd]
          unfold DefaultLexerConfig.parse_number
          rw [parse_number_loop_eq]
        have hpos := identifier_loop_pos
          (fun s => DefaultLexerConfig.is_digit s || s.head? == some 46) b r
          (by simp only [hdig, Bool.true_or])
        refine ⟨?_, ?_, ?_, ?_⟩
        · refine ⟨b, (r.take (identifier_loop
            (fun s => DefaultLexerConfig.is_digit s || s.head? == some 46) (b :: r) 0 - 1)), ?_,
            (default_is_digit_iff b r).1 hdig⟩
          rw [hrun, hd]
          obtain ⟨n, hn⟩ := Nat.exists_eq_succ_of_ne_zero (Nat.pos_iff_ne_zero.1 hpos)
          rw [hn, List.take_succ_cons]
          rfl
        · rw [htext]; exact hmem _
        · rw [htext, hd]
        · intro x hx
          obtain ⟨r', hr'⟩ := run_followed _ s t hrun x hx
          intro hq
          rw [(default_number_run_iff x r').2 hq] at hr'
          exact absurd hr' (by decide)
      · rw [hkind] at h; exact absurd h (by decide)
    · rw [List.mem_singleton] at ht
      rw [ht, hek] at hkind
      exact absurd hkind (by decide)

/-- In the abstract model: under the default configuration `is_valid_identifier` accepts exactly
the views whose first byte is `_` (95), `$` (36), an ASCII letter, or a raw
byte value in 0..9, and rejects the ASCII digits 48..57; every `Identifier`
token that `lex` returns starts at an identifier-start byte, holds only accepted
bytes, and is followed in the source, if at all, by a byte that is not
accepted; and `a1` yields `Identifier` `a`, `Number` `1`, `Eof`. -/
theorem lex_identifier_scan_abs (s : List Nat) :
    (∀ c r, DefaultLexerConfig.is_valid_identifier (c :: r) = true ↔
      (c = 95 ∨ c = 36 ∨ (97 ≤ c ∧ c ≤ 122) ∨ (65 ≤ c ∧ c ≤ 90) ∨ c ≤ 9)) ∧
    (∀ c r, 48 ≤ c → c ≤ 57 → DefaultLexerConfig.is_valid_identifier (c :: r) = false) ∧
    (∃ toks l, Lexer.lex_abs DefaultLexerConfig (Lexer.new s) = some (toks, l) ∧
      ∀ t ∈ toks, t.kind = DefaultTokenKind.Identifier →
        (∃ f r, t.text = f :: r ∧
          (f = 95 ∨ f = 36 ∨ (97 ≤ f ∧ f ≤ 122) ∨ (65 ≤ f ∧ f ≤ 90))) ∧
        (∀ b ∈ t.text, b = 95 ∨ b = 36 ∨ (97 ≤ b ∧ b ≤ 122) ∨ (65 ≤ b ∧ b ≤ 90) ∨ b ≤ 9) ∧
        (∀ p, p <+: s.drop t.start →
          (∀ b ∈ p, b = 95 ∨ b = 36 ∨ (97 ≤ b ∧ b ≤ 122) ∨ (65 ≤ b ∧ b ≤ 90) ∨ b ≤ 9) →
          p.length ≤ t.text.length) ∧
        t.text <+: s.drop t.start ∧
        ∀ b, s[t.start + t.text.length]? = some b →
          ¬ (b = 95 ∨ b = 36 ∨ (97 ≤ b ∧ b ≤ 122) ∨ (65 ≤ b ∧ b ≤ 90) ∨ b ≤ 9)) ∧
    (Lexer.lex_abs DefaultLexerConfig (Lexer.new [97, 49])).map Prod.fst = some
      [{ kind := DefaultTokenKind.Identifier, text := [97], start := 0, line := 0, col := 0 },
       { kind := DefaultTokenKind.Number, text := [49], start := 1, line := 0, col := 1 },
       { kind := DefaultTokenKind.Eof, text := [], start := 2, line := 0, col := 2 }] := by
  refine ⟨default_valid_iff, ?_, ?_, by decide!⟩
  · intro c r h1 h2
    cases hv : DefaultLexerConfig.is_valid_identifier (c :: r) with
    | false => rfl
    | true =>
      have := (default_valid_iff c r).1 hv
      omega
  · obtain ⟨pushed, eof, l, hlex, hek, _, hall⟩ := default_lex_tokens s
    refine ⟨_, _, hlex, ?_⟩
    intro t ht hkind
    rcases List.mem_append.1 ht with ht | ht
    · obtain ⟨b, r, line, lsp, c', hd, _, hb⟩ := hall t ht
      have hcase := default_branches_cases b r t.start line lsp t c' hb
      have hpk := default_punctuations_heads (t.text, t.kind)
      have hok := default_operators_heads (t.text, t.kind)
      have hwk := default_whitespace_heads (t.text, t.kind)
      rcases hcase with ⟨_, h⟩ | ⟨_, _, h⟩ | ⟨_, _, _, h⟩ | ⟨_, _, _, hst, _, htext⟩ |
        ⟨_, _, _, _, _, h, _⟩ | ⟨_, _, _, _, _, h, _⟩
      · have := (hwk h).2
        simp only at this
        rw [hkind] at this
        exact absurd this (by decide)
      · exact absurd hkind (hpk h).2.2.2
      · exact absurd hkind (hok h).2.2.2
      · have hrun : t.text = (s.drop t.start).take
            (identifier_loop DefaultLexerConfig.is_valid_identifier (s.drop t.start) 0) := by
          rw [htext, hd]
        have hvalid : DefaultLexerConfig.is_valid_identifier (b :: r) = true := by
          rw [default_valid_iff]
          have := (default_start_iff b r).1 hst
          tauto
        have hpos := identifier_loop_pos DefaultLexerConfig.is_valid_identifier b r hvalid
        have hle := identifier_loop_le DefaultLexerConfig.is_valid_identifier (s.drop t.start)
        refine ⟨?_, ?_, ?_, ?_, ?_⟩
        · refine ⟨b, (r.take (identifier_loop DefaultLexerConfig.is_valid_identifier
            (b :: r) 0 - 1)), ?_, (default_start_iff b r).1 hst⟩
          rw [htext]
          obtain ⟨n, hn⟩ := Nat.exists_eq_succ_of_ne_zero (Nat.pos_iff_ne_zero.1 hpos)
          rw [hn, List.take_succ_cons]
          rfl
        · intro x hx
          rw [htext] at hx
          obtain ⟨r', hr'⟩ := identifier_loop_mem _ _ x hx
          exact (default_valid_iff x r').1 hr'
        · intro p hp hq
          have h1 := identifier_loop_longest DefaultLexerConfig.is_valid_identifier
            (fun b => b = 95 ∨ b = 36 ∨ (97 ≤ b ∧ b ≤ 122) ∨ (65 ≤ b ∧ b ≤ 90) ∨ b ≤ 9)
            (fun b r hq => (default_valid_iff b r).2 hq) (s.drop t.start) p hp hq
          rw [hrun, List.length_take]
          omega
        · rw [hrun]; exact List.take_prefix _ _
        · intro x hx
          obtain ⟨r', hr'⟩ := run_followed _ s t hrun x hx
          intro hq
          rw [(default_valid_iff x r').2 hq] at hr'
          exact absurd hr' (by decide)
      · rw [hkind] at h; exact absurd h (by decide)
      · rw [hkind] at h; exact absurd h (by decide)
    · rw [List.mem_singleton] at ht
      rw [ht, hek] at hkind
      exact absurd hkind (by decide)

/-- In the abstract model: under the default configuration every `Unknown` token that `lex`
returns has a text of exactly one byte, and a returned token is `Unknown`
exactly when the byte of the source at its start is none of: a whitespace byte
(space, line feed, carriage return); a punctuation byte `, ; . ( ) [ ] { } =`;
an operator byte `+ - / * > < ~ & | ^ % ! ?`; `_`, `$` or an ASCII letter; an
ASCII digit. -/
theorem lex_unknown_fallback_abs (s : List Nat) :
    ∃ toks l, Lexer.lex_abs DefaultLexerConfig (Lexer.new s) = some (toks, l) ∧
      ∀ t ∈ toks,
        (t.kind = DefaultTokenKind.Unknown → t.text.length = 1) ∧
        (t.kind = DefaultTokenKind.Unknown ↔
          ∃ b, s[t.start]? = some b ∧ b ∉ [32, 10, 13] ∧
            b ∉ [44, 59, 46, 40, 41, 91, 93, 123, 125, 61] ∧
            b ∉ [43, 45, 47, 42, 62, 60, 126, 38, 124, 94, 37, 33, 63] ∧
            ¬ (b = 95 ∨ b = 36 ∨ (97 ≤ b ∧ b ≤ 122) ∨ (65 ≤ b ∧ b ≤ 90)) ∧
            ¬ (48 ≤ b ∧ b ≤ 57)) := by
  obtain ⟨pushed, eof, l, hlex, hek, hes, hall⟩ := default_lex_tokens s
  refine ⟨_, _, hlex, ?_⟩
  intro t ht
  rcases List.mem_append.1 ht with ht | ht
  · obtain ⟨b, r, line, lsp, c', hd, hsb, hb⟩ := hall t ht
    have hcase := default_branches_cases b r t.start line lsp t c' hb
    have hpk := default_punctuations_heads (t.text, t.kind)
    have hok := default_operators_heads (t.text, t.kind)
    have hwk := default_whitespace_heads (t.text, t.kind)
    have hex : ∀ P : Nat → Prop, (∃ x, s[t.start]? = some x ∧ P x) ↔ P b := by
      intro P
      rw [hsb]
      constructor
      · rintro ⟨x, hx, hP⟩
        cases hx
        exact hP
      · intro hP; exact ⟨b, rfl, hP⟩
    rw [hex]
    rcases hcase with ⟨hw, h⟩ | ⟨_, hp, h⟩ | ⟨_, _, ho, h⟩ | ⟨_, _, _, hst, h, _⟩ |
      ⟨_, _, _, _, hdig, h, _⟩ | ⟨h1, h2, h3, h4, h5, h, htext⟩
    · have hk := (hwk h).2
      simp only at hk
      have hne : t.kind ≠ DefaultTokenKind.Unknown := by rw [hk]; decide
      exact ⟨fun x => absurd x hne, ⟨fun x => absurd x hne, fun x => absurd hw x.1⟩⟩
    · have hne := (hpk h).2.1
      simp only at hne
      exact ⟨fun x => absurd x hne, ⟨fun x => absurd x hne, fun x => absurd hp x.2.1⟩⟩
    · have hne := (hok h).2.1
      simp only at hne
      exact ⟨fun x => absurd x hne, ⟨fun x => absurd x hne, fun x => absurd ho x.2.2.1⟩⟩
    · have hne : t.kind ≠ DefaultTokenKind.Unknown := by rw [h]; decide
      exact ⟨fun x => absurd x hne, ⟨fun x => absurd x hne,
        fun x => absurd ((default_start_iff b r).1 hst) x.2.2.2.1⟩⟩
    · have hne : t.kind ≠ DefaultTokenKind.Unknown := by rw [h]; decide
      exact ⟨fun x => absurd x hne, ⟨fun x => absurd x hne,
        fun x => absurd ((default_is_digit_iff b r).1 hdig) x.2.2.2.2⟩⟩
    · refine ⟨fun _ => by rw [htext]; rfl, ⟨fun _ => ⟨h1, h2, h3, ?_, ?_⟩, fun _ => h⟩⟩
      · intro hq
        rw [(default_start_iff b r).2 hq] at h4
        exact absurd h4 (by decide)
      · intro hq
        rw [(default_is_digit_iff b r).2 hq] at h5
        exact absurd h5 (by decide)
  · rw [List.mem_singleton] at ht
    have hne : t.kind ≠ DefaultTokenKind.Unknown := by rw [ht, hek]; decide
    refine ⟨fun x => absurd x hne, ⟨fun x => absurd x hne, ?_⟩⟩
    rintro ⟨b, hb, _⟩
    rw [ht, hes] at hb
    simp at hb

end dark

namespace dark.detail

theorem set_zero_of_getD (l : List Nat) (c : Nat) (hc : c < l.length)
    (h0 : l.getD c 0 = 0) : l.set c 0 = l := by
  induction l generalizing c with
  | nil => rfl
  | cons x xs ih =>
    cases c with
    | zero =>
      simp only [List.getD_cons_zero] at h0
      rw [List.set_cons_zero, h0]
    | succ c =>
      simp only [List.getD_cons_succ] at h0
      simp only [List.length_cons] at hc
      rw [List.set_cons_succ, ih c (by omega) h0]

/-- The state of the `index_mapping` loops over byte patterns, whether or not
a symbol has wrapped: every entry is below 256 and below `index`, and the
non-zero entries are at least `min (index - 1) 255`. -/
theorem symbol_inv_step (st : List Nat × Nat) (c : Nat) (hc : c < 256)
    (h : st.1.length = 256 ∧ 1 ≤ st.2 ∧ (∀ a, st.1.getD a 0 < 256) ∧
      (∀ a, st.1.getD a 0 < st.2) ∧ min (st.2 - 1) 255 ≤ nz_count st.1) :
    (index_mapping_step_abs st c).1.length = 256 ∧ 1 ≤ (index_mapping_step_abs st c).2 ∧
      (∀ a, (index_mapping_step_abs st c).1.getD a 0 < 256) ∧
      (∀ a, (index_mapping_step_abs st c).1.getD a 0 < (index_mapping_step_abs st c).2) ∧
      min ((index_mapping_step_abs st c).2 - 1) 255 ≤ nz_count (index_mapping_step_abs st c).1 := by
  obtain ⟨hlen, h1, h256, hlt, hnz⟩ := h
  unfold index_mapping_step_abs
  split
  · rename_i h0
    have hcl : c < st.1.length := by rw [hlen]; exact hc
    have hmod : st.2 % 256 < 256 := Nat.mod_lt _ (by decide)
    have hmle : st.2 % 256 ≤ st.2 := Nat.mod_le _ _
    refine ⟨by simp [hlen], by simp, ?_, ?_, ?_⟩
    · intro a
      simp only
      rw [getD_set_eq _ _ _ _ hcl]
      split
      · exact hmod
      · exact h256 a
    · intro a
      simp only
      rw [getD_set_eq _ _ _ _ hcl]
      split
      · omega
      · have := hlt a; omega
    · simp only
      by_cases hz : st.2 % 256 = 0
      · rw [hz, set_zero_of_getD _ _ hcl h0]
        have : 256 ≤ st.2 := by
          by_contra hlt'
          have := Nat.mod_eq_of_lt (Nat.lt_of_not_le hlt')
          omega
        omega
      · rw [nz_count_set _ _ _ hcl h0 (Nat.pos_of_ne_zero hz)]
        omega
  · exact ⟨hlen, h1, h256, hlt, hnz⟩

theorem symbol_inv_fold (bs : List Nat) (hbs : ∀ b ∈ bs, b < 256) (st : List Nat × Nat)
    (h : st.1.length = 256 ∧ 1 ≤ st.2 ∧ (∀ a, st.1.getD a 0 < 256) ∧
      (∀ a, st.1.getD a 0 < st.2) ∧ min (st.2 - 1) 255 ≤ nz_count st.1) :
    (∀ a, (bs.foldl index_mapping_step_abs st).1.getD a 0 < 256) ∧
      (∀ a, (bs.foldl index_mapping_step_abs st).1.getD a 0 < (bs.foldl index_mapping_step_abs st).2) ∧
      min ((bs.foldl index_mapping_step_abs st).2 - 1) 255 ≤
        nz_count (bs.foldl index_mapping_step_abs st).1 := by
  induction bs generalizing st with
  | nil => exact ⟨h.2.2.1, h.2.2.2.1, h.2.2.2.2⟩
  | cons b bs ih =>
    rw [List.foldl_cons]
    exact ih (fun x hx => hbs x (by simp [hx])) _
      (symbol_inv_step st b (hbs b (by simp)) h)

/-- Every symbol is below the arity, for every set of byte patterns. -/
theorem get_char_index_lt_extent {K : Type} (lexems : Lexems K)
    (hb : ∀ b ∈ pattern_bytes lexems, b < 256) (a : Nat) :
    get_char_index_abs lexems a < max_extent_abs lexems := by
  have h := symbol_inv_fold (pattern_bytes lexems) hb (List.replicate 256 0, 1)
    ⟨List.length_replicate _ _, Nat.le_refl _,
      by intro a; simp only [getD_replicate_zero]; omega,
      by intro a; simp only [getD_replicate_zero]; omega,
      by simp only [nz_count_replicate_zero]; omega⟩
  rw [← index_mapping_loop_eq] at h
  obtain ⟨h1, h2, h3⟩ := h
  rw [max_extent_eq]
  unfold get_char_index_abs index_mapping_abs
  have := h1 a
  have := h2 a
  unfold index_mapping_abs at *
  omega

theorem coord_snoc (A : Nat) (x : List Nat) (d : Nat) :
    coord A (x ++ [d]) = coord A x + A ^ x.length * d := by
  rw [coord_append]
  simp [coord]

/-- Every access of the scan loop is inside the stride vector and the table. -/
theorem match_loop_reads_lt {K : Type} (lexems : Lexems K)
    (hb : ∀ b ∈ pattern_bytes lexems, b < 256) (rest pre : List Nat)
    (hlen : pre.length + rest.length ≤ max_len lexems) :
    ∀ r ∈ match_loop_reads_abs lexems (make_nd_map_abs lexems) rest pre.length
        (coord (max_extent_abs lexems) (pre.map (get_char_index_abs lexems))),
      r.1 < max_len lexems ∧ r.2 < max_extent_abs lexems ^ max_len lexems := by
  induction rest generalizing pre with
  | nil => intro r hr; simp [match_loop_reads_abs] at hr
  | cons ch rest ih =>
    intro r hr
    simp only [List.length_cons] at hlen
    have hi : pre.length < max_len lexems := by omega
    have hs : (make_nd_map_abs lexems).stride.getD pre.length 0 = max_extent_abs lexems ^ pre.length :=
      stride_loop_getD _ _ _ hi
    have hc : coord (max_extent_abs lexems) (pre.map (get_char_index_abs lexems)) +
        (make_nd_map_abs lexems).stride.getD pre.length 0 * get_char_index_abs lexems ch =
        coord (max_extent_abs lexems) ((pre ++ [ch]).map (get_char_index_abs lexems)) := by
      rw [hs, List.map_append, List.map_singleton, coord_snoc, List.length_map]
    unfold match_loop_reads_abs at hr
    simp only [List.mem_cons] at hr
    rcases hr with hr | hr
    · rw [hr]
      refine ⟨hi, ?_⟩
      simp only
      rw [hc]
      apply coord_lt_pow _ _ (max_extent_pos lexems)
      · intro d hd
        obtain ⟨x, _, hx⟩ := List.mem_map.1 hd
        rw [← hx]
        exact get_char_index_lt_extent lexems hb x
      · simp only [List.length_map, List.length_append, List.length_singleton]
        omega
    · rw [hc] at hr
      have hl : (pre ++ [ch]).length = pre.length + 1 := by simp
      rw [← hl] at hr
      exact ih (pre ++ [ch]) (by rw [hl]; omega) r hr

theorem match_reads_lt {K : Type} (lexems : Lexems K)
    (hb : ∀ b ∈ pattern_bytes lexems, b < 256) (s : List Nat) :
    ∀ r ∈ Switch.match_reads_abs lexems s,
      r.1 < max_len lexems ∧ r.2 < max_extent_abs lexems ^ max_len lexems := by
  have h := match_loop_reads_lt lexems hb (s.take (min (max_len lexems) s.length)) []
    (by simp only [List.length_nil, List.length_take]; omega)
  exact h

/-- The scan loop returns the last table entry other than `npos` among the
cells that it reads. -/
theorem match_loop_eq_reads {K : Type} (lexems : Lexems K) ( map : ArrayWrapper)
    (rest : List Nat) (i idx : Nat) (found : Option Nat) :
    match_loop_abs lexems map rest i idx found =
      ((match_loop_reads_abs lexems map rest i idx).map (fun r => map.data.get r.2)).foldl
        (fun found_index temp => if temp ≠ npos then temp else found_index) found := by
  induction rest generalizing i idx found with
  | nil => rfl
  | cons ch rest ih =>
    unfold match_loop_abs match_loop_reads_abs
    simp only [List.map_cons, List.foldl_cons]
    exact ih _ _ _

/-- The write index of every literal of a set of byte patterns is inside the
table. -/
theorem lexem_index_lt_size {K : Type} (lexems : Lexems K)
    (hb : ∀ b ∈ pattern_bytes lexems, b < 256) (el : List Nat × K) (hel : el ∈ lexems) :
    lexem_index_abs lexems (make_nd_map_abs lexems).stride el.1 <
      max_extent_abs lexems ^ max_len lexems := by
  have hs : (make_nd_map_abs lexems).stride = stride_loop (max_extent_abs lexems) (max_len lexems) := rfl
  rw [hs, lexem_index_eq lexems el.1 (max_len_ge lexems el hel)]
  apply coord_lt_pow _ _ (max_extent_pos lexems)
  · intro d hd
    obtain ⟨x, _, hx⟩ := List.mem_map.1 hd
    rw [← hx]
    exact get_char_index_lt_extent lexems hb x
  · rw [List.length_map]
    exact max_len_ge lexems el hel

theorem make_nd_map_size {K : Type} (lexems : Lexems K) :
    (make_nd_map_abs lexems).data.size = max_extent_abs lexems ^ max_len lexems := by
  have hd : (make_nd_map_abs lexems).data = (lexems.foldl
      (fun st el => (st.1.set (lexem_index_abs lexems
        (stride_loop (max_extent_abs lexems) (max_len lexems)) el.1) (some st.2), st.2 + 1))
      (FlatArray.fill (table_size (max_extent_abs lexems) (max_len lexems)) npos, 0)).1 := rfl
  rw [hd, fold_set_size, table_size_eq]
  rfl

end dark.detail

namespace dark

open detail

/-- In the abstract model: for every set of byte patterns and every input `s`: each access of
`Switch::match` reads `map.stride[i]` with `i < max_len` and `map.data[idx]`
with `idx < max_extent ^ max_len`, the table size, and `match` returns the last
entry other than `npos` that these reads find; each literal of `make_nd_map`
uses the stride indices below its length, which are below `max_len`, and
writes at an index below the table size; hence a result of `match` other than
`npos` is an index below the number of patterns, at which `str_from_index` and
`token_from_index` find an entry. -/
theorem table_accesses_in_bounds_abs {K : Type} (lexems : Lexems K) (s : List Nat)
    (hb : ∀ el ∈ lexems, ∀ b ∈ el.1, b < 256) :
    (make_nd_map_abs lexems).data.size = max_extent_abs lexems ^ max_len lexems ∧
    (make_nd_map_abs lexems).stride.length = max_len lexems ∧
    (∀ r ∈ Switch.match_reads_abs lexems s,
      r.1 < max_len lexems ∧ r.2 < max_extent_abs lexems ^ max_len lexems) ∧
    Switch.match_abs lexems s =
      ((Switch.match_reads_abs lexems s).map (fun r => (make_nd_map_abs lexems).data.get r.2)).foldl
        (fun found_index temp => if temp ≠ npos then temp else found_index) npos ∧
    (∀ el ∈ lexems, (∀ i, i < el.1.length → i < max_len lexems) ∧
      lexem_index_abs lexems (make_nd_map_abs lexems).stride el.1 <
        max_extent_abs lexems ^ max_len lexems) ∧
    (∀ k, Switch.match_abs lexems s = some k →
      k < lexems.length ∧
      ∃ el, lexems[k]? = some el ∧ Switch.str_from_index lexems k = some el.1 ∧
        Switch.token_from_index lexems k = some el.2) := by
  have hb' : ∀ b ∈ pattern_bytes lexems, b < 256 := by
    intro b hb1
    unfold pattern_bytes at hb1
    obtain ⟨l, hl, hbl⟩ := List.mem_flatten.1 hb1
    obtain ⟨el, hel, he⟩ := List.mem_map.1 hl
    exact hb el hel b (by rw [he]; exact hbl)
  refine ⟨make_nd_map_size lexems, stride_loop_length _ _, match_reads_lt lexems hb' s,
    match_loop_eq_reads lexems _ _ 0 0 npos, ?_, ?_⟩
  · intro el hel
    refine ⟨fun i hi => ?_, lexem_index_lt_size lexems hb' el hel⟩
    have := max_len_ge lexems el hel
    omega
  · intro k hk
    have hlt := match_lt lexems s k hk
    refine ⟨hlt, lexems[k], List.getElem?_eq_getElem hlt, ?_, ?_⟩
    · simp [Switch.str_from_index, List.getElem?_eq_getElem hlt]
    · simp [Switch.token_from_index, List.getElem?_eq_getElem hlt]

theorem default_equal_equal_literal :
    (∀ el ∈ DefaultLexerConfig.whitespace, el.2 ≠ DefaultTokenKind.EqualEqual) ∧
    (∀ el ∈ DefaultLexerConfig.punctuations, el.2 ≠ DefaultTokenKind.EqualEqual) ∧
    (∀ el ∈ DefaultLexerConfig.operators, el.2 = DefaultTokenKind.EqualEqual →
      el.1 = [61, 61]) ∧
    (([61], DefaultTokenKind.Equal) ∈ DefaultLexerConfig.punctuations) := by
  decide

/-- No branch of the default configuration pushes the kind `EqualEqual`: a view
that starts with `=` is claimed by the punctuation set. -/
theorem default_branches_no_equal_equal (src : List Nat) (c line lsp : Nat)
    (t : Token DefaultTokenKind) (c' : Nat)
    (h : lex_branches_abs DefaultLexerConfig src c line lsp = Branch.emit t c') :
    t.kind ≠ DefaultTokenKind.EqualEqual := by
  obtain ⟨wf, wne, wnd, _, _⟩ := default_whitespace_wf
  obtain ⟨pf, pne, pnd, _, _⟩ := default_punctuations_wf
  obtain ⟨of, one, ond, _⟩ := default_operators_wf
  obtain ⟨kw, kp, ko, hmem⟩ := default_equal_equal_literal
  rcases lex_branches_cases DefaultLexerConfig src c line lsp t c' h with
    ⟨lexems, id, el, hs, hm, hel, hk, _⟩ | ⟨_, lexems, id, el, hs, hm, hel, hk, _⟩ |
    ⟨_, pp, lexems, id, el, hs, hm, hel, hk, _⟩ | ⟨_, _, _, hk, hs, _, hkind, _⟩ |
    ⟨_, _, _, _, n, hs, _, hkind, _⟩ | ⟨_, _, _, _, _, hkind, _⟩
  · simp only [DefaultLexerConfig, Option.some.injEq] at hs
    subst hs
    rw [hk]
    exact kw el (match_some_mem _ wf wne wnd _ id el hm hel).1
  · simp only [DefaultLexerConfig, Option.some.injEq] at hs
    subst hs
    rw [hk]
    exact kp el (match_some_mem _ pf pne pnd _ id el hm hel).1
  · simp only [DefaultLexerConfig, Option.some.injEq] at hs
    subst hs
    obtain ⟨hin, hpre⟩ := match_some_mem _ of one ond _ id el hm hel
    rw [hk]
    intro heq
    rw [ko el hin heq] at hpre
    have hp : Passes (some DefaultLexerConfig.punctuations) src := pp
    apply passes_no_literal _ pf pne pnd src hp _ hmem
    exact (List.prefix_append [61] [61]).trans hpre
  · simp only [DefaultLexerConfig, Option.some.injEq] at hs
    subst hs
    rw [hkind]; decide
  · simp only [DefaultLexerConfig, Option.some.injEq] at hs
    subst hs
    rw [hkind]; decide
  · rw [hkind]; decide

/-- In the abstract model: under the default configuration, for every input no token that `lex`
returns has the kind `EqualEqual`; `==` yields two `Equal` tokens with text `=`
at the starts 0 and 1, then `Eof`; and `!=` yields the single token `NotEqual`,
then `Eof`. -/
theorem lex_equal_equal_shadowed_abs (s : List Nat) :
    (∃ toks l, Lexer.lex_abs DefaultLexerConfig (Lexer.new s) = some (toks, l) ∧
      ∀ t ∈ toks, t.kind ≠ DefaultTokenKind.EqualEqual) ∧
    (([61, 61], DefaultTokenKind.EqualEqual) ∈ DefaultLexerConfig.operators ∧
      ([61], DefaultTokenKind.Equal) ∈ DefaultLexerConfig.punctuations) ∧
    (Lexer.lex_abs DefaultLexerConfig (Lexer.new [61, 61])).map Prod.fst = some
      [{ kind := DefaultTokenKind.Equal, text := [61], start := 0, line := 0, col := 0 },
       { kind := DefaultTokenKind.Equal, text := [61], start := 1, line := 0, col := 1 },
       { kind := DefaultTokenKind.Eof, text := [], start := 2, line := 0, col := 2 }] ∧
    (Lexer.lex_abs DefaultLexerConfig (Lexer.new [33, 61])).map Prod.fst = some
      [{ kind := DefaultTokenKind.NotEqual, text := [33, 61], start := 0, line := 0, col := 0 },
       { kind := DefaultTokenKind.Eof, text := [], start := 2, line := 0, col := 2 }] := by
  refine ⟨?_, by decide, by decide!, by decide!⟩
  obtain ⟨pushed, eof, l, hlex, hek, _, hall⟩ := default_lex_tokens s
  refine ⟨_, _, hlex, ?_⟩
  intro t ht
  rcases List.mem_append.1 ht with ht | ht
  · obtain ⟨b, r, line, lsp, c', _, _, hb⟩ := hall t ht
    exact default_branches_no_equal_equal _ _ _ _ t c' hb
  · rw [List.mem_singleton] at ht
    rw [ht, hek]; decide

end dark

namespace dark.detail

theorem char_to_size_eq (sg : Bool) (b : Nat) (h : char_to_size sg b < 256) :
    char_to_size sg b = b := by
  unfold char_to_size at h ⊢
  split
  · rename_i hc
    rw [if_pos hc] at h
    omega
  · rfl

theorem char_to_size_lt (sg : Bool) (b : Nat) (h : char_to_size sg b < 256) : b < 256 := by
  rw [char_to_size_eq sg b h] at h
  exact h

theorem char_to_size_unsigned (b : Nat) : char_to_size false b = b := by
  simp [char_to_size]

theorem char_to_size_ascii (sg : Bool) (b : Nat) (h : b < 128) : char_to_size sg b = b := by
  unfold char_to_size
  rw [if_neg]
  omega

theorem bytes_in_range_lt (sg : Bool) (s : List Nat) (h : BytesInRange sg s) :
    ∀ b ∈ s, b < 256 :=
  fun b hb => char_to_size_lt sg b (h b hb)

theorem bytes_in_range_unsigned (s : List Nat) (h : ∀ b ∈ s, b < 256) : BytesInRange false s := by
  intro b hb
  rw [char_to_size_unsigned]
  exact h b hb

theorem bytes_in_range_ascii (sg : Bool) (s : List Nat) (h : ∀ b ∈ s, b < 128) :
    BytesInRange sg s := by
  intro b hb
  rw [char_to_size_ascii sg b (h b hb)]
  have := h b hb
  omega

theorem bytes_in_range_take (sg : Bool) (s : List Nat) (n : Nat) (h : BytesInRange sg s) :
    BytesInRange sg (s.take n) :=
  fun b hb => h b (List.mem_of_mem_take hb)

theorem bytes_in_range_drop (sg : Bool) (s : List Nat) (n : Nat) (h : BytesInRange sg s) :
    BytesInRange sg (s.drop n) :=
  fun b hb => h b (List.mem_of_mem_drop hb)

theorem patterns_in_range_mem {K : Type} (sg : Bool) (lexems : Lexems K)
    (h : PatternsInRange sg lexems) (el : List Nat × K) (hel : el ∈ lexems) :
    BytesInRange sg el.1 :=
  fun b hb => h b (mem_pattern_bytes lexems el hel b hb)

theorem index_mapping_step_refines (sg : Bool) (st : List Nat × Nat) (c : Nat)
    (hlen : st.1.length = 256) (hc : char_to_size sg c < 256) :
    index_mapping_step sg st c = some (index_mapping_step_abs st c) := by
  unfold index_mapping_step index_mapping_step_abs
  have hcl : c < st.1.length := by rw [hlen]; exact char_to_size_lt sg c hc
  simp only [char_to_size_eq sg c hc, List.getElem?_eq_getElem hcl,
    List.getD_eq_getElem?_getD, Option.getD_some]
  split <;> rfl

theorem index_mapping_fold_length (bs : List Nat) (st : List Nat × Nat) :
    (bs.foldl index_mapping_step_abs st).1.length = st.1.length := by
  induction bs generalizing st with
  | nil => rfl
  | cons b bs ih => rw [List.foldl_cons, ih, index_mapping_step_length]

theorem index_mapping_foldlM_refines (sg : Bool) (bs : List Nat) (hbs : BytesInRange sg bs)
    (st : List Nat × Nat) (hlen : st.1.length = 256) :
    bs.foldlM (index_mapping_step sg) st = some (bs.foldl index_mapping_step_abs st) := by
  induction bs generalizing st with
  | nil => rfl
  | cons b bs ih =>
    rw [List.foldlM_cons, index_mapping_step_refines sg st b hlen (hbs b (by simp)),
      List.foldl_cons]
    exact ih (fun x hx => hbs x (by simp [hx])) _
      (by rw [index_mapping_step_length]; exact hlen)

theorem index_mapping_loop_refines {K : Type} (sg : Bool) (lexems : Lexems K)
    (h : PatternsInRange sg lexems) :
    index_mapping_loop sg lexems = some (index_mapping_loop_abs lexems) := by
  unfold index_mapping_loop index_mapping_loop_abs
  have gen : ∀ (ls : Lexems K) (st : List Nat × Nat), st.1.length = 256 →
      (∀ el ∈ ls, BytesInRange sg el.1) →
      ls.foldlM (index_mapping_lexem sg) st =
        some (ls.foldl (fun st el => el.1.foldl index_mapping_step_abs st) st) := by
    intro ls
    induction ls with
    | nil => intro st _ _; rfl
    | cons el ls ih =>
      intro st hlen hall
      rw [List.foldlM_cons]
      unfold index_mapping_lexem
      rw [index_mapping_foldlM_refines sg el.1 (hall el (by simp)) st hlen, List.foldl_cons]
      exact ih _ (by rw [index_mapping_fold_length]; exact hlen)
        (fun x hx => hall x (by simp [hx]))
  exact gen lexems _ (List.length_replicate _ _) (patterns_in_range_mem sg lexems h)

theorem index_mapping_refines {K : Type} (sg : Bool) (lexems : Lexems K)
    (h : PatternsInRange sg lexems) :
    index_mapping sg lexems = some (index_mapping_abs lexems) := by
  unfold index_mapping index_mapping_abs
  rw [index_mapping_loop_refines sg lexems h]
  rfl

theorem max_extent_refines {K : Type} (sg : Bool) (lexems : Lexems K)
    (h : PatternsInRange sg lexems) :
    max_extent sg lexems = some (max_extent_abs lexems) := by
  unfold max_extent max_extent_abs
  rw [index_mapping_refines sg lexems h]
  rfl

theorem get_char_index_refines {K : Type} (sg : Bool) (lexems : Lexems K)
    (h : PatternsInRange sg lexems) (b : Nat) (hb : char_to_size sg b < 256) :
    get_char_index sg lexems b = some (get_char_index_abs lexems b) := by
  unfold get_char_index get_char_index_abs
  rw [index_mapping_refines sg lexems h]
  have hl : b < (index_mapping_abs lexems).length := by
    rw [index_mapping_length]; exact char_to_size_lt sg b hb
  simp only [char_to_size_eq sg b hb, List.getElem?_eq_getElem hl, List.getD_eq_getElem?_getD,
    Option.getD_some]

/-- A byte that does not convert to an index of `index_mapping` makes the
lookup undefined, whatever the pattern set. -/
theorem get_char_index_undefined {K : Type} (sg : Bool) (lexems : Lexems K) (b : Nat)
    (hb : 256 ≤ char_to_size sg b) : get_char_index sg lexems b = none := by
  unfold get_char_index
  cases hm : index_mapping sg lexems with
  | none => rfl
  | some m =>
    simp only
    apply List.getElem?_eq_none
    have hlen : m.length = 256 := by
      unfold index_mapping at hm
      cases hl : index_mapping_loop sg lexems with
      | none => rw [hl] at hm; simp at hm
      | some r =>
        rw [hl] at hm
        simp only [Option.map_some', Option.some.injEq] at hm
        rw [← hm]
        have step : ∀ (st st' : List Nat × Nat) (c : Nat),
            index_mapping_step sg st c = some st' → st'.1.length = st.1.length := by
          intro st st' c hst
          cases hg : st.1[char_to_size sg c]? with
          | none => simp [index_mapping_step, hg] at hst
          | some v =>
            simp only [index_mapping_step, hg] at hst
            split at hst
            · simp only [Option.some.injEq] at hst
              rw [← hst]; simp
            · simp only [Option.some.injEq] at hst
              rw [← hst]
        have fold : ∀ (bs : List Nat) (st st' : List Nat × Nat),
            bs.foldlM (index_mapping_step sg) st = some st' → st'.1.length = st.1.length := by
          intro bs
          induction bs with
          | nil =>
            intro st st' hst
            simp only [List.foldlM_nil, Option.pure_def, Option.some.injEq] at hst
            rw [hst]
          | cons c bs ih =>
            intro st st' hst
            rw [List.foldlM_cons] at hst
            cases h1 : index_mapping_step sg st c with
            | none => rw [h1] at hst; simp at hst
            | some st1 =>
              rw [h1] at hst
              simp only [Option.bind_eq_bind, Option.some_bind] at hst
              rw [ih st1 st' hst, step st st1 c h1]
        have gen : ∀ (ls : Lexems K) (st st' : List Nat × Nat),
            ls.foldlM (index_mapping_lexem sg) st = some st' →
            st'.1.length = st.1.length := by
          intro ls
          induction ls with
          | nil =>
            intro st st' hst
            simp only [List.foldlM_nil, Option.pure_def, Option.some.injEq] at hst
            rw [hst]
          | cons el ls ih =>
            intro st st' hst
            rw [List.foldlM_cons] at hst
            cases h1 : index_mapping_lexem sg st el with
            | none => rw [h1] at hst; simp at hst
            | some st1 =>
              rw [h1] at hst
              simp only [Option.bind_eq_bind, Option.some_bind] at hst
              rw [ih st1 st' hst, fold el.1 st st1 h1]
        unfold index_mapping_loop at hl
        rw [gen lexems _ r hl]
        exact List.length_replicate _ _
    rw [hlen]
    exact hb

theorem lexem_index_refines {K : Type} (sg : Bool) (lexems : Lexems K)
    (h : PatternsInRange sg lexems) (stride : List Nat) (el : List Nat)
    (hel : BytesInRange sg el) (hlen : el.length ≤ stride.length) :
    lexem_index sg lexems stride el = some (lexem_index_abs lexems stride el) := by
  unfold lexem_index lexem_index_abs
  have gen : ∀ (bs : List Nat) (st : Nat × Nat), BytesInRange sg bs →
      st.2 + bs.length ≤ stride.length →
      bs.foldlM (lexem_index_step sg lexems stride) st =
      some (bs.foldl
        (fun st c => (st.1 + stride.getD st.2 0 * get_char_index_abs lexems c, st.2 + 1)) st) := by
    intro bs
    induction bs with
    | nil => intro st _ _; rfl
    | cons b bs ih =>
      intro st hbs hl
      simp only [List.length_cons] at hl
      have hi : st.2 < stride.length := by omega
      rw [List.foldlM_cons, List.foldl_cons]
      have hstep : lexem_index_step sg lexems stride st b =
          some (st.1 + stride.getD st.2 0 * get_char_index_abs lexems b, st.2 + 1) := by
        simp only [lexem_index_step, get_char_index_refines sg lexems h b (hbs b (by simp)),
          List.getElem?_eq_getElem hi, List.getD_eq_getElem?_getD, Option.getD_some]
      rw [hstep]
      exact ih _ (fun x hx => hbs x (by simp [hx])) (by simp only; omega)
  rw [gen el (0, 0) hel (by simp only [Nat.zero_add]; exact hlen)]
  rfl

theorem make_nd_map_refines {K : Type} (sg : Bool) (lexems : Lexems K)
    (h : PatternsInRange sg lexems) :
    make_nd_map sg lexems = some (make_nd_map_abs lexems) := by
  unfold make_nd_map make_nd_map_abs
  rw [max_extent_refines sg lexems h]
  simp only
  have hb : ∀ b ∈ pattern_bytes lexems, b < 256 := bytes_in_range_lt sg _ h
  have gen : ∀ (ls : Lexems K) (st : FlatArray × Nat), (∀ el ∈ ls, el ∈ lexems) →
      st.1.size = table_size (max_extent_abs lexems) (max_len lexems) →
      ls.foldlM (make_nd_map_step sg lexems
          (stride_loop (max_extent_abs lexems) (max_len lexems))) st =
      some (ls.foldl
        (fun st el => (st.1.set (lexem_index_abs lexems
          (stride_loop (max_extent_abs lexems) (max_len lexems)) el.1) (some st.2), st.2 + 1))
        st) := by
    intro ls
    induction ls with
    | nil => intro st _ _; rfl
    | cons el ls ih =>
      intro st hall hsize
      have hel := hall el (by simp)
      have hidx := lexem_index_lt_size lexems hb el hel
      have hs : (make_nd_map_abs lexems).stride =
          stride_loop (max_extent_abs lexems) (max_len lexems) := rfl
      rw [hs] at hidx
      rw [List.foldlM_cons, List.foldl_cons]
      have hstep : make_nd_map_step sg lexems
          (stride_loop (max_extent_abs lexems) (max_len lexems)) st el =
          some (st.1.set (lexem_index_abs lexems
            (stride_loop (max_extent_abs lexems) (max_len lexems)) el.1) (some st.2),
            st.2 + 1) := by
        have hle : el.1.length ≤
            (stride_loop (max_extent_abs lexems) (max_len lexems)).length := by
          rw [stride_loop_length]; exact max_len_ge lexems el hel
        have hli := lexem_index_refines sg lexems h
          (stride_loop (max_extent_abs lexems) (max_len lexems)) el.1
          (patterns_in_range_mem sg lexems h el hel) hle
        have hlt : lexem_index_abs lexems
            (stride_loop (max_extent_abs lexems) (max_len lexems)) el.1 < st.1.size := by
          rw [hsize, table_size_eq]; exact hidx
        simp only [make_nd_map_step, hli, if_pos hlt]
      rw [hstep]
      exact ih _ (fun x hx => hall x (by simp [hx])) (by simpa [FlatArray.set] using hsize)
  rw [gen lexems _ (fun el hel => hel) rfl]
  rfl

theorem match_loop_refines {K : Type} (sg : Bool) (lexems : Lexems K)
    (h : PatternsInRange sg lexems) (rest pre : List Nat) (hrest : BytesInRange sg rest)
    (hlen : pre.length + rest.length ≤ max_len lexems) (found : Option Nat) :
    match_loop sg lexems (make_nd_map_abs lexems) rest pre.length
        (coord (max_extent_abs lexems) (pre.map (get_char_index_abs lexems))) found =
      some (match_loop_abs lexems (make_nd_map_abs lexems) rest pre.length
        (coord (max_extent_abs lexems) (pre.map (get_char_index_abs lexems))) found) := by
  have hb : ∀ b ∈ pattern_bytes lexems, b < 256 := bytes_in_range_lt sg _ h
  induction rest generalizing pre found with
  | nil => rfl
  | cons ch rest ih =>
    simp only [List.length_cons] at hlen
    have hi : pre.length < max_len lexems := by omega
    have hsl : (make_nd_map_abs lexems).stride.length = max_len lexems := stride_loop_length _ _
    have hs : (make_nd_map_abs lexems).stride.getD pre.length 0 =
        max_extent_abs lexems ^ pre.length := stride_loop_getD _ _ _ hi
    have hil : pre.length < (make_nd_map_abs lexems).stride.length := by rw [hsl]; exact hi
    have hget : (make_nd_map_abs lexems).stride[pre.length]? =
        some (max_extent_abs lexems ^ pre.length) := by
      rw [List.getD_eq_getElem?_getD, List.getElem?_eq_getElem hil, Option.getD_some] at hs
      rw [List.getElem?_eq_getElem hil, hs]
    have hc : coord (max_extent_abs lexems) (pre.map (get_char_index_abs lexems)) +
        max_extent_abs lexems ^ pre.length * get_char_index_abs lexems ch =
        coord (max_extent_abs lexems) ((pre ++ [ch]).map (get_char_index_abs lexems)) := by
      rw [List.map_append, List.map_singleton, coord_snoc, List.length_map]
    have hlt : coord (max_extent_abs lexems) ((pre ++ [ch]).map (get_char_index_abs lexems)) <
        (make_nd_map_abs lexems).data.size := by
      rw [make_nd_map_size]
      apply coord_lt_pow _ _ (max_extent_pos lexems)
      · intro d hd
        obtain ⟨x, _, hx⟩ := List.mem_map.1 hd
        rw [← hx]
        exact get_char_index_lt_extent lexems hb x
      · simp only [List.length_map, List.length_append, List.length_singleton]
        omega
    unfold match_loop match_loop_abs
    simp only [get_char_index_refines sg lexems h ch (hrest ch (by simp)), hget, hs, hc,
      if_pos hlt]
    have hl : (pre ++ [ch]).length = pre.length + 1 := by simp
    rw [← hl]
    exact ih (pre ++ [ch]) (fun x hx => hrest x (by simp [hx])) (by rw [hl]; omega) _

/-- For a pattern set in range and an input whose bytes read by `match` are in
range, `Switch::match` is defined and is the abstract match. -/
theorem match_refines {K : Type} (sg : Bool) (lexems : Lexems K)
    (h : PatternsInRange sg lexems) (s : List Nat)
    (hs : BytesInRange sg (s.take (min (max_len lexems) s.length))) :
    Switch.match sg lexems s = some (Switch.match_abs lexems s) := by
  unfold Switch.match Switch.match_abs
  rw [make_nd_map_refines sg lexems h]
  simp only
  have := match_loop_refines sg lexems h (s.take (min (max_len lexems) s.length)) [] hs
    (by simp only [List.length_nil, List.length_take]; omega) npos
  simpa [coord] using this

end dark.detail

namespace dark

open detail

theorem to_unsigned_eq (n : Nat) (h : n < 2 ^ 32) : to_unsigned n = n :=
  Nat.mod_eq_of_lt h

theorem unsigned_add_eq (a b : Nat) (h : a + b < 2 ^ 32) : unsigned_add a b = a + b :=
  Nat.mod_eq_of_lt h

theorem unsigned_sub_eq (a b : Nat) (hb : b ≤ a) (ha : a < 2 ^ 32) : unsigned_sub a b = a - b := by
  unfold unsigned_sub
  have hb2 : b % 2 ^ 32 = b := Nat.mod_eq_of_lt (by omega)
  rw [hb2]
  have e : a + (2 ^ 32 - b) = (a - b) + 2 ^ 32 := by omega
  rw [e, Nat.add_mod_right]
  exact Nat.mod_eq_of_lt (by omega)

theorem unsigned_add_lt (a b : Nat) : unsigned_add a b < 2 ^ 32 :=
  Nat.mod_lt _ (by norm_num)

theorem orElse_unsigned {K : Type} (c lsp : Nat) (b n : Branch K) :
    (b.orElse n).unsigned c lsp = (b.unsigned c lsp).orElse (n.unsigned c lsp) := by
  cases b <;> rfl

theorem switch_branch_refines {K : Type} (sg : Bool) (set : Option (Lexems K))
    (hset : ∀ lexems, set = some lexems → PatternsInRange sg lexems)
    (source : List Nat) (hs : BytesInRange sg source) (c line lsp : Nat) :
    switch_branch sg set source c line lsp =
      (switch_branch_abs set source c line lsp).unsigned c lsp := by
  unfold switch_branch switch_branch_abs
  cases set with
  | none => rfl
  | some lexems =>
    simp only
    rw [match_refines sg lexems (hset lexems rfl) source (bytes_in_range_take sg _ _ hs)]
    cases Switch.match_abs lexems source with
    | none => rfl
    | some id =>
      simp only
      cases Switch.str_from_index lexems id with
      | none => rfl
      | some text =>
        cases Switch.token_from_index lexems id with
        | none => rfl
        | some kind =>
          simp only [Branch.unsigned, Nat.add_sub_cancel_left]

theorem identifier_branch_refines {K : Type} (hooks : Option (IdentifierHooks K))
    (source : List Nat) (c line lsp : Nat) :
    identifier_branch hooks source c line lsp =
      (identifier_branch_abs hooks source c line lsp).unsigned c lsp := by
  unfold identifier_branch identifier_branch_abs
  cases hooks with
  | none => rfl
  | some h =>
    simp only
    split
    · simp only [Branch.unsigned, Nat.add_sub_cancel_left]
    · rfl

theorem number_branch_refines {K : Type} (hooks : Option (NumberHooks K))
    (source : List Nat) (c line lsp : Nat) :
    number_branch hooks source c line lsp =
      (number_branch_abs hooks source c line lsp).unsigned c lsp := by
  unfold number_branch number_branch_abs
  cases hooks with
  | none => rfl
  | some h =>
    simp only
    split
    · simp only [Branch.unsigned, Nat.add_sub_cancel_left]
    · rfl

theorem fallback_branch_refines {K : Type} (cfg : LexerConfig K)
    (source : List Nat) (c line lsp : Nat) :
    fallback_branch cfg source c line lsp =
      (fallback_branch_abs cfg source c line lsp).unsigned c lsp := by
  unfold fallback_branch fallback_branch_abs
  simp only [Branch.unsigned, Nat.add_sub_cancel_left]
  rfl

/-- With patterns and view in range, the priority chain of the code is the
abstract one with the `unsigned` arithmetic. -/
theorem lex_branches_refines {K : Type} (sg : Bool) (cfg : LexerConfig K)
    (hcfg : ConfigInRange sg cfg) (source : List Nat) (hs : BytesInRange sg source)
    (c line lsp : Nat) :
    lex_branches sg cfg source c line lsp =
      (lex_branches_abs cfg source c line lsp).unsigned c lsp := by
  unfold lex_branches lex_branches_abs
  simp only [orElse_unsigned]
  rw [← switch_branch_refines sg _ hcfg.whitespace source hs,
    ← switch_branch_refines sg _ hcfg.punctuations source hs,
    ← switch_branch_refines sg _ hcfg.operators source hs,
    ← identifier_branch_refines, ← number_branch_refines, ← fallback_branch_refines]

theorem lex_branches_abs_col {K : Type} (cfg : LexerConfig K) (source : List Nat)
    (c line lsp : Nat) (t : Token K) (c' : Nat)
    (h : lex_branches_abs cfg source c line lsp = Branch.emit t c') :
    t.col = c - lsp ∧ t.line = line := by
  have hr := lex_branches_reposition cfg source c line lsp line lsp
  rw [h] at hr
  simp only [Branch.reposition, Branch.emit.injEq] at hr
  constructor
  · have := congrArg Token.col hr.1
    simpa using this
  · have := congrArg Token.line hr.1
    simpa using this

/-- One iteration of the code is the abstract iteration when the offsets stay
below `2 ^ 32`. -/
theorem lex_iteration_refines {K : Type} (sg : Bool) (cfg : LexerConfig K)
    (hcfg : ConfigInRange sg cfg) (s : List Nat) (hs : BytesInRange sg s)
    (st st' : LoopState K) (habs : lex_iteration_abs cfg s st = some st')
    (hline : st.line + 1 < 2 ^ 32) (hlsp : st.line_start_pos ≤ st.m_cursor)
    (hcur : st'.m_cursor < 2 ^ 32) :
    lex_iteration sg cfg s st = some st' := by
  have hmono := (lex_iteration_cursor cfg s st st' st habs rfl).1
  unfold lex_iteration_abs at habs
  unfold lex_iteration
  simp only at habs ⊢
  have hl : (if (s.drop st.m_cursor).head? = some 10 then unsigned_add st.line 1 else st.line) =
      (if (s.drop st.m_cursor).head? = some 10 then st.line + 1 else st.line) := by
    split
    · exact unsigned_add_eq _ _ hline
    · rfl
  rw [hl, lex_branches_refines sg cfg hcfg _ (bytes_in_range_drop sg s _ hs)]
  cases hb : lex_branches_abs cfg (s.drop st.m_cursor) st.m_cursor
      (if (s.drop st.m_cursor).head? = some 10 then st.line + 1 else st.line)
      (if (s.drop st.m_cursor).head? = some 10 then st.m_cursor else st.line_start_pos) with
  | pass => rw [hb] at habs; simp at habs
  | undefined => rw [hb] at habs; simp at habs
  | emit t c =>
    rw [hb] at habs
    simp only [Option.some.injEq] at habs
    have hcol := (lex_branches_abs_col cfg _ _ _ _ t c hb).1
    have hc : st'.m_cursor = c := by rw [← habs]
    rw [hc] at hcur hmono
    have hlsp2 : (if (s.drop st.m_cursor).head? = some 10 then st.m_cursor
        else st.line_start_pos) ≤ st.m_cursor := by
      split
      · exact Nat.le_refl _
      · exact hlsp
    simp only [Branch.unsigned]
    rw [unsigned_sub_eq _ _ hlsp2 (by omega), to_unsigned_eq _ (by omega),
      unsigned_add_eq _ _ (by omega), ← hcol, ← habs]
    congr 2
    omega

theorem loop_inv_lsp {K : Type} (s : List Nat) (eof : K) (st : LoopState K)
    (hinv : LoopInv s eof st) : st.line_start_pos ≤ st.m_cursor := by
  rcases hinv.ls with ⟨h, _⟩ | ⟨h, _⟩
  · exact Nat.le_of_lt h
  · rw [h]; exact Nat.zero_le _

theorem loop_inv_line {K : Type} (s : List Nat) (eof : K) (st : LoopState K)
    (hinv : LoopInv s eof st) : st.line ≤ st.m_cursor := by
  rw [hinv.line]
  have h1 := List.count_le_length 10 (s.take st.m_cursor)
  rw [List.length_take] at h1
  omega

/-- The scan loop of the code is the abstract loop for a regular configuration
in range, on a source in range and shorter than `2 ^ 32` bytes. -/
theorem lex_loop_refines {K : Type} (sg : Bool) (cfg : LexerConfig K) (hreg : Regular cfg)
    (hcfg : ConfigInRange sg cfg) (s : List Nat) (hs : BytesInRange sg s)
    (hlen : s.length < 2 ^ 32) (fuel : Nat) (st : LoopState K)
    (hinv : LoopInv s cfg.Eof st) :
    lex_loop sg cfg s fuel st = lex_loop_abs cfg s fuel st := by
  induction fuel generalizing st with
  | zero =>
    unfold lex_loop lex_loop_abs
    rfl
  | succ fuel ih =>
    unfold lex_loop lex_loop_abs
    split
    · rename_i hc
      obtain ⟨st', habs, hinv', _⟩ := lex_iteration_inv cfg hreg s st hinv hc
      have hle := hinv'.le
      have h1 := loop_inv_line s cfg.Eof st hinv
      rw [lex_iteration_refines sg cfg hcfg s hs st st' habs (by omega)
        (loop_inv_lsp s cfg.Eof st hinv) (by omega), habs]
      exact ih st' hinv'
    · rfl

/-- `Lexer::lex` on a fresh lexer is the abstract `lex` for a regular
configuration in range, on a source in range and shorter than `2 ^ 32`
bytes. -/
theorem lex_refines {K : Type} (sg : Bool) (cfg : LexerConfig K) (hreg : Regular cfg)
    (hcfg : ConfigInRange sg cfg) (s : List Nat) (hs : BytesInRange sg s)
    (hlen : s.length < 2 ^ 32) :
    Lexer.lex sg cfg (Lexer.new s) = Lexer.lex_abs cfg (Lexer.new s) := by
  obtain ⟨st, h1, hinv, hfin⟩ := lex_loop_inv cfg hreg s s.length _ (loop_inv_init s cfg.Eof)
    (by simp)
  unfold Lexer.lex Lexer.lex_abs Lexer.new
  simp only
  rw [lex_loop_refines sg cfg hreg hcfg s hs hlen _ _ (loop_inv_init s cfg.Eof), h1]
  simp only
  rw [unsigned_sub_eq _ _ (loop_inv_lsp s cfg.Eof st hinv) (by rw [hfin]; exact hlen)]

theorem default_in_range (sg : Bool) : ConfigInRange sg DefaultLexerConfig := by
  have hw : ∀ b ∈ pattern_bytes DefaultLexerConfig.whitespace, b < 128 := by decide
  have hp : ∀ b ∈ pattern_bytes DefaultLexerConfig.punctuations, b < 128 := by decide
  have ho : ∀ b ∈ pattern_bytes DefaultLexerConfig.operators, b < 128 := by decide
  constructor
  · intro lexems h
    simp only [DefaultLexerConfig, Option.some.injEq] at h
    rw [← h]
    exact bytes_in_range_ascii sg _ hw
  · intro lexems h
    simp only [DefaultLexerConfig, Option.some.injEq] at h
    rw [← h]
    exact bytes_in_range_ascii sg _ hp
  · intro lexems h
    simp only [DefaultLexerConfig, Option.some.injEq] at h
    rw [← h]
    exact bytes_in_range_ascii sg _ ho

/-- Under the default configuration `Lexer::lex` on a fresh lexer is the
abstract `lex`, for a source in range and shorter than `2 ^ 32` bytes. -/
theorem default_lex_refines (sg : Bool) (s : List Nat) (hs : BytesInRange sg s)
    (hlen : s.length < 2 ^ 32) :
    Lexer.lex sg DefaultLexerConfig (Lexer.new s) =
      Lexer.lex_abs DefaultLexerConfig (Lexer.new s) :=
  lex_refines sg DefaultLexerConfig default_regular (default_in_range sg) s hs hlen

/-- The cursor of the code stays below `2 ^ 32`, so the loop does not end on a
source of `2 ^ 32` bytes or more. -/
theorem lex_iteration_cursor_lt {K : Type} (sg : Bool) (cfg : LexerConfig K) (s : List Nat)
    (st st' : LoopState K) (h : lex_iteration sg cfg s st = some st') :
    st'.m_cursor < 2 ^ 32 := by
  unfold lex_iteration at h
  simp only at h
  split at h
  · rename_i t c hb
    simp only [Option.some.injEq] at h
    rw [← h]
    simp only
    unfold lex_branches at hb
    have key : ∀ (b : Branch K) (t : Token K) (c : Nat), b = Branch.emit t c →
        (∀ t' c', b = Branch.emit t' c' → c' < 2 ^ 32) → c < 2 ^ 32 := fun b t c h1 h2 => h2 t c h1
    have hsw : ∀ (set : Option (Lexems K)) (src : List Nat) (m l p : Nat) (t' : Token K)
        (c' : Nat), switch_branch sg set src m l p = Branch.emit t' c' → c' < 2 ^ 32 := by
      intro set src m l p t' c' he
      unfold switch_branch at he
      split at he
      · simp at he
      · split at he
        · simp at he
        · simp at he
        · split at he
          · simp only [Branch.emit.injEq] at he
            rw [← he.2]; exact unsigned_add_lt _ _
          · simp at he
    have hid : ∀ (hooks : Option (IdentifierHooks K)) (src : List Nat) (m l p : Nat)
        (t' : Token K) (c' : Nat), identifier_branch hooks src m l p = Branch.emit t' c' →
        c' < 2 ^ 32 := by
      intro hooks src m l p t' c' he
      unfold identifier_branch at he
      split at he
      · simp at he
      · split at he
        · simp only [Branch.emit.injEq] at he
          rw [← he.2]; exact unsigned_add_lt _ _
        · simp at he
    have hnum : ∀ (hooks : Option (NumberHooks K)) (src : List Nat) (m l p : Nat)
        (t' : Token K) (c' : Nat), number_branch hooks src m l p = Branch.emit t' c' →
        c' < 2 ^ 32 := by
      intro hooks src m l p t' c' he
      unfold number_branch at he
      split at he
      · simp at he
      · split at he
        · simp only [Branch.emit.injEq] at he
          rw [← he.2]; exact unsigned_add_lt _ _
        · simp at he
    rcases branch_orElse_emit _ _ _ _ hb with h1 | ⟨_, hb⟩
    · exact hsw _ _ _ _ _ _ _ h1
    rcases branch_orElse_emit _ _ _ _ hb with h1 | ⟨_, hb⟩
    · exact hsw _ _ _ _ _ _ _ h1
    rcases branch_orElse_emit _ _ _ _ hb with h1 | ⟨_, hb⟩
    · exact hsw _ _ _ _ _ _ _ h1
    rcases branch_orElse_emit _ _ _ _ hb with h1 | ⟨_, hb⟩
    · exact hid _ _ _ _ _ _ _ h1
    rcases branch_orElse_emit _ _ _ _ hb with h1 | ⟨_, hb⟩
    · exact hnum _ _ _ _ _ _ _ h1
    · unfold fallback_branch at hb
      simp only [Branch.emit.injEq] at hb
      rw [← hb.2]; exact unsigned_add_lt _ _
  · simp at h

theorem lex_loop_long_source {K : Type} (sg : Bool) (cfg : LexerConfig K) (s : List Nat)
    (hlen : 2 ^ 32 ≤ s.length) (fuel : Nat) (st : LoopState K) (hst : st.m_cursor < 2 ^ 32) :
    lex_loop sg cfg s fuel st = none := by
  induction fuel generalizing st with
  | zero =>
    unfold lex_loop
    rw [if_pos (by omega)]
  | succ fuel ih =>
    unfold lex_loop
    rw [if_pos (by omega)]
    simp only
    cases hit : lex_iteration sg cfg s st with
    | none => rfl
    | some st' =>
      simp only
      exact ih st' (lex_iteration_cursor_lt sg cfg s st st' hit)

/-- On a source of `2 ^ 32` bytes or more `Lexer::lex` does not return,
whatever the configuration. -/
theorem lex_long_source {K : Type} (sg : Bool) (cfg : LexerConfig K) (s : List Nat)
    (hlen : 2 ^ 32 ≤ s.length) :
    (∀ fuel, lex_loop sg cfg s fuel
      { m_cursor := 0, line := 0, line_start_pos := 0, tokens := [] } = none) ∧
    Lexer.lex sg cfg (Lexer.new s) = none := by
  have h : ∀ fuel, lex_loop sg cfg s fuel
      { m_cursor := 0, line := 0, line_start_pos := 0, tokens := [] } = none :=
    fun fuel => lex_loop_long_source sg cfg s hlen fuel _ (by norm_num)
  refine ⟨h, ?_⟩
  unfold Lexer.lex Lexer.new
  simp only [h]

end dark

namespace dark.detail

theorem index_mapping_step_defined (sg : Bool) (st st' : List Nat × Nat) (c : Nat)
    (h : index_mapping_step sg st c = some st') :
    char_to_size sg c < st.1.length ∧ st'.1.length = st.1.length := by
  cases hg : st.1[char_to_size sg c]? with
  | none => simp [index_mapping_step, hg] at h
  | some v =>
    have hlt : char_to_size sg c < st.1.length := by
      by_contra hn
      rw [List.getElem?_eq_none (Nat.le_of_not_lt hn)] at hg
      simp at hg
    refine ⟨hlt, ?_⟩
    simp only [index_mapping_step, hg] at h
    split at h
    · simp only [Option.some.injEq] at h
      rw [← h]; simp
    · simp only [Option.some.injEq] at h
      rw [← h]

theorem index_mapping_foldlM_defined (sg : Bool) (bs : List Nat) (st st' : List Nat × Nat)
    (h : bs.foldlM (index_mapping_step sg) st = some st') (hlen : st.1.length = 256) :
    BytesInRange sg bs ∧ st'.1.length = 256 := by
  induction bs generalizing st with
  | nil =>
    simp only [List.foldlM_nil, Option.pure_def, Option.some.injEq] at h
    rw [← h]
    exact ⟨fun b hb => by simp at hb, hlen⟩
  | cons c bs ih =>
    rw [List.foldlM_cons] at h
    cases h1 : index_mapping_step sg st c with
    | none => rw [h1] at h; simp at h
    | some st1 =>
      rw [h1] at h
      simp only [Option.bind_eq_bind, Option.some_bind] at h
      obtain ⟨hc, hl1⟩ := index_mapping_step_defined sg st st1 c h1
      obtain ⟨hbs, hl'⟩ := ih st1 h (by rw [hl1]; exact hlen)
      refine ⟨?_, hl'⟩
      intro b hb
      rcases List.mem_cons.1 hb with hb | hb
      · rw [hb, ← hlen]; exact hc
      · exact hbs b hb

theorem index_mapping_loop_defined {K : Type} (sg : Bool) (lexems : Lexems K)
    (r : List Nat × Nat) (h : index_mapping_loop sg lexems = some r) :
    PatternsInRange sg lexems := by
  unfold index_mapping_loop at h
  have gen : ∀ (ls : Lexems K) (st st' : List Nat × Nat),
      ls.foldlM (index_mapping_lexem sg) st = some st' → st.1.length = 256 →
      BytesInRange sg (pattern_bytes ls) := by
    intro ls
    induction ls with
    | nil => intro st st' _ _ b hb; simp [pattern_bytes] at hb
    | cons el ls ih =>
      intro st st' hst hlen
      rw [List.foldlM_cons] at hst
      cases h1 : index_mapping_lexem sg st el with
      | none => rw [h1] at hst; simp at hst
      | some st1 =>
        rw [h1] at hst
        simp only [Option.bind_eq_bind, Option.some_bind] at hst
        unfold index_mapping_lexem at h1
        obtain ⟨hel, hl1⟩ := index_mapping_foldlM_defined sg el.1 st st1 h1 hlen
        have hrest := ih st1 st' hst hl1
        intro b hb
        simp only [pattern_bytes, List.map_cons, List.flatten_cons, List.mem_append] at hb
        rcases hb with hb | hb
        · exact hel b hb
        · exact hrest b hb
  exact gen lexems _ r h (List.length_replicate _ _)

theorem index_mapping_defined {K : Type} (sg : Bool) (lexems : Lexems K) (m : List Nat)
    (h : index_mapping sg lexems = some m) : PatternsInRange sg lexems := by
  unfold index_mapping at h
  cases hl : index_mapping_loop sg lexems with
  | none => rw [hl] at h; simp at h
  | some r => exact index_mapping_loop_defined sg lexems r hl

theorem get_char_index_defined {K : Type} (sg : Bool) (lexems : Lexems K) (b v : Nat)
    (h : get_char_index sg lexems b = some v) :
    PatternsInRange sg lexems ∧ char_to_size sg b < 256 := by
  have hlt : char_to_size sg b < 256 := by
    by_contra hn
    rw [get_char_index_undefined sg lexems b (Nat.le_of_not_lt hn)] at h
    simp at h
  refine ⟨?_, hlt⟩
  unfold get_char_index at h
  cases hm : index_mapping sg lexems with
  | none => rw [hm] at h; simp at h
  | some m => exact index_mapping_defined sg lexems m hm

theorem make_nd_map_defined {K : Type} (sg : Bool) (lexems : Lexems K) ( map : ArrayWrapper)
    (h : make_nd_map sg lexems = some map) :
    PatternsInRange sg lexems ∧ map = make_nd_map_abs lexems := by
  have hp : PatternsInRange sg lexems := by
    unfold make_nd_map at h
    cases he : max_extent sg lexems with
    | none => rw [he] at h; simp at h
    | some e =>
      unfold max_extent at he
      cases hm : index_mapping sg lexems with
      | none => rw [hm] at he; simp at he
      | some m => exact index_mapping_defined sg lexems m hm
  refine ⟨hp, ?_⟩
  rw [make_nd_map_refines sg lexems hp] at h
  simp only [Option.some.injEq] at h
  exact h.symm

theorem match_loop_defined {K : Type} (sg : Bool) (lexems : Lexems K) ( map : ArrayWrapper)
    (rest : List Nat) (i idx : Nat) (found : Option Nat) (r : Option Nat)
    (h : match_loop sg lexems map rest i idx found = some r) : BytesInRange sg rest := by
  induction rest generalizing i idx found with
  | nil => intro b hb; simp at hb
  | cons ch rest ih =>
    unfold match_loop at h
    cases hg : get_char_index sg lexems ch with
    | none => simp [hg] at h
    | some c =>
      cases hsv : map.stride[i]? with
      | none => simp [hg, hsv] at h
      | some sv =>
        simp only [hg, hsv] at h
        split at h
        · have hrest := ih _ _ _ h
          intro b hb
          rcases List.mem_cons.1 hb with hb | hb
          · rw [hb]; exact (get_char_index_defined sg lexems ch c hg).2
          · exact hrest b hb
        · simp at h

/-- A defined result of `Switch::match` is the abstract match. -/
theorem match_defined {K : Type} (sg : Bool) (lexems : Lexems K) (s : List Nat)
    (r : Option Nat) (h : Switch.match sg lexems s = some r) :
    r = Switch.match_abs lexems s ∧ PatternsInRange sg lexems ∧
      BytesInRange sg (s.take (min (max_len lexems) s.length)) := by
  have h0 := h
  unfold Switch.match at h
  cases hm : make_nd_map sg lexems with
  | none => rw [hm] at h; simp at h
  | some map =>
    rw [hm] at h
    simp only at h
    obtain ⟨hp, _⟩ := make_nd_map_defined sg lexems map hm
    have hs := match_loop_defined sg lexems map _ _ _ _ r h
    rw [match_refines sg lexems hp s hs] at h0
    simp only [Option.some.injEq] at h0
    exact ⟨h0.symm, hp, hs⟩

end dark.detail

namespace dark

open detail

theorem orElse_simulates {K : Type} (c lsp : Nat) (f1 a1 f2 a2 : Branch K)
    (h1 : Branch.Simulates c lsp f1 a1) (h2 : Branch.Simulates c lsp f2 a2) :
    Branch.Simulates c lsp (f1.orElse f2) (a1.orElse a2) := by
  intro hne
  cases f1 with
  | undefined => exact absurd rfl hne
  | pass =>
    have e := h1 (by simp)
    cases a1 with
    | pass => exact h2 hne
    | emit t c' => simp [Branch.unsigned] at e
    | undefined => simp [Branch.unsigned] at e
  | emit t c' =>
    have e := h1 (by simp)
    cases a1 with
    | pass => simp [Branch.unsigned] at e
    | emit t2 c2 => exact e
    | undefined => simp [Branch.unsigned] at e

theorem switch_branch_simulates {K : Type} (sg : Bool) (set : Option (Lexems K))
    (source : List Nat) (c line lsp : Nat) :
    Branch.Simulates c lsp (switch_branch sg set source c line lsp)
      (switch_branch_abs set source c line lsp) := by
  intro hne
  cases set with
  | none => rfl
  | some lexems =>
    cases hm : Switch.match sg lexems source with
    | none => simp [switch_branch, hm] at hne
    | some r =>
      obtain ⟨_, hp, hs⟩ := match_defined sg lexems source r hm
      unfold switch_branch switch_branch_abs
      simp only
      rw [match_refines sg lexems hp source hs]
      cases Switch.match_abs lexems source with
      | none => rfl
      | some id =>
        simp only
        cases Switch.str_from_index lexems id with
        | none => rfl
        | some text =>
          cases Switch.token_from_index lexems id with
          | none => rfl
          | some kind =>
            simp only [Branch.unsigned, Nat.add_sub_cancel_left]

theorem lex_branches_simulates {K : Type} (sg : Bool) (cfg : LexerConfig K)
    (source : List Nat) (c line lsp : Nat) :
    Branch.Simulates c lsp (lex_branches sg cfg source c line lsp)
      (lex_branches_abs cfg source c line lsp) := by
  unfold lex_branches lex_branches_abs
  refine orElse_simulates _ _ _ _ _ _ (switch_branch_simulates sg _ _ _ _ _) ?_
  refine orElse_simulates _ _ _ _ _ _ (switch_branch_simulates sg _ _ _ _ _) ?_
  refine orElse_simulates _ _ _ _ _ _ (switch_branch_simulates sg _ _ _ _ _) ?_
  refine orElse_simulates _ _ _ _ _ _ (fun _ => identifier_branch_refines _ _ _ _ _) ?_
  refine orElse_simulates _ _ _ _ _ _ (fun _ => number_branch_refines _ _ _ _ _) ?_
  exact fun _ => fallback_branch_refines _ _ _ _ _

/-- An iteration of the code that is defined is the abstract iteration when
the offsets stay below `2 ^ 32`. -/
theorem lex_iteration_defined {K : Type} (sg : Bool) (cfg : LexerConfig K) (s : List Nat)
    (st sta stf : LoopState K) (habs : lex_iteration_abs cfg s st = some sta)
    (hf : lex_iteration sg cfg s st = some stf)
    (hline : st.line + 1 < 2 ^ 32) (hlsp : st.line_start_pos ≤ st.m_cursor)
    (hcur : sta.m_cursor < 2 ^ 32) : stf = sta := by
  have hmono := (lex_iteration_cursor cfg s st sta st habs rfl).1
  unfold lex_iteration_abs at habs
  unfold lex_iteration at hf
  simp only at habs hf
  have hl : (if (s.drop st.m_cursor).head? = some 10 then unsigned_add st.line 1 else st.line) =
      (if (s.drop st.m_cursor).head? = some 10 then st.line + 1 else st.line) := by
    split
    · exact unsigned_add_eq _ _ hline
    · rfl
  rw [hl] at hf
  have hsim := lex_branches_simulates sg cfg (s.drop st.m_cursor) st.m_cursor
    (if (s.drop st.m_cursor).head? = some 10 then st.line + 1 else st.line)
    (if (s.drop st.m_cursor).head? = some 10 then st.m_cursor else st.line_start_pos)
  cases hb : lex_branches_abs cfg (s.drop st.m_cursor) st.m_cursor
      (if (s.drop st.m_cursor).head? = some 10 then st.line + 1 else st.line)
      (if (s.drop st.m_cursor).head? = some 10 then st.m_cursor else st.line_start_pos) with
  | pass => rw [hb] at habs; simp at habs
  | undefined => rw [hb] at habs; simp at habs
  | emit t c =>
    rw [hb] at habs hsim
    simp only [Option.some.injEq] at habs
    have hcol := (lex_branches_abs_col cfg _ _ _ _ t c hb).1
    have hc : sta.m_cursor = c := by rw [← habs]
    rw [hc] at hcur hmono
    have hlsp2 : (if (s.drop st.m_cursor).head? = some 10 then st.m_cursor
        else st.line_start_pos) ≤ st.m_cursor := by
      split
      · exact Nat.le_refl _
      · exact hlsp
    cases hfb : lex_branches sg cfg (s.drop st.m_cursor) st.m_cursor
        (if (s.drop st.m_cursor).head? = some 10 then st.line + 1 else st.line)
        (if (s.drop st.m_cursor).head? = some 10 then st.m_cursor else st.line_start_pos) with
    | pass => rw [hfb] at hf; simp at hf
    | undefined => rw [hfb] at hf; simp at hf
    | emit tf cf =>
      rw [hfb] at hf hsim
      simp only [Option.some.injEq] at hf
      have e := hsim (by simp)
      simp only [Branch.unsigned, Branch.emit.injEq] at e
      rw [unsigned_sub_eq _ _ hlsp2 (by omega), to_unsigned_eq _ (by omega),
        unsigned_add_eq _ _ (by omega), ← hcol] at e
      rw [← hf, ← habs, e.1, e.2]
      congr 1
      omega

theorem lex_loop_defined {K : Type} (sg : Bool) (cfg : LexerConfig K) (hreg : Regular cfg)
    (s : List Nat) (hlen : s.length < 2 ^ 32) (fuel : Nat) (st r : LoopState K)
    (hinv : LoopInv s cfg.Eof st) (h : lex_loop sg cfg s fuel st = some r) :
    lex_loop_abs cfg s fuel st = some r := by
  induction fuel generalizing st with
  | zero =>
    unfold lex_loop at h
    unfold lex_loop_abs
    exact h
  | succ fuel ih =>
    unfold lex_loop at h
    unfold lex_loop_abs
    split
    · rename_i hc
      rw [if_pos hc] at h
      simp only at h
      obtain ⟨sta, habs, hinv', _⟩ := lex_iteration_inv cfg hreg s st hinv hc
      have hle := hinv'.le
      have h1 := loop_inv_line s cfg.Eof st hinv
      cases hf : lex_iteration sg cfg s st with
      | none => rw [hf] at h; simp at h
      | some stf =>
        rw [hf] at h
        simp only at h
        have e := lex_iteration_defined sg cfg s st sta stf habs hf (by omega)
          (loop_inv_lsp s cfg.Eof st hinv) (by omega)
        rw [e] at h
        simp only [habs]
        exact ih sta hinv' h
    · rename_i hc
      rw [if_neg hc] at h
      exact h

/-- For a regular configuration, what `Lexer::lex` returns on a fresh lexer is
what the abstract `lex` returns. -/
theorem lex_defined {K : Type} (sg : Bool) (cfg : LexerConfig K) (hreg : Regular cfg)
    (s : List Nat) (r : List (Token K) × Lexer)
    (h : Lexer.lex sg cfg (Lexer.new s) = some r) :
    s.length < 2 ^ 32 ∧ Lexer.lex_abs cfg (Lexer.new s) = some r := by
  have hlen : s.length < 2 ^ 32 := by
    by_contra hn
    rw [(lex_long_source sg cfg s (Nat.le_of_not_lt hn)).2] at h
    simp at h
  refine ⟨hlen, ?_⟩
  obtain ⟨st, h1, hinv, hfin⟩ := lex_loop_inv cfg hreg s s.length _ (loop_inv_init s cfg.Eof)
    (by simp)
  unfold Lexer.lex Lexer.new at h
  simp only at h
  cases hl : lex_loop sg cfg s s.length
      { m_cursor := 0, line := 0, line_start_pos := 0, tokens := [] } with
  | none => rw [hl] at h; simp at h
  | some stf =>
    rw [hl] at h
    have e := lex_loop_defined sg cfg hreg s hlen _ _ stf (loop_inv_init s cfg.Eof) hl
    rw [h1] at e
    simp only [Option.some.injEq] at e
    unfold Lexer.lex_abs Lexer.new
    simp only [h1]
    rw [← e] at h
    simp only at h
    rw [unsigned_sub_eq _ _ (loop_inv_lsp s cfg.Eof st hinv) (by rw [hfin]; exact hlen)] at h
    exact h

/-- A property of what the abstract `lex` returns under the default
configuration holds of whatever `Lexer::lex` returns, and `Lexer::lex` returns
on a source in range and shorter than `2 ^ 32` bytes. -/
theorem default_lex_transfer (sg : Bool) (s : List Nat)
    (P : List (Token DefaultTokenKind) → Lexer → Prop)
    (habs : ∃ toks l, Lexer.lex_abs DefaultLexerConfig (Lexer.new s) = some (toks, l) ∧
      P toks l) :
    (∀ toks l, Lexer.lex sg DefaultLexerConfig (Lexer.new s) = some (toks, l) → P toks l) ∧
    (BytesInRange sg s → s.length < 2 ^ 32 →
      ∃ toks l, Lexer.lex sg DefaultLexerConfig (Lexer.new s) = some (toks, l) ∧ P toks l) := by
  obtain ⟨toks, l, hlex, hP⟩ := habs
  constructor
  · intro toks' l' h
    have e := (lex_defined sg DefaultLexerConfig default_regular s _ h).2
    rw [hlex] at e
    simp only [Option.some.injEq, Prod.mk.injEq] at e
    rw [← e.1, ← e.2]
    exact hP
  · intro hs hlen
    refine ⟨toks, l, ?_, hP⟩
    rw [default_lex_refines sg s hs hlen]
    exact hlex

theorem switch_branch_relocate {K : Type} (sg : Bool) (set : Option (Lexems K))
    (source : List Nat) (c line lsp line2 lsp2 : Nat) :
    switch_branch sg set source c line2 lsp2 =
      (switch_branch sg set source c line lsp).relocate line2 (unsigned_sub c lsp2) := by
  unfold switch_branch
  cases set with
  | none => rfl
  | some lexems =>
    simp only
    cases Switch.match sg lexems source with
    | none => rfl
    | some r =>
      cases r with
      | none => rfl
      | some id =>
        simp only
        cases Switch.str_from_index lexems id <;> cases Switch.token_from_index lexems id <;> rfl

theorem identifier_branch_relocate {K : Type} (hooks : Option (IdentifierHooks K))
    (source : List Nat) (c line lsp line2 lsp2 : Nat) :
    identifier_branch hooks source c line2 lsp2 =
      (identifier_branch hooks source c line lsp).relocate line2 (unsigned_sub c lsp2) := by
  unfold identifier_branch
  cases hooks with
  | none => rfl
  | some h =>
    simp only
    split <;> rfl

theorem number_branch_relocate {K : Type} (hooks : Option (NumberHooks K))
    (source : List Nat) (c line lsp line2 lsp2 : Nat) :
    number_branch hooks source c line2 lsp2 =
      (number_branch hooks source c line lsp).relocate line2 (unsigned_sub c lsp2) := by
  unfold number_branch
  cases hooks with
  | none => rfl
  | some h =>
    simp only
    split <;> rfl

theorem orElse_relocate {K : Type} (line col : Nat) (b n : Branch K) :
    (b.orElse n).relocate line col = (b.relocate line col).orElse (n.relocate line col) := by
  cases b <;> rfl

/-- In the code too the locals `line` and `line_start_pos` only enter the line
and column of the token an iteration pushes. -/
theorem lex_branches_relocate {K : Type} (sg : Bool) (cfg : LexerConfig K) (source : List Nat)
    (c line lsp line2 lsp2 : Nat) :
    lex_branches sg cfg source c line2 lsp2 =
      (lex_branches sg cfg source c line lsp).relocate line2 (unsigned_sub c lsp2) := by
  unfold lex_branches
  simp only [orElse_relocate]
  rw [← switch_branch_relocate, ← switch_branch_relocate, ← switch_branch_relocate,
    ← identifier_branch_relocate, ← number_branch_relocate]
  rfl

/-- Where an iteration of the code leaves the cursor depends on the cursor it
starts from only. -/
theorem lex_iteration_det {K : Type} (sg : Bool) (cfg : LexerConfig K) (s : List Nat)
    (st st1 st2 : LoopState K) (h : lex_iteration sg cfg s st = some st1)
    (hc : st2.m_cursor = st.m_cursor) :
    ∃ st3, lex_iteration sg cfg s st2 = some st3 ∧ st3.m_cursor = st1.m_cursor := by
  unfold lex_iteration at h ⊢
  simp only at h ⊢
  split at h
  · rename_i t c hb
    simp only [Option.some.injEq] at h
    rw [hc, lex_branches_relocate sg cfg _ st.m_cursor
      (if (s.drop st.m_cursor).head? = some 10 then unsigned_add st.line 1 else st.line)
      (if (s.drop st.m_cursor).head? = some 10 then st.m_cursor else st.line_start_pos), hb]
    simp only [Branch.relocate]
    exact ⟨_, rfl, by rw [← h]⟩
  · simp at h

theorem lex_loop_code_succ {K : Type} (sg : Bool) (cfg : LexerConfig K) (s : List Nat)
    (fuel : Nat) (st r : LoopState K) (h : lex_loop sg cfg s fuel st = some r) :
    lex_loop sg cfg s (fuel + 1) st = some r := by
  induction fuel generalizing st with
  | zero =>
    unfold lex_loop at h ⊢
    split at h
    · simp at h
    · rename_i hc; rw [if_neg hc]; exact h
  | succ fuel ih =>
    unfold lex_loop at h ⊢
    split at h
    · rename_i hc
      rw [if_pos hc]
      simp only at h ⊢
      cases hit : lex_iteration sg cfg s st with
      | none => rw [hit] at h; simp at h
      | some st1 =>
        rw [hit] at h
        simp only at h ⊢
        exact ih st1 h
    · rename_i hc; rw [if_neg hc]; exact h

theorem lex_loop_code_mono {K : Type} (sg : Bool) (cfg : LexerConfig K) (s : List Nat)
    (fuel fuel2 : Nat) (st r : LoopState K) (h : lex_loop sg cfg s fuel st = some r)
    (hle : fuel ≤ fuel2) : lex_loop sg cfg s fuel2 st = some r := by
  induction hle with
  | refl => exact h
  | step _ ih => exact lex_loop_code_succ sg cfg s _ st r ih

/-- Whether the scan loop of the code ends within a number of iterations
depends on the cursor it starts from only. -/
theorem lex_loop_code_det {K : Type} (sg : Bool) (cfg : LexerConfig K) (s : List Nat)
    (fuel : Nat) (st st2 r : LoopState K) (h : lex_loop sg cfg s fuel st = some r)
    (hc : st2.m_cursor = st.m_cursor) : ∃ r2, lex_loop sg cfg s fuel st2 = some r2 := by
  induction fuel generalizing st st2 with
  | zero =>
    unfold lex_loop at h ⊢
    split at h
    · simp at h
    · rename_i hlt
      rw [if_neg (by rw [hc]; exact hlt)]
      exact ⟨_, rfl⟩
  | succ fuel ih =>
    unfold lex_loop at h ⊢
    split at h
    · rename_i hlt
      rw [if_pos (by rw [hc]; exact hlt)]
      simp only at h ⊢
      cases hit : lex_iteration sg cfg s st with
      | none => rw [hit] at h; simp at h
      | some st1 =>
        rw [hit] at h
        simp only at h
        obtain ⟨st3, h3, h3c⟩ := lex_iteration_det sg cfg s st st1 st2 hit hc
        rw [h3]
        simp only
        exact ih st1 st3 h h3c
    · rename_i hlt
      rw [if_neg (by rw [hc]; exact hlt)]
      exact ⟨_, rfl⟩

/-- A run of the scan loop that ends after `k` iterations and no fewer visits
`k` different cursors below `m_source.size()`: with the cursors of `V` left
out, `m_source.size() - |V|` iterations are enough. -/
theorem lex_loop_within {K : Type} (sg : Bool) (cfg : LexerConfig K) (s : List Nat) (k : Nat) :
    ∀ (V : Finset Nat) (st r : LoopState K),
      (∀ c ∈ V, c < s.length) →
      (∀ c ∈ V, ∀ st' : LoopState K, st'.m_cursor = c → lex_loop sg cfg s k st' = none) →
      lex_loop sg cfg s k st = some r →
      (∀ j, j < k → lex_loop sg cfg s j st = none) →
      lex_loop sg cfg s (s.length - V.card) st = some r := by
  induction k with
  | zero =>
    intro V st r _ _ h _
    unfold lex_loop at h ⊢
    split at h
    · simp at h
    · rename_i hc; rw [if_neg hc]; exact h
  | succ k ih =>
    intro V st r hV hVn h hmin
    by_cases hc : st.m_cursor < s.length
    · have hnot : st.m_cursor ∉ V := by
        intro hin
        rw [hVn _ hin st rfl] at h
        simp at h
      have hcard : (insert st.m_cursor V).card = V.card + 1 := Finset.card_insert_of_not_mem hnot
      have hle : (insert st.m_cursor V).card ≤ s.length := by
        have hsub : insert st.m_cursor V ⊆ Finset.range s.length := by
          intro x hx
          rw [Finset.mem_insert] at hx
          rw [Finset.mem_range]
          rcases hx with rfl | hx
          · exact hc
          · exact hV x hx
        have := Finset.card_le_card hsub
        rwa [Finset.card_range] at this
      unfold lex_loop at h
      rw [if_pos hc] at h
      simp only at h
      cases hit : lex_iteration sg cfg s st with
      | none => rw [hit] at h; simp at h
      | some st1 =>
        rw [hit] at h
        simp only at h
        have hstep : ∀ j x, lex_loop sg cfg s j st1 = some x →
            lex_loop sg cfg s (j + 1) st = some x := by
          intro j x hx
          unfold lex_loop
          rw [if_pos hc]
          simp only [hit]
          exact hx
        have h1 := ih (insert st.m_cursor V) st1 r
          (by
            intro x hx
            rw [Finset.mem_insert] at hx
            rcases hx with rfl | hx
            · exact hc
            · exact hV x hx)
          (by
            intro x hx st' hst'
            rw [Finset.mem_insert] at hx
            cases hl : lex_loop sg cfg s k st' with
            | none => rfl
            | some y =>
              exfalso
              rcases hx with rfl | hx
              · obtain ⟨r2, hr2⟩ := lex_loop_code_det sg cfg s k st' st y hl hst'.symm
                rw [hmin k (Nat.lt_succ_self k)] at hr2
                simp at hr2
              · have := lex_loop_code_succ sg cfg s k st' y hl
                rw [hVn x hx st' hst'] at this
                simp at this)
          h
          (by
            intro j hj
            cases hl : lex_loop sg cfg s j st1 with
            | none => rfl
            | some y =>
              exfalso
              have := hstep j y hl
              rw [hmin (j + 1) (by omega)] at this
              simp at this)
        have e : s.length - V.card = (s.length - (insert st.m_cursor V).card) + 1 := by omega
        rw [e]
        exact hstep _ r h1
    · unfold lex_loop at h ⊢
      rw [if_neg hc] at h
      rw [if_neg hc]
      exact h

/-- The fuel of `lex` is enough: the scan loop of the code ends after some
number of iterations exactly when it ends within the `m_source.size()`
iterations that `lex` allows, with the same state. -/
theorem lex_loop_ends_iff {K : Type} (sg : Bool) (cfg : LexerConfig K) (s : List Nat)
    (st r : LoopState K) :
    (∃ fuel, lex_loop sg cfg s fuel st = some r) ↔ lex_loop sg cfg s s.length st = some r := by
  constructor
  · intro hex
    classical
    have hk := Nat.find_spec hex
    have hmin : ∀ j, j < Nat.find hex → lex_loop sg cfg s j st = none := by
      intro j hj
      cases hl : lex_loop sg cfg s j st with
      | none => rfl
      | some y =>
        exfalso
        have h2 := lex_loop_code_mono sg cfg s j (Nat.find hex) st y hl (Nat.le_of_lt hj)
        rw [hk] at h2
        simp only [Option.some.injEq] at h2
        rw [← h2] at hl
        exact Nat.find_min hex hj hl
    have := lex_loop_within sg cfg s (Nat.find hex) ∅ st r (by simp) (by simp) hk hmin
    simpa using this
  · intro h
    exact ⟨_, h⟩

/-- With patterns and source in range, an iteration of the code moves the
cursor as the abstract iteration does, and pushes a token with the same kind,
text and start, when the new cursor stays below `2 ^ 32`. -/
theorem lex_iteration_refines_cursor {K : Type} (sg : Bool) (cfg : LexerConfig K)
    (hcfg : ConfigInRange sg cfg) (s : List Nat) (hs : BytesInRange sg s)
    (st sta : LoopState K) (habs : lex_iteration_abs cfg s st = some sta)
    (hcur : sta.m_cursor < 2 ^ 32) :
    ∃ stf tf ta, lex_iteration sg cfg s st = some stf ∧ stf.m_cursor = sta.m_cursor ∧
      stf.tokens = st.tokens ++ [tf] ∧ sta.tokens = st.tokens ++ [ta] ∧
      tf.text = ta.text ∧ tf.kind = ta.kind ∧ tf.start = ta.start := by
  have hmono := (lex_iteration_cursor cfg s st sta st habs rfl).1
  unfold lex_iteration_abs at habs
  unfold lex_iteration
  simp only at habs ⊢
  rw [lex_branches_refines sg cfg hcfg _ (bytes_in_range_drop sg s _ hs),
    lex_branches_reposition cfg (s.drop st.m_cursor) st.m_cursor
      (if (s.drop st.m_cursor).head? = some 10 then st.line + 1 else st.line)
      (if (s.drop st.m_cursor).head? = some 10 then st.m_cursor else st.line_start_pos)
      (if (s.drop st.m_cursor).head? = some 10 then unsigned_add st.line 1 else st.line)
      (if (s.drop st.m_cursor).head? = some 10 then st.m_cursor else st.line_start_pos)]
  cases hb : lex_branches_abs cfg (s.drop st.m_cursor) st.m_cursor
      (if (s.drop st.m_cursor).head? = some 10 then st.line + 1 else st.line)
      (if (s.drop st.m_cursor).head? = some 10 then st.m_cursor else st.line_start_pos) with
  | pass => rw [hb] at habs; simp at habs
  | undefined => rw [hb] at habs; simp at habs
  | emit t c =>
    rw [hb] at habs
    simp only [Option.some.injEq] at habs
    have hc : sta.m_cursor = c := by rw [← habs]
    rw [hc] at hcur hmono
    simp only [Branch.reposition, Branch.unsigned]
    refine ⟨_, _, t, rfl, ?_, rfl, by rw [← habs], rfl, rfl, rfl⟩
    simp only
    rw [hc, to_unsigned_eq _ (by omega), unsigned_add_eq _ _ (by omega)]
    omega

end dark

namespace dark.detail

theorem wrap_mapping_length (n : Nat) : (wrap_mapping n).length = 256 := by
  simp [wrap_mapping]

theorem wrap_mapping_getElem? (n a : Nat) :
    (wrap_mapping n)[a]? = if a < 256 then some (if a < n then a + 1 else 0) else none := by
  unfold wrap_mapping
  by_cases h : a < 256
  · rw [if_pos h, List.getElem?_map, List.getElem?_range h]
    rfl
  · rw [if_neg h]
    exact List.getElem?_eq_none (by simp; omega)

theorem wrap_mapping_getD (n a : Nat) (hn : n ≤ 256) :
    (wrap_mapping n).getD a 0 = if a < n then a + 1 else 0 := by
  rw [List.getD_eq_getElem?_getD, wrap_mapping_getElem?]
  by_cases h : a < 256
  · rw [if_pos h]; rfl
  · rw [if_neg h, if_neg (by omega)]; rfl

theorem wrap_mapping_zero : List.replicate 256 0 = wrap_mapping 0 := by
  apply List.ext_getElem?
  intro i
  rw [wrap_mapping_getElem?, List.getElem?_replicate]
  simp

theorem wrap_mapping_set (n : Nat) :
    (wrap_mapping n).set n (n + 1) = wrap_mapping (n + 1) := by
  apply List.ext_getElem?
  intro i
  rw [List.getElem?_set, wrap_mapping_getElem?, wrap_mapping_getElem?, wrap_mapping_length]
  by_cases h : n = i
  · subst h
    simp
  · rw [if_neg h]
    by_cases h6 : i < 256
    · simp only [h6, if_true]
      by_cases hi : i < n
      · rw [if_pos hi, if_pos (by omega)]
      · rw [if_neg hi, if_neg (by omega)]
    · simp only [h6, if_false]

theorem wrap_mapping_set_last : (wrap_mapping 255).set 255 0 = wrap_mapping 255 := by
  apply List.ext_getElem?
  intro i
  rw [List.getElem?_set, wrap_mapping_getElem?, wrap_mapping_length]
  by_cases h : 255 = i
  · subst h
    simp
  · rw [if_neg h]

/-- The loops of `index_mapping` over the bytes `0, 1, .., n - 1`, for
`n ≤ 255`: byte `b` receives the symbol `b + 1`, and the counter is `n + 1`. -/
theorem wrap_mapping_fold (n : Nat) (hn : n ≤ 255) :
    (List.range n).foldl index_mapping_step_abs (List.replicate 256 0, 1) =
      (wrap_mapping n, n + 1) := by
  induction n with
  | zero => rw [List.range_zero, List.foldl_nil, wrap_mapping_zero]
  | succ n ih =>
    rw [List.range_succ, List.foldl_append, ih (by omega), List.foldl_cons, List.foldl_nil]
    unfold index_mapping_step_abs
    simp only
    rw [wrap_mapping_getD n n (by omega), if_neg (lt_irrefl n), if_pos rfl,
      Nat.mod_eq_of_lt (by omega), wrap_mapping_set n]

/-- The alphabet map of a pattern set whose bytes, in the order of the loops,
are `0, 1, .., 255` and then a byte seen before: byte 255 is the 256th distinct
byte and receives `static_cast<unsigned char>(256) = 0`. -/
theorem wrap_index_mapping {K : Type} (lexems : Lexems K) (c : Nat) (hc : c < 255)
    (hb : pattern_bytes lexems = List.range 255 ++ [255, c]) :
    index_mapping_abs lexems = wrap_mapping 255 := by
  unfold index_mapping_abs
  rw [index_mapping_loop_eq, hb, List.foldl_append, wrap_mapping_fold 255 (le_refl _),
    List.foldl_cons, List.foldl_cons, List.foldl_nil]
  have h1 : index_mapping_step_abs (wrap_mapping 255, 255 + 1) 255 = (wrap_mapping 255, 257) := by
    unfold index_mapping_step_abs
    simp only
    rw [wrap_mapping_getD 255 255 (by omega), if_neg (lt_irrefl _), if_pos rfl]
    show ((wrap_mapping 255).set 255 0, 257) = _
    rw [wrap_mapping_set_last]
  rw [h1]
  unfold index_mapping_step_abs
  simp only
  rw [wrap_mapping_getD 255 c (by omega), if_pos hc, if_neg (by omega)]

theorem wrap_symbol {K : Type} (lexems : Lexems K) (c : Nat) (hc : c < 255)
    (hb : pattern_bytes lexems = List.range 255 ++ [255, c]) (b : Nat) :
    get_char_index_abs lexems b = if b < 255 then b + 1 else 0 := by
  unfold get_char_index_abs
  rw [wrap_index_mapping lexems c hc hb, wrap_mapping_getD 255 b (by omega)]

theorem nz_count_wrap_mapping : nz_count (wrap_mapping 255) = 255 := by decide!

theorem wrap_extent {K : Type} (lexems : Lexems K) (c : Nat) (hc : c < 255)
    (hb : pattern_bytes lexems = List.range 255 ++ [255, c]) : max_extent_abs lexems = 256 := by
  rw [max_extent_eq, wrap_index_mapping lexems c hc hb, nz_count_wrap_mapping]

theorem wrap_stride {K : Type} (lexems : Lexems K) (c : Nat) (hc : c < 255)
    (hb : pattern_bytes lexems = List.range 255 ++ [255, c]) (hlen : max_len lexems = 2) :
    (make_nd_map_abs lexems).stride = [1, 256] := by
  show stride_loop (max_extent_abs lexems) (max_len lexems) = [1, 256]
  rw [wrap_extent lexems c hc hb, hlen]
  decide

theorem wrap_size {K : Type} (lexems : Lexems K) (c : Nat) (hc : c < 255)
    (hb : pattern_bytes lexems = List.range 255 ++ [255, c]) (hlen : max_len lexems = 2) :
    (make_nd_map_abs lexems).data.size = 65536 := by
  rw [make_nd_map_size, wrap_extent lexems c hc hb, hlen]
  rfl

/-- The flat coordinate of a literal in a pattern set over all 256 byte
values with literals of at most two bytes. -/
theorem wrap_lexem_index {K : Type} (lexems : Lexems K) (c : Nat) (hc : c < 255)
    (hb : pattern_bytes lexems = List.range 255 ++ [255, c]) (hlen : max_len lexems = 2)
    (el : List Nat) :
    lexem_index_abs lexems (make_nd_map_abs lexems).stride el =
      (el.foldl (fun st b => (st.1 + [1, 256].getD st.2 0 * (if b < 255 then b + 1 else 0),
        st.2 + 1)) (0, 0)).1 := by
  rw [wrap_stride lexems c hc hb hlen]
  unfold lexem_index_abs
  simp only [wrap_symbol lexems c hc hb]

/-- The cell of the table at flat coordinate `j` holds `m` exactly when the
literal of index `m` has coordinate `j` and no later literal has. -/
theorem make_nd_map_cell {K : Type} (lexems : Lexems K) (j m : Nat) :
    (make_nd_map_abs lexems).data.cell j = some m ↔
      ∃ el, lexems[m]? = some el ∧
        lexem_index_abs lexems (make_nd_map_abs lexems).stride el.1 = j ∧
        ∀ i' el', m < i' → lexems[i']? = some el' →
          lexem_index_abs lexems (make_nd_map_abs lexems).stride el'.1 ≠ j :=
  fold_set_cell_last
    (fun el : List Nat × K =>
      lexem_index_abs lexems (stride_loop (max_extent_abs lexems) (max_len lexems)) el.1)
    lexems (table_size (max_extent_abs lexems) (max_len lexems)) j m

/-- The last literal of the pattern set owns the cell at its coordinate. -/
theorem make_nd_map_cell_last {K : Type} (lexems : Lexems K) (k : Nat) (el : List Nat × K)
    (hk : lexems[k]? = some el) (hl : lexems.length = k + 1) :
    (make_nd_map_abs lexems).data.cell
      (lexem_index_abs lexems (make_nd_map_abs lexems).stride el.1) = some k := by
  rw [make_nd_map_cell]
  refine ⟨el, hk, rfl, ?_⟩
  intro i' el' hlt hi'
  rw [List.getElem?_eq_none (by omega)] at hi'
  exact absurd hi' (by simp)

end dark.detail

namespace dark

open detail

/-- C8: with the configuration of `example_2.cpp`, lexing its ten-byte input
returns exactly the six tokens `EscapeSequence` (the five-character literal) at
(0, 0), `Number` `1` at (0, 5), `SemiColon` at (0, 6), `Number` `31` at (0, 7),
`EndCharacter` `m` at (0, 9) and `Eof` at (0, 10), whether `char` is signed or
not. -/
theorem lex_escape_sequence_scenario (char_is_signed : Bool) :
    (Lexer.lex char_is_signed example_2.LexerConfig (Lexer.new example_2.source)).map Prod.fst =
      some
      [{ kind := example_2.TokenKind.EscapeSequence, text := [92, 120, 49, 98, 91],
         start := 0, line := 0, col := 0 },
       { kind := example_2.TokenKind.Number, text := [49], start := 5, line := 0, col := 5 },
       { kind := example_2.TokenKind.SemiColon, text := [59], start := 6, line := 0, col := 6 },
       { kind := example_2.TokenKind.Number, text := [51, 49], start := 7, line := 0, col := 7 },
       { kind := example_2.TokenKind.EndCharacter, text := [109], start := 9, line := 0,
         col := 9 },
       { kind := example_2.TokenKind.Eof, text := [], start := 10, line := 0, col := 10 }] := by
  cases char_is_signed
  · decide!
  · decide!

/-- C9: for every configuration, `lex` on the empty input returns exactly one
token, of kind `Eof`, with empty text, start 0, line 0 and col 0, whether
`char` is signed or not. -/
theorem lex_empty_input {K : Type} (char_is_signed : Bool) (cfg : LexerConfig K) :
    (Lexer.lex char_is_signed cfg (Lexer.new [])).map Prod.fst = some
      [{ kind := cfg.Eof, text := [], start := 0, line := 0, col := 0 }] := by
  simp [Lexer.lex, Lexer.new, lex_loop, unsigned_sub]

/-- C9 at a concrete configuration: the configuration of `example_2.cpp` on
the empty input, where `char` is signed. -/
theorem lex_empty_input_example :
    (Lexer.lex true example_2.LexerConfig (Lexer.new [])).map Prod.fst = some
      [{ kind := example_2.TokenKind.Eof, text := [], start := 0, line := 0, col := 0 }] :=
  lex_empty_input true example_2.LexerConfig

/-- C10 (the code at the failing input): `lex()` keeps `m_cursor` in the lexer
and restarts only `line` and `line_start_pos`.  On the source `a`, newline, `b`
the first call returns four tokens and leaves `m_cursor = 3`; a second call on
the same lexer returns the lone token `Eof` with start 3, line 0, col 3, which
is not the first sequence.  This holds whether `char` is signed or not. -/
theorem lex_second_call_differs (char_is_signed : Bool) :
    ∃ toks l toks2 l2,
      Lexer.lex char_is_signed DefaultLexerConfig (Lexer.new [97, 10, 98]) = some (toks, l) ∧
      Lexer.lex char_is_signed DefaultLexerConfig l = some (toks2, l2) ∧
      l.m_cursor = 3 ∧ toks.length = 4 ∧
      toks2 = [{ kind := DefaultTokenKind.Eof, text := [], start := 3, line := 0, col := 3 }] ∧
      toks2 ≠ toks := by
  refine ⟨[{ kind := DefaultTokenKind.Identifier, text := [97], start := 0, line := 0, col := 0 },
       { kind := DefaultTokenKind.Whitespace, text := [10], start := 1, line := 1, col := 0 },
       { kind := DefaultTokenKind.Identifier, text := [98], start := 2, line := 1, col := 1 },
       { kind := DefaultTokenKind.Eof, text := [], start := 3, line := 1, col := 2 }],
    { m_cursor := 3, m_source := [97, 10, 98] },
    [{ kind := DefaultTokenKind.Eof, text := [], start := 3, line := 0, col := 3 }],
    { m_cursor := 3, m_source := [97, 10, 98] }, ?_, ?_, rfl, rfl, rfl, ?_⟩
  · cases char_is_signed
    · decide!
    · decide!
  · cases char_is_signed
    · decide!
    · decide!
  · decide

/-- C12 (the code at the failing input): where `char` is signed, the byte
`0x80` converts to the index `2^64 - 128`, which is not one of the 256 entries
of `index_mapping`, so the lookup, `Switch::match` on the one-byte input `0x80`
and `Lexer::lex` on it are undefined; the same holds of every byte from `0x80`
and every pattern set, while the bytes below `0x80`, and every byte where
`char` is unsigned, convert to an index inside the array, at which the entry of
the byte is found, and are looked up there by the code of every pattern set
that is built. -/
theorem get_char_index_signed_out_of_range :
    char_to_size true 128 = 18446744073709551488 ∧
    (index_mapping true DefaultLexerConfig.whitespace).map List.length = some 256 ∧
    get_char_index true DefaultLexerConfig.whitespace 128 = none ∧
    Switch.match true DefaultLexerConfig.whitespace [128] = none ∧
    Lexer.lex true DefaultLexerConfig (Lexer.new [128]) = none ∧
    (∀ (lexems : Lexems DefaultTokenKind) (b : Nat), 128 ≤ b → b < 256 →
      256 ≤ char_to_size true b ∧ get_char_index true lexems b = none) ∧
    (∀ (b : Nat), b < 128 → char_to_size true b = b) ∧
    (∀ (b : Nat), b < 256 → char_to_size false b = b) ∧
    (∀ (lexems : Lexems DefaultTokenKind) (b : Nat), b < 128 →
      (index_mapping_abs lexems)[char_to_size true b]? = some (get_char_index_abs lexems b)) ∧
    (∀ (lexems : Lexems DefaultTokenKind) (b : Nat), b < 256 →
      (index_mapping_abs lexems)[char_to_size false b]? = some (get_char_index_abs lexems b)) ∧
    (∀ (lexems : Lexems DefaultTokenKind) (b : Nat), PatternsInRange true lexems → b < 128 →
      get_char_index true lexems b = some (get_char_index_abs lexems b)) ∧
    (∀ (lexems : Lexems DefaultTokenKind) (b : Nat), PatternsInRange false lexems → b < 256 →
      get_char_index false lexems b = some (get_char_index_abs lexems b)) := by
  have hbig : ∀ b, 128 ≤ b → b < 256 → 256 ≤ char_to_size true b := by
    intro b h1 h2
    unfold char_to_size
    rw [if_pos ⟨rfl, h1⟩]
    omega
  have habs : ∀ (lexems : Lexems DefaultTokenKind) (b : Nat), b < 256 →
      (index_mapping_abs lexems)[b]? = some (get_char_index_abs lexems b) := by
    intro lexems b hb
    have hl : b < (index_mapping_abs lexems).length := by
      rw [index_mapping_length]; exact hb
    unfold get_char_index_abs
    rw [List.getD_eq_getElem?_getD, List.getElem?_eq_getElem hl, Option.getD_some]
  refine ⟨by decide, by decide!, by decide!, by decide!, by decide!, ?_, ?_, ?_, ?_, ?_, ?_, ?_⟩
  · intro lexems b h1 h2
    exact ⟨hbig b h1 h2, get_char_index_undefined true lexems b (hbig b h1 h2)⟩
  · intro b h
    exact char_to_size_ascii true b h
  · intro b _
    exact char_to_size_unsigned b
  · intro lexems b h
    rw [char_to_size_ascii true b h]
    exact habs lexems b (by omega)
  · intro lexems b h
    rw [char_to_size_unsigned]
    exact habs lexems b h
  · intro lexems b hp h
    exact get_char_index_refines true lexems hp b
      (by rw [char_to_size_ascii true b h]; omega)
  · intro lexems b hp h
    exact get_char_index_refines false lexems hp b (by rw [char_to_size_unsigned]; exact h)

/-- C23: for every pattern set and every byte `c`, `Switch::match(char c)`
returns the same value as `Switch::match` on the one-byte string `c`, and is
undefined where that is undefined, whether `char` is signed or not.  A pattern
set has `max_len > 0`: the stride vector
`std::array<std::size_t, max_len> stride{1}` is initialised with its entry
`stride[0]`, which `match(char)` reads. -/
theorem match_char_eq_match {K : Type} (char_is_signed : Bool) (lexems : Lexems K) (c : Nat)
    (h : 0 < max_len lexems) :
    Switch.match_char char_is_signed lexems c = Switch.match char_is_signed lexems [c] := by
  have hm : min (max_len lexems) ([c] : List Nat).length = 1 := by
    simp only [List.length_singleton]; omega
  unfold Switch.match_char Switch.match
  cases make_nd_map char_is_signed lexems with
  | none => rfl
  | some map =>
    simp only [hm, List.take_succ_cons, List.take_zero, match_loop, Nat.zero_add]
    cases get_char_index char_is_signed lexems c with
    | none => rfl
    | some j =>
      cases map.stride[0]? with
      | none => rfl
      | some sv =>
        simp only
        split
        · simp only [Option.some.injEq]
          split
          · rfl
          · rename_i hn
            simp only [ne_eq, Decidable.not_not] at hn
            exact hn
        · rfl

/-- C23 witness: with the patterns `>>`, `>`, both overloads return index 1 on
`>` and `npos` on `x`, where `char` is signed. -/
theorem match_char_eq_match_witness :
    Switch.match_char true shift_lexems 62 = some (some 1) ∧
    Switch.match true shift_lexems [62] = some (some 1) ∧
    Switch.match_char true shift_lexems 120 = some npos ∧
    Switch.match true shift_lexems [120] = some npos ∧
    0 < max_len shift_lexems ∧
    Switch.match_char true shift_lexems 62 = Switch.match true shift_lexems [62] :=
  ⟨by decide!, by decide!, by decide!, by decide!, by decide,
    match_char_eq_match true shift_lexems 62 (by decide)⟩

/-- Where `char` is signed, `lex` is undefined under the default configuration
on an input that holds a byte from `0x80`: a pattern set reads `index_mapping`
outside its 256 entries at that byte. -/
theorem default_lex_high_byte :
    Lexer.lex true DefaultLexerConfig (Lexer.new [128]) = none ∧
    Lexer.lex true DefaultLexerConfig (Lexer.new [10, 128]) = none ∧
    Lexer.lex true DefaultLexerConfig (Lexer.new [49, 128]) = none ∧
    Lexer.lex true DefaultLexerConfig (Lexer.new [97, 195]) = none ∧
    Lexer.lex true DefaultLexerConfig (Lexer.new [61, 128]) = none ∧
    Lexer.lex true DefaultLexerConfig (Lexer.new [97, 128]) = none := by
  decide!

/-- C2 (the code at the failing input, and the claim where the code is
defined). Where `char` is signed, `lex` on the byte `0x80` is undefined:
`whitespace.match` reads `index_mapping` at `2^64 - 128`, outside its 256
entries. Under the default configuration, for every input `s` and either
signedness of `char`: when every byte of `s` converts to an index inside
`index_mapping` and `s` is shorter than `2 ^ 32` bytes, the range of the
`unsigned` cursor, `lex` returns, and the texts of the returned tokens,
concatenated in emission order with the final `Eof` token included, are exactly
`s`; and for every input, whatever `lex` returns has that property. -/
theorem lex_round_trip (char_is_signed : Bool) (s : List Nat) :
    Lexer.lex true DefaultLexerConfig (Lexer.new [128]) = none ∧
    (BytesInRange char_is_signed s → s.length < 2 ^ 32 →
      ∃ toks l, Lexer.lex char_is_signed DefaultLexerConfig (Lexer.new s) = some (toks, l) ∧
        (toks.map Token.text).flatten = s) ∧
    (∀ toks l, Lexer.lex char_is_signed DefaultLexerConfig (Lexer.new s) = some (toks, l) →
      (toks.map Token.text).flatten = s) := by
  have h := default_lex_transfer char_is_signed s
    (fun toks _ => (toks.map Token.text).flatten = s) (lex_round_trip_abs s)
  exact ⟨default_lex_high_byte.1, h.2, h.1⟩

/-- C2 witness: on the source `a`, newline, `b`, where `char` is signed, `lex`
returns and the texts of its tokens make up the source. -/
theorem lex_round_trip_witness :
    ∃ toks l, Lexer.lex true DefaultLexerConfig (Lexer.new [97, 10, 98]) = some (toks, l) ∧
      (toks.map Token.text).flatten = [97, 10, 98] :=
  (lex_round_trip true [97, 10, 98]).2.1 (by decide) (by norm_num)

/-- C4 (the code at the failing input, and the claim where the code is
defined). Where `char` is signed, `lex` on `a` followed by the byte `0x80` is
undefined: `operators.match` reads `index_mapping` at `2^64 - 128`, outside its
256 entries. Under the default configuration, for every input `s` and either
signedness of `char`: when every byte of `s` converts to an index inside
`index_mapping` and `s` is shorter than `2 ^ 32` bytes, `lex` returns tokens
`t_0 .. t_m` with `t_0.start = 0`, `t_(i+1).start = t_i.start + |t_i.text|`,
`t_m.start = |s|`, and the text of every token, also of one pushed by a pattern
set, is the slice of `s` of that length at `start`; and for every input,
whatever `lex` returns has these properties. -/
theorem lex_token_positions (char_is_signed : Bool) (s : List Nat) :
    Lexer.lex true DefaultLexerConfig (Lexer.new [97, 128]) = none ∧
    (BytesInRange char_is_signed s → s.length < 2 ^ 32 →
      ∃ toks l, Lexer.lex char_is_signed DefaultLexerConfig (Lexer.new s) = some (toks, l) ∧
        toks.head?.map Token.start = some 0 ∧
        (∀ i t u, toks[i]? = some t → toks[i + 1]? = some u →
          u.start = t.start + t.text.length) ∧
        toks.getLast?.map Token.start = some s.length ∧
        ∀ t ∈ toks, t.text = (s.drop t.start).take t.text.length) ∧
    (∀ toks l, Lexer.lex char_is_signed DefaultLexerConfig (Lexer.new s) = some (toks, l) →
      toks.head?.map Token.start = some 0 ∧
      (∀ i t u, toks[i]? = some t → toks[i + 1]? = some u →
        u.start = t.start + t.text.length) ∧
      toks.getLast?.map Token.start = some s.length ∧
      ∀ t ∈ toks, t.text = (s.drop t.start).take t.text.length) := by
  have h := default_lex_transfer char_is_signed s
    (fun toks _ => toks.head?.map Token.start = some 0 ∧
      (∀ i t u, toks[i]? = some t → toks[i + 1]? = some u →
        u.start = t.start + t.text.length) ∧
      toks.getLast?.map Token.start = some s.length ∧
      ∀ t ∈ toks, t.text = (s.drop t.start).take t.text.length) (lex_token_positions_abs s)
  exact ⟨default_lex_high_byte.2.2.2.2.2, h.2, h.1⟩

/-- C4 witness: on the source `>>=`, where `char` is signed, `lex` returns
tokens that tile the source. -/
theorem lex_token_positions_witness :
    ∃ toks l, Lexer.lex true DefaultLexerConfig (Lexer.new [62, 62, 61]) = some (toks, l) ∧
      toks.head?.map Token.start = some 0 ∧
      (∀ i t u, toks[i]? = some t → toks[i + 1]? = some u →
        u.start = t.start + t.text.length) ∧
      toks.getLast?.map Token.start = some [62, 62, 61].length ∧
      ∀ t ∈ toks, t.text = (([62, 62, 61] : List Nat).drop t.start).take t.text.length :=
  (lex_token_positions true [62, 62, 61]).2.1 (by decide) (by norm_num)

/-- C6 (the code at the failing input, and the claim where the code is
defined). Where `char` is signed, `lex` on a newline followed by the byte
`0x80` is undefined: in the second iteration `whitespace.match` reads
`index_mapping` at `2^64 - 128`, outside its 256 entries. Under the default
configuration, for every input `s` and either signedness of `char`: when every
byte of `s` converts to an index inside `index_mapping` and `s` is shorter than
`2 ^ 32` bytes, `lex` returns, and for every returned token `t`, the `Eof`
token included, `t.line` is the number of newline bytes of `s` at indices `≤
t.start`, and `t.col` is `t.start - p` for the largest index `p ≤ t.start` with
`s[p]` a newline, or `t.start` when no index `≤ t.start` holds a newline; for
every input, whatever `lex` returns has these properties; and `a`, newline, `b`
yields `a` at (0, 0), the newline token at (1, 0), `b` at (1, 1) and `Eof` at
(1, 2). -/
theorem lex_line_col (char_is_signed : Bool) (s : List Nat) :
    Lexer.lex true DefaultLexerConfig (Lexer.new [10, 128]) = none ∧
    (BytesInRange char_is_signed s → s.length < 2 ^ 32 →
      ∃ toks l, Lexer.lex char_is_signed DefaultLexerConfig (Lexer.new s) = some (toks, l) ∧
        ∀ t ∈ toks,
          t.line = (s.take (t.start + 1)).count 10 ∧
          ((∃ p, p ≤ t.start ∧ s[p]? = some 10 ∧
              (∀ q, p < q → q ≤ t.start → s[q]? ≠ some 10) ∧ t.col = t.start - p) ∨
            ((∀ q, q ≤ t.start → s[q]? ≠ some 10) ∧ t.col = t.start))) ∧
    (∀ toks l, Lexer.lex char_is_signed DefaultLexerConfig (Lexer.new s) = some (toks, l) →
      ∀ t ∈ toks,
        t.line = (s.take (t.start + 1)).count 10 ∧
        ((∃ p, p ≤ t.start ∧ s[p]? = some 10 ∧
            (∀ q, p < q → q ≤ t.start → s[q]? ≠ some 10) ∧ t.col = t.start - p) ∨
          ((∀ q, q ≤ t.start → s[q]? ≠ some 10) ∧ t.col = t.start))) ∧
    (Lexer.lex char_is_signed DefaultLexerConfig (Lexer.new [97, 10, 98])).map Prod.fst = some
      [{ kind := DefaultTokenKind.Identifier, text := [97], start := 0, line := 0, col := 0 },
       { kind := DefaultTokenKind.Whitespace, text := [10], start := 1, line := 1, col := 0 },
       { kind := DefaultTokenKind.Identifier, text := [98], start := 2, line := 1, col := 1 },
       { kind := DefaultTokenKind.Eof, text := [], start := 3, line := 1, col := 2 }] := by
  have h := default_lex_transfer char_is_signed s
    (fun toks _ => ∀ t ∈ toks,
      t.line = (s.take (t.start + 1)).count 10 ∧
      ((∃ p, p ≤ t.start ∧ s[p]? = some 10 ∧
          (∀ q, p < q → q ≤ t.start → s[q]? ≠ some 10) ∧ t.col = t.start - p) ∨
        ((∀ q, q ≤ t.start → s[q]? ≠ some 10) ∧ t.col = t.start))) (lex_line_col_abs s)
  refine ⟨default_lex_high_byte.2.1, h.2, h.1, ?_⟩
  cases char_is_signed
  · decide!
  · decide!

/-- C6 witness: on the source `a`, newline, `b`, where `char` is signed, `lex`
returns and every token carries the line and column of its start. -/
theorem lex_line_col_witness :
    ∃ toks l, Lexer.lex true DefaultLexerConfig (Lexer.new [97, 10, 98]) = some (toks, l) ∧
      ∀ t ∈ toks,
        t.line = (([97, 10, 98] : List Nat).take (t.start + 1)).count 10 ∧
        ((∃ p, p ≤ t.start ∧ ([97, 10, 98] : List Nat)[p]? = some 10 ∧
            (∀ q, p < q → q ≤ t.start → ([97, 10, 98] : List Nat)[q]? ≠ some 10) ∧
            t.col = t.start - p) ∨
          ((∀ q, q ≤ t.start → ([97, 10, 98] : List Nat)[q]? ≠ some 10) ∧ t.col = t.start)) :=
  (lex_line_col true [97, 10, 98]).2.1 (by decide) (by norm_num)

/-- C7 (the code at the failing input, and the claim where the code is
defined). Where `char` is signed, `lex` on the byte `0x80` is undefined:
`whitespace.match` reads `index_mapping` at `2^64 - 128`, outside its 256
entries. Under the default configuration, for every input `s` and either
signedness of `char`: when every byte of `s` converts to an index inside
`index_mapping` and `s` is shorter than `2 ^ 32` bytes, `lex` returns a token
sequence that is non-empty, whose last token has kind `Eof` and empty text, and
in which no token before the last has empty text or kind `Eof`; and for every
input, whatever `lex` returns has these properties. -/
theorem lex_single_terminal_token (char_is_signed : Bool) (s : List Nat) :
    Lexer.lex true DefaultLexerConfig (Lexer.new [128]) = none ∧
    (BytesInRange char_is_signed s → s.length < 2 ^ 32 →
      ∃ toks l, Lexer.lex char_is_signed DefaultLexerConfig (Lexer.new s) = some (toks, l) ∧
        toks ≠ [] ∧
        (∃ last, toks.getLast? = some last ∧ last.kind = DefaultTokenKind.Eof ∧
          last.text = []) ∧
        ∀ t ∈ toks.dropLast, t.text ≠ [] ∧ t.kind ≠ DefaultTokenKind.Eof) ∧
    (∀ toks l, Lexer.lex char_is_signed DefaultLexerConfig (Lexer.new s) = some (toks, l) →
      toks ≠ [] ∧
      (∃ last, toks.getLast? = some last ∧ last.kind = DefaultTokenKind.Eof ∧ last.text = []) ∧
      ∀ t ∈ toks.dropLast, t.text ≠ [] ∧ t.kind ≠ DefaultTokenKind.Eof) := by
  have h := default_lex_transfer char_is_signed s
    (fun toks _ => toks ≠ [] ∧
      (∃ last, toks.getLast? = some last ∧ last.kind = DefaultTokenKind.Eof ∧ last.text = []) ∧
      ∀ t ∈ toks.dropLast, t.text ≠ [] ∧ t.kind ≠ DefaultTokenKind.Eof)
    (lex_single_terminal_token_abs s)
  exact ⟨default_lex_high_byte.1, h.2, h.1⟩

/-- C7 witness: on the source `a;`, where `char` is signed, `lex` returns a
sequence with one terminal `Eof` token. -/
theorem lex_single_terminal_token_witness :
    ∃ toks l, Lexer.lex true DefaultLexerConfig (Lexer.new [97, 59]) = some (toks, l) ∧
      toks ≠ [] ∧
      (∃ last, toks.getLast? = some last ∧ last.kind = DefaultTokenKind.Eof ∧ last.text = []) ∧
      ∀ t ∈ toks.dropLast, t.text ≠ [] ∧ t.kind ≠ DefaultTokenKind.Eof :=
  (lex_single_terminal_token true [97, 59]).2.1 (by decide) (by norm_num)

/-- C17 (the code at the failing input, and the claim where the code is
defined). Where `char` is signed, `lex` on `1` followed by the byte `0x80` is
undefined: `operators.match` reads `index_mapping` at `2^64 - 128`, outside its
256 entries. Under the default configuration `is_digit` accepts exactly the
views that start with an ASCII digit (48..57); `parse_number v` is the longest
prefix of `v` made of ASCII digits and `.` (46); for every input `s` and either
signedness of `char`, when every byte of `s` converts to an index inside
`index_mapping` and `s` is shorter than `2 ^ 32` bytes, `lex` returns, and
every `Number` token that it returns starts with an ASCII digit, holds only
ASCII digits and `.`, is the number run of the source at its start offset, and
is followed in the source, if at all, by a byte that is neither an ASCII digit
nor `.`; for every input, whatever `lex` returns has these properties; and
`3.14+` yields `Number` `3.14`, `Plus`, `Eof`. -/
theorem lex_number_scan (char_is_signed : Bool) (s : List Nat) :
    Lexer.lex true DefaultLexerConfig (Lexer.new [49, 128]) = none ∧
    (∀ c r, DefaultLexerConfig.is_digit (c :: r) = true ↔ (48 ≤ c ∧ c ≤ 57)) ∧
    (∀ v : List Nat,
      DefaultLexerConfig.parse_number v <+: v ∧
      (∀ b ∈ DefaultLexerConfig.parse_number v, (48 ≤ b ∧ b ≤ 57) ∨ b = 46) ∧
      ∀ p, p <+: v → (∀ b ∈ p, (48 ≤ b ∧ b ≤ 57) ∨ b = 46) →
        p.length ≤ (DefaultLexerConfig.parse_number v).length) ∧
    (BytesInRange char_is_signed s → s.length < 2 ^ 32 →
      ∃ toks l, Lexer.lex char_is_signed DefaultLexerConfig (Lexer.new s) = some (toks, l) ∧
        ∀ t ∈ toks, t.kind = DefaultTokenKind.Number →
          (∃ d r, t.text = d :: r ∧ 48 ≤ d ∧ d ≤ 57) ∧
          (∀ b ∈ t.text, (48 ≤ b ∧ b ≤ 57) ∨ b = 46) ∧
          t.text = DefaultLexerConfig.parse_number (s.drop t.start) ∧
          ∀ b, s[t.start + t.text.length]? = some b → ¬ ((48 ≤ b ∧ b ≤ 57) ∨ b = 46)) ∧
    (∀ toks l, Lexer.lex char_is_signed DefaultLexerConfig (Lexer.new s) = some (toks, l) →
      ∀ t ∈ toks, t.kind = DefaultTokenKind.Number →
        (∃ d r, t.text = d :: r ∧ 48 ≤ d ∧ d ≤ 57) ∧
        (∀ b ∈ t.text, (48 ≤ b ∧ b ≤ 57) ∨ b = 46) ∧
        t.text = DefaultLexerConfig.parse_number (s.drop t.start) ∧
        ∀ b, s[t.start + t.text.length]? = some b → ¬ ((48 ≤ b ∧ b ≤ 57) ∨ b = 46)) ∧
    (Lexer.lex char_is_signed DefaultLexerConfig (Lexer.new [51, 46, 49, 52, 43])).map Prod.fst =
      some
      [{ kind := DefaultTokenKind.Number, text := [51, 46, 49, 52], start := 0, line := 0,
         col := 0 },
       { kind := DefaultTokenKind.Plus, text := [43], start := 4, line := 0, col := 4 },
       { kind := DefaultTokenKind.Eof, text := [], start := 5, line := 0, col := 5 }] := by
  obtain ⟨h1, h2, h3⟩ := lex_number_scan_abs s
  have h := default_lex_transfer char_is_signed s
    (fun toks _ => ∀ t ∈ toks, t.kind = DefaultTokenKind.Number →
      (∃ d r, t.text = d :: r ∧ 48 ≤ d ∧ d ≤ 57) ∧
      (∀ b ∈ t.text, (48 ≤ b ∧ b ≤ 57) ∨ b = 46) ∧
      t.text = DefaultLexerConfig.parse_number (s.drop t.start) ∧
      ∀ b, s[t.start + t.text.length]? = some b → ¬ ((48 ≤ b ∧ b ≤ 57) ∨ b = 46)) h3
  refine ⟨default_lex_high_byte.2.2.1, h1, h2, h.2, h.1, ?_⟩
  cases char_is_signed
  · decide!
  · decide!

/-- C17 witness: on the source `3.14+`, where `char` is signed, `lex` returns
and its `Number` tokens are number runs of the source. -/
theorem lex_number_scan_witness :
    ∃ toks l, Lexer.lex true DefaultLexerConfig (Lexer.new [51, 46, 49, 52, 43]) =
        some (toks, l) ∧
      ∀ t ∈ toks, t.kind = DefaultTokenKind.Number →
        (∃ d r, t.text = d :: r ∧ 48 ≤ d ∧ d ≤ 57) ∧
        (∀ b ∈ t.text, (48 ≤ b ∧ b ≤ 57) ∨ b = 46) ∧
        t.text = DefaultLexerConfig.parse_number (([51, 46, 49, 52, 43] : List Nat).drop t.start) ∧
        ∀ b, ([51, 46, 49, 52, 43] : List Nat)[t.start + t.text.length]? = some b →
          ¬ ((48 ≤ b ∧ b ≤ 57) ∨ b = 46) :=
  (lex_number_scan true [51, 46, 49, 52, 43]).2.2.2.1 (by decide) (by norm_num)

/-- C18 (the code at the failing input, and the claim where the code is
defined). Where `char` is signed, `lex` on `a` followed by the byte `0xC3` is
undefined: `operators.match` reads `index_mapping` at `2^64 - 61`, outside its
256 entries. Under the default configuration `is_valid_identifier` accepts
exactly the views whose first byte is `_` (95), `$` (36), an ASCII letter, or a
raw byte value in 0..9, and rejects the ASCII digits 48..57; for every input
`s` and either signedness of `char`, when every byte of `s` converts to an
index inside `index_mapping` and `s` is shorter than `2 ^ 32` bytes, `lex`
returns, and every `Identifier` token that it returns starts at an
identifier-start byte, holds only accepted bytes, is the longest such run of
the source at its start, and is followed in the source, if at all, by a byte
that is not accepted; for every input, whatever `lex` returns has these
properties; and `a1` yields `Identifier` `a`, `Number` `1`, `Eof`. -/
theorem lex_identifier_scan (char_is_signed : Bool) (s : List Nat) :
    Lexer.lex true DefaultLexerConfig (Lexer.new [97, 195]) = none ∧
    (∀ c r, DefaultLexerConfig.is_valid_identifier (c :: r) = true ↔
      (c = 95 ∨ c = 36 ∨ (97 ≤ c ∧ c ≤ 122) ∨ (65 ≤ c ∧ c ≤ 90) ∨ c ≤ 9)) ∧
    (∀ c r, 48 ≤ c → c ≤ 57 → DefaultLexerConfig.is_valid_identifier (c :: r) = false) ∧
    (BytesInRange char_is_signed s → s.length < 2 ^ 32 →
      ∃ toks l, Lexer.lex char_is_signed DefaultLexerConfig (Lexer.new s) = some (toks, l) ∧
        ∀ t ∈ toks, t.kind = DefaultTokenKind.Identifier →
          (∃ f r, t.text = f :: r ∧
            (f = 95 ∨ f = 36 ∨ (97 ≤ f ∧ f ≤ 122) ∨ (65 ≤ f ∧ f ≤ 90))) ∧
          (∀ b ∈ t.text, b = 95 ∨ b = 36 ∨ (97 ≤ b ∧ b ≤ 122) ∨ (65 ≤ b ∧ b ≤ 90) ∨ b ≤ 9) ∧
          (∀ p, p <+: s.drop t.start →
            (∀ b ∈ p, b = 95 ∨ b = 36 ∨ (97 ≤ b ∧ b ≤ 122) ∨ (65 ≤ b ∧ b ≤ 90) ∨ b ≤ 9) →
            p.length ≤ t.text.length) ∧
          t.text <+: s.drop t.start ∧
          ∀ b, s[t.start + t.text.length]? = some b →
            ¬ (b = 95 ∨ b = 36 ∨ (97 ≤ b ∧ b ≤ 122) ∨ (65 ≤ b ∧ b ≤ 90) ∨ b ≤ 9)) ∧
    (∀ toks l, Lexer.lex char_is_signed DefaultLexerConfig (Lexer.new s) = some (toks, l) →
      ∀ t ∈ toks, t.kind = DefaultTokenKind.Identifier →
        (∃ f r, t.text = f :: r ∧
          (f = 95 ∨ f = 36 ∨ (97 ≤ f ∧ f ≤ 122) ∨ (65 ≤ f ∧ f ≤ 90))) ∧
        (∀ b ∈ t.text, b = 95 ∨ b = 36 ∨ (97 ≤ b ∧ b ≤ 122) ∨ (65 ≤ b ∧ b ≤ 90) ∨ b ≤ 9) ∧
        (∀ p, p <+: s.drop t.start →
          (∀ b ∈ p, b = 95 ∨ b = 36 ∨ (97 ≤ b ∧ b ≤ 122) ∨ (65 ≤ b ∧ b ≤ 90) ∨ b ≤ 9) →
          p.length ≤ t.text.length) ∧
        t.text <+: s.drop t.start ∧
        ∀ b, s[t.start + t.text.length]? = some b →
          ¬ (b = 95 ∨ b = 36 ∨ (97 ≤ b ∧ b ≤ 122) ∨ (65 ≤ b ∧ b ≤ 90) ∨ b ≤ 9)) ∧
    (Lexer.lex char_is_signed DefaultLexerConfig (Lexer.new [97, 49])).map Prod.fst = some
      [{ kind := DefaultTokenKind.Identifier, text := [97], start := 0, line := 0, col := 0 },
       { kind := DefaultTokenKind.Number, text := [49], start := 1, line := 0, col := 1 },
       { kind := DefaultTokenKind.Eof, text := [], start := 2, line := 0, col := 2 }] := by
  obtain ⟨h1, h2, h3, _⟩ := lex_identifier_scan_abs s
  have h := default_lex_transfer char_is_signed s
    (fun toks _ => ∀ t ∈ toks, t.kind = DefaultTokenKind.Identifier →
      (∃ f r, t.text = f :: r ∧
        (f = 95 ∨ f = 36 ∨ (97 ≤ f ∧ f ≤ 122) ∨ (65 ≤ f ∧ f ≤ 90))) ∧
      (∀ b ∈ t.text, b = 95 ∨ b = 36 ∨ (97 ≤ b ∧ b ≤ 122) ∨ (65 ≤ b ∧ b ≤ 90) ∨ b ≤ 9) ∧
      (∀ p, p <+: s.drop t.start →
        (∀ b ∈ p, b = 95 ∨ b = 36 ∨ (97 ≤ b ∧ b ≤ 122) ∨ (65 ≤ b ∧ b ≤ 90) ∨ b ≤ 9) →
        p.length ≤ t.text.length) ∧
      t.text <+: s.drop t.start ∧
      ∀ b, s[t.start + t.text.length]? = some b →
        ¬ (b = 95 ∨ b = 36 ∨ (97 ≤ b ∧ b ≤ 122) ∨ (65 ≤ b ∧ b ≤ 90) ∨ b ≤ 9)) h3
  refine ⟨default_lex_high_byte.2.2.2.1, h1, h2, h.2, h.1, ?_⟩
  cases char_is_signed
  · decide!
  · decide!

/-- C18 witness: on the source `ab1`, where `char` is signed, `lex` returns and
its `Identifier` tokens are maximal runs of accepted bytes. -/
theorem lex_identifier_scan_witness :
    ∃ toks l, Lexer.lex true DefaultLexerConfig (Lexer.new [97, 98, 49]) = some (toks, l) ∧
      ∀ t ∈ toks, t.kind = DefaultTokenKind.Identifier →
        (∃ f r, t.text = f :: r ∧
          (f = 95 ∨ f = 36 ∨ (97 ≤ f ∧ f ≤ 122) ∨ (65 ≤ f ∧ f ≤ 90))) ∧
        (∀ b ∈ t.text, b = 95 ∨ b = 36 ∨ (97 ≤ b ∧ b ≤ 122) ∨ (65 ≤ b ∧ b ≤ 90) ∨ b ≤ 9) ∧
        (∀ p, p <+: ([97, 98, 49] : List Nat).drop t.start →
          (∀ b ∈ p, b = 95 ∨ b = 36 ∨ (97 ≤ b ∧ b ≤ 122) ∨ (65 ≤ b ∧ b ≤ 90) ∨ b ≤ 9) →
          p.length ≤ t.text.length) ∧
        t.text <+: ([97, 98, 49] : List Nat).drop t.start ∧
        ∀ b, ([97, 98, 49] : List Nat)[t.start + t.text.length]? = some b →
          ¬ (b = 95 ∨ b = 36 ∨ (97 ≤ b ∧ b ≤ 122) ∨ (65 ≤ b ∧ b ≤ 90) ∨ b ≤ 9) :=
  (lex_identifier_scan true [97, 98, 49]).2.2.2.1 (by decide) (by norm_num)

/-- C19 (the code at the failing input, and the claim where the code is
defined). Where `char` is signed, `lex` on the byte `0x80`, a byte outside
every category, is undefined: `whitespace.match` reads `index_mapping` at `2^64
- 128`, outside its 256 entries. Under the default configuration, for every
input `s` and either signedness of `char`: when every byte of `s` converts to
an index inside `index_mapping` and `s` is shorter than `2 ^ 32` bytes, `lex`
returns, every `Unknown` token that it returns has a text of exactly one byte,
and a returned token is `Unknown` exactly when the byte of the source at its
start is none of: a whitespace byte (space, line feed, carriage return); a
punctuation byte `, ; . ( ) [ ] { } =`; an operator byte `+ - / * > < ~ & | ^ %
! ?`; `_`, `$` or an ASCII letter; an ASCII digit; for every input, whatever
`lex` returns has these properties; and `:` and the tab byte each yield a
one-byte `Unknown` token. -/
theorem lex_unknown_fallback (char_is_signed : Bool) (s : List Nat) :
    Lexer.lex true DefaultLexerConfig (Lexer.new [128]) = none ∧
    (BytesInRange char_is_signed s → s.length < 2 ^ 32 →
      ∃ toks l, Lexer.lex char_is_signed DefaultLexerConfig (Lexer.new s) = some (toks, l) ∧
        ∀ t ∈ toks,
          (t.kind = DefaultTokenKind.Unknown → t.text.length = 1) ∧
          (t.kind = DefaultTokenKind.Unknown ↔
            ∃ b, s[t.start]? = some b ∧ b ∉ [32, 10, 13] ∧
              b ∉ [44, 59, 46, 40, 41, 91, 93, 123, 125, 61] ∧
              b ∉ [43, 45, 47, 42, 62, 60, 126, 38, 124, 94, 37, 33, 63] ∧
              ¬ (b = 95 ∨ b = 36 ∨ (97 ≤ b ∧ b ≤ 122) ∨ (65 ≤ b ∧ b ≤ 90)) ∧
              ¬ (48 ≤ b ∧ b ≤ 57))) ∧
    (∀ toks l, Lexer.lex char_is_signed DefaultLexerConfig (Lexer.new s) = some (toks, l) →
      ∀ t ∈ toks,
        (t.kind = DefaultTokenKind.Unknown → t.text.length = 1) ∧
        (t.kind = DefaultTokenKind.Unknown ↔
          ∃ b, s[t.start]? = some b ∧ b ∉ [32, 10, 13] ∧
            b ∉ [44, 59, 46, 40, 41, 91, 93, 123, 125, 61] ∧
            b ∉ [43, 45, 47, 42, 62, 60, 126, 38, 124, 94, 37, 33, 63] ∧
            ¬ (b = 95 ∨ b = 36 ∨ (97 ≤ b ∧ b ≤ 122) ∨ (65 ≤ b ∧ b ≤ 90)) ∧
            ¬ (48 ≤ b ∧ b ≤ 57))) ∧
    (Lexer.lex char_is_signed DefaultLexerConfig (Lexer.new [58])).map Prod.fst = some
      [{ kind := DefaultTokenKind.Unknown, text := [58], start := 0, line := 0, col := 0 },
       { kind := DefaultTokenKind.Eof, text := [], start := 1, line := 0, col := 1 }] ∧
    (Lexer.lex char_is_signed DefaultLexerConfig (Lexer.new [9])).map Prod.fst = some
      [{ kind := DefaultTokenKind.Unknown, text := [9], start := 0, line := 0, col := 0 },
       { kind := DefaultTokenKind.Eof, text := [], start := 1, line := 0, col := 1 }] := by
  have h := default_lex_transfer char_is_signed s
    (fun toks _ => ∀ t ∈ toks,
      (t.kind = DefaultTokenKind.Unknown → t.text.length = 1) ∧
      (t.kind = DefaultTokenKind.Unknown ↔
        ∃ b, s[t.start]? = some b ∧ b ∉ [32, 10, 13] ∧
          b ∉ [44, 59, 46, 40, 41, 91, 93, 123, 125, 61] ∧
          b ∉ [43, 45, 47, 42, 62, 60, 126, 38, 124, 94, 37, 33, 63] ∧
          ¬ (b = 95 ∨ b = 36 ∨ (97 ≤ b ∧ b ≤ 122) ∨ (65 ≤ b ∧ b ≤ 90)) ∧
          ¬ (48 ≤ b ∧ b ≤ 57))) (lex_unknown_fallback_abs s)
  refine ⟨default_lex_high_byte.1, h.2, h.1, ?_, ?_⟩
  · cases char_is_signed
    · decide!
    · decide!
  · cases char_is_signed
    · decide!
    · decide!

/-- C19 witness: on the source `a:`, where `char` is signed, `lex` returns and
its `Unknown` tokens are the one-byte tokens at the bytes outside every
category. -/
theorem lex_unknown_fallback_witness :
    ∃ toks l, Lexer.lex true DefaultLexerConfig (Lexer.new [97, 58]) = some (toks, l) ∧
      ∀ t ∈ toks,
        (t.kind = DefaultTokenKind.Unknown → t.text.length = 1) ∧
        (t.kind = DefaultTokenKind.Unknown ↔
          ∃ b, ([97, 58] : List Nat)[t.start]? = some b ∧ b ∉ [32, 10, 13] ∧
            b ∉ [44, 59, 46, 40, 41, 91, 93, 123, 125, 61] ∧
            b ∉ [43, 45, 47, 42, 62, 60, 126, 38, 124, 94, 37, 33, 63] ∧
            ¬ (b = 95 ∨ b = 36 ∨ (97 ≤ b ∧ b ≤ 122) ∨ (65 ≤ b ∧ b ≤ 90)) ∧
            ¬ (48 ≤ b ∧ b ≤ 57)) :=
  (lex_unknown_fallback true [97, 58]).2.1 (by decide) (by norm_num)

/-- C22 (the code at the failing input, and the claim where the code is
defined). Where `char` is signed, `lex` on `=` followed by the byte `0x80` is
undefined: in the second iteration `whitespace.match` reads `index_mapping` at
`2^64 - 128`, outside its 256 entries. Under the default configuration, for
every input `s` and either signedness of `char`: when every byte of `s`
converts to an index inside `index_mapping` and `s` is shorter than `2 ^ 32`
bytes, `lex` returns and no token that it returns has the kind `EqualEqual`;
for every input, whatever `lex` returns holds no such token; the operator set
holds `==` and the punctuation set, tried first, holds `=`; `==` yields two
`Equal` tokens with text `=` at the starts 0 and 1, then `Eof`; and `!=` yields
the single token `NotEqual`, then `Eof`. -/
theorem lex_equal_equal_shadowed (char_is_signed : Bool) (s : List Nat) :
    Lexer.lex true DefaultLexerConfig (Lexer.new [61, 128]) = none ∧
    (BytesInRange char_is_signed s → s.length < 2 ^ 32 →
      ∃ toks l, Lexer.lex char_is_signed DefaultLexerConfig (Lexer.new s) = some (toks, l) ∧
        ∀ t ∈ toks, t.kind ≠ DefaultTokenKind.EqualEqual) ∧
    (∀ toks l, Lexer.lex char_is_signed DefaultLexerConfig (Lexer.new s) = some (toks, l) →
      ∀ t ∈ toks, t.kind ≠ DefaultTokenKind.EqualEqual) ∧
    (([61, 61], DefaultTokenKind.EqualEqual) ∈ DefaultLexerConfig.operators ∧
      ([61], DefaultTokenKind.Equal) ∈ DefaultLexerConfig.punctuations) ∧
    (Lexer.lex char_is_signed DefaultLexerConfig (Lexer.new [61, 61])).map Prod.fst = some
      [{ kind := DefaultTokenKind.Equal, text := [61], start := 0, line := 0, col := 0 },
       { kind := DefaultTokenKind.Equal, text := [61], start := 1, line := 0, col := 1 },
       { kind := DefaultTokenKind.Eof, text := [], start := 2, line := 0, col := 2 }] ∧
    (Lexer.lex char_is_signed DefaultLexerConfig (Lexer.new [33, 61])).map Prod.fst = some
      [{ kind := DefaultTokenKind.NotEqual, text := [33, 61], start := 0, line := 0, col := 0 },
       { kind := DefaultTokenKind.Eof, text := [], start := 2, line := 0, col := 2 }] := by
  obtain ⟨h1, h2, _, _⟩ := lex_equal_equal_shadowed_abs s
  have h := default_lex_transfer char_is_signed s
    (fun toks _ => ∀ t ∈ toks, t.kind ≠ DefaultTokenKind.EqualEqual) h1
  refine ⟨default_lex_high_byte.2.2.2.2.1, h.2, h.1, h2, ?_, ?_⟩
  · cases char_is_signed
    · decide!
    · decide!
  · cases char_is_signed
    · decide!
    · decide!

/-- C22 witness: on the source `a==b`, where `char` is signed, `lex` returns
and none of its tokens is `EqualEqual`. -/
theorem lex_equal_equal_shadowed_witness :
    ∃ toks l, Lexer.lex true DefaultLexerConfig (Lexer.new [97, 61, 61, 98]) = some (toks, l) ∧
      ∀ t ∈ toks, t.kind ≠ DefaultTokenKind.EqualEqual :=
  (lex_equal_equal_shadowed true [97, 61, 61, 98]).2.1 (by decide) (by norm_num)

/-- On the source of `2 ^ 32` bytes `a`, all in range, the `unsigned` cursor
stays below `2 ^ 32`, so the loop condition `m_cursor < m_source.size()` holds
at every iteration: the loop does not end within any number of iterations and
`lex` does not return, whether `char` is signed or not. -/
theorem default_lex_long_source :
    (List.replicate 4294967296 97).length = 2 ^ 32 ∧
    BytesInRange true (List.replicate 4294967296 97) ∧
    (∀ sg fuel, lex_loop sg DefaultLexerConfig (List.replicate 4294967296 97) fuel
      { m_cursor := 0, line := 0, line_start_pos := 0, tokens := [] } = none) ∧
    (∀ sg, Lexer.lex sg DefaultLexerConfig (Lexer.new (List.replicate 4294967296 97)) = none) := by
  have hl : (List.replicate 4294967296 97).length = 2 ^ 32 := by
    rw [List.length_replicate]; norm_num
  have hle : 2 ^ 32 ≤ (List.replicate 4294967296 97).length := Nat.le_of_eq hl.symm
  refine ⟨hl, ?_, fun sg => (lex_long_source sg DefaultLexerConfig _ hle).1,
    fun sg => (lex_long_source sg DefaultLexerConfig _ hle).2⟩
  apply bytes_in_range_ascii
  intro b hb
  rw [List.eq_of_mem_replicate hb]
  norm_num

theorem default_iteration_high_byte :
    (lex_iteration true DefaultLexerConfig [128]
      { m_cursor := 0, line := 0, line_start_pos := 0, tokens := [] }).map
        LoopState.m_cursor = none := by
  decide!

/-- C3 (the code at the failing inputs, and the claim where the code is
defined).  On the source of `2 ^ 32` bytes `a` the `unsigned` cursor stays
below `2 ^ 32`, so the loop condition `m_cursor < m_source.size()`, a
comparison with the 64-bit size, holds at every iteration: the loop does not
end within any number of iterations and `lex` does not return, whether `char`
is signed or not.  Where `char` is signed, the first iteration on the byte
`0x80` is undefined: `whitespace.match` reads `index_mapping` at `2^64 - 128`,
outside its 256 entries.  Under the default configuration, for either
signedness of `char` and every input of length `n` below `2 ^ 32` whose bytes
convert to indices inside `index_mapping`: every iteration of the scan loop
moves the cursor forward by at least one byte and not past `n`; `lex` returns;
it returns at most `n + 1` tokens; and the text lengths of the tokens before
the final `Eof` token sum to `n`. -/
theorem lex_terminates_with_progress (char_is_signed : Bool) (s : List Nat) :
    ((List.replicate 4294967296 97).length = 2 ^ 32 ∧
      BytesInRange true (List.replicate 4294967296 97) ∧
      (∀ sg fuel, lex_loop sg DefaultLexerConfig (List.replicate 4294967296 97) fuel
        { m_cursor := 0, line := 0, line_start_pos := 0, tokens := [] } = none) ∧
      (∀ sg, Lexer.lex sg DefaultLexerConfig
        (Lexer.new (List.replicate 4294967296 97)) = none)) ∧
    ((lex_iteration true DefaultLexerConfig [128]
        { m_cursor := 0, line := 0, line_start_pos := 0, tokens := [] }).map
          LoopState.m_cursor = none ∧
      Lexer.lex true DefaultLexerConfig (Lexer.new [128]) = none) ∧
    (BytesInRange char_is_signed s → s.length < 2 ^ 32 →
      (∀ st : LoopState DefaultTokenKind, st.m_cursor < s.length →
        ∃ st', lex_iteration char_is_signed DefaultLexerConfig s st = some st' ∧
          st.m_cursor + 1 ≤ st'.m_cursor ∧ st'.m_cursor ≤ s.length) ∧
      ∃ toks l, Lexer.lex char_is_signed DefaultLexerConfig (Lexer.new s) = some (toks, l) ∧
        toks.length ≤ s.length + 1 ∧
        (toks.dropLast.map (fun t => t.text.length)).sum = s.length ∧
        (toks.getLast?.map Token.kind = some DefaultTokenKind.Eof)) := by
  refine ⟨default_lex_long_source, ⟨default_iteration_high_byte, default_lex_high_byte.1⟩, ?_⟩
  intro hb hlen
  obtain ⟨h1, h2⟩ := lex_terminates_with_progress_abs s
  constructor
  · intro st hc
    obtain ⟨sta, habs, hge, hle⟩ := h1 st hc
    obtain ⟨stf, _, _, hf, hfc, _⟩ := lex_iteration_refines_cursor char_is_signed
      DefaultLexerConfig (default_in_range char_is_signed) s hb st sta habs (by omega)
    exact ⟨stf, hf, by rw [hfc]; exact hge, by rw [hfc]; exact hle⟩
  · exact (default_lex_transfer char_is_signed s
      (fun toks _ => toks.length ≤ s.length + 1 ∧
        (toks.dropLast.map (fun t => t.text.length)).sum = s.length ∧
        (toks.getLast?.map Token.kind = some DefaultTokenKind.Eof)) h2).2 hb hlen

/-- C3 witness: on the five bytes `ab cd`, where `char` is signed, every
iteration moves the cursor forward and `lex` returns four tokens whose texts
before `Eof` hold five bytes. -/
theorem lex_terminates_with_progress_witness :
    (Lexer.lex true DefaultLexerConfig (Lexer.new [97, 98, 32, 99, 100])).map
      (fun r => r.1.map (fun t => t.text.length)) = some [2, 1, 2, 0] ∧
    ((∀ st : LoopState DefaultTokenKind, st.m_cursor < ([97, 98, 32, 99, 100] : List Nat).length →
      ∃ st', lex_iteration true DefaultLexerConfig [97, 98, 32, 99, 100] st = some st' ∧
        st.m_cursor + 1 ≤ st'.m_cursor ∧
        st'.m_cursor ≤ ([97, 98, 32, 99, 100] : List Nat).length) ∧
    ∃ toks l, Lexer.lex true DefaultLexerConfig (Lexer.new [97, 98, 32, 99, 100]) =
        some (toks, l) ∧
      toks.length ≤ [97, 98, 32, 99, 100].length + 1 ∧
      (toks.dropLast.map (fun t => t.text.length)).sum = [97, 98, 32, 99, 100].length ∧
      (toks.getLast?.map Token.kind = some DefaultTokenKind.Eof)) :=
  ⟨by decide!,
    (lex_terminates_with_progress true [97, 98, 32, 99, 100]).2.2 (by decide) (by norm_num)⟩

theorem wrap_lexems_bytes : pattern_bytes wrap_lexems = List.range 255 ++ [255, 254] := by
  decide!

theorem wrap_lexems_max_len : max_len wrap_lexems = 2 := by decide!

theorem wrap_lexems_length : wrap_lexems.length = 129 := by decide!

theorem wrap_lexems_last : wrap_lexems[128]? = some ([254], 128) := by decide!

theorem wrap_lexems_in_range : PatternsInRange false wrap_lexems := by decide!

theorem wrap_lexems_not_in_range : ¬ PatternsInRange true wrap_lexems := by decide!

theorem wrap_lexems_card : (pattern_bytes wrap_lexems).toFinset.card = 256 := by
  have h : (pattern_bytes wrap_lexems).toFinset = Finset.range 256 := by
    rw [wrap_lexems_bytes]
    ext a
    simp only [List.toFinset_append, Finset.mem_union, List.mem_toFinset, List.mem_range,
      List.mem_cons, List.mem_singleton, List.not_mem_nil, or_false, Finset.mem_range]
    omega
  rw [h, Finset.card_range]

theorem wrap_lexems_cell : (make_nd_map_abs wrap_lexems).data.get 255 = some 128 := by
  have h := make_nd_map_cell_last wrap_lexems 128 ([254], 128) wrap_lexems_last
    wrap_lexems_length
  rw [wrap_lexem_index wrap_lexems 254 (by omega) wrap_lexems_bytes wrap_lexems_max_len] at h
  unfold FlatArray.get
  rw [wrap_size wrap_lexems 254 (by omega) wrap_lexems_bytes wrap_lexems_max_len,
    if_pos (by omega)]
  exact h

theorem wrap_lexems_match_abs : Switch.match_abs wrap_lexems [254, 255] = some 128 := by
  have htake : List.take (min (max_len wrap_lexems) [254, 255].length) [254, 255] = [254, 255] := by
    rw [wrap_lexems_max_len]; rfl
  have e1 : 0 + [1, 256].getD 0 0 * (if 254 < 255 then 254 + 1 else 0) = 255 := by decide
  have e2 : 255 + [1, 256].getD (0 + 1) 0 * (if 255 < 255 then 255 + 1 else 0) = 255 := by decide
  unfold Switch.match_abs
  show match_loop_abs wrap_lexems (make_nd_map_abs wrap_lexems)
    (List.take (min (max_len wrap_lexems) [254, 255].length) [254, 255]) 0 0 npos = some 128
  rw [htake, match_loop_abs, match_loop_abs, match_loop_abs]
  rw [wrap_stride wrap_lexems 254 (by omega) wrap_lexems_bytes wrap_lexems_max_len,
    wrap_symbol wrap_lexems 254 (by omega) wrap_lexems_bytes,
    wrap_symbol wrap_lexems 254 (by omega) wrap_lexems_bytes, e1, e2, wrap_lexems_cell]
  rfl

theorem wrap_lexems_coordinates :
    lexem_index_abs wrap_lexems (make_nd_map_abs wrap_lexems).stride [254, 255] = 255 ∧
    lexem_index_abs wrap_lexems (make_nd_map_abs wrap_lexems).stride [254] = 255 := by
  rw [wrap_lexem_index wrap_lexems 254 (by omega) wrap_lexems_bytes wrap_lexems_max_len,
    wrap_lexem_index wrap_lexems 254 (by omega) wrap_lexems_bytes wrap_lexems_max_len]
  exact ⟨by decide, by decide⟩

/-- The pattern set over all 256 byte values where `char` is unsigned: byte
255 has symbol 0, the arity is 256, `match` on `[254, 255]` returns index 128,
the literals `[254, 255]` and `[254]` share the coordinate 255, and the cell
there holds 128. -/
theorem wrap_lexems_unsigned :
    get_char_index false wrap_lexems 255 = some 0 ∧
    Switch.match false wrap_lexems [254, 255] = some (some 128) ∧
    255 ∈ pattern_bytes wrap_lexems ∧
    (index_mapping false wrap_lexems).map (fun m => m.getD 255 0) = some 0 ∧
    (pattern_bytes wrap_lexems).toFinset.card = 256 ∧
    max_extent false wrap_lexems = some 256 ∧
    (make_nd_map false wrap_lexems).bind
      (fun m => lexem_index false wrap_lexems m.stride [254, 255]) = some 255 ∧
    (make_nd_map false wrap_lexems).bind
      (fun m => lexem_index false wrap_lexems m.stride [254]) = some 255 ∧
    (make_nd_map false wrap_lexems).map (fun m => m.data.get 255) = some (some 128) := by
  have hp := wrap_lexems_in_range
  have hsym : get_char_index_abs wrap_lexems 255 = 0 := by
    rw [wrap_symbol wrap_lexems 254 (by omega) wrap_lexems_bytes]; rfl
  have hstride := wrap_stride wrap_lexems 254 (by omega) wrap_lexems_bytes wrap_lexems_max_len
  have hl2 : [254, 255].length ≤ (make_nd_map_abs wrap_lexems).stride.length := by
    rw [hstride]; decide
  have hl1 : [254].length ≤ (make_nd_map_abs wrap_lexems).stride.length := by
    rw [hstride]; decide
  have h7 : lexem_index false wrap_lexems (make_nd_map_abs wrap_lexems).stride [254, 255] =
      some 255 := by
    rw [lexem_index_refines false wrap_lexems hp (make_nd_map_abs wrap_lexems).stride [254, 255]
      (bytes_in_range_unsigned _ (by decide)) hl2, wrap_lexems_coordinates.1]
  have h8 : lexem_index false wrap_lexems (make_nd_map_abs wrap_lexems).stride [254] =
      some 255 := by
    rw [lexem_index_refines false wrap_lexems hp (make_nd_map_abs wrap_lexems).stride [254]
      (bytes_in_range_unsigned _ (by decide)) hl1, wrap_lexems_coordinates.2]
  refine ⟨?_, ?_, ?_, ?_, wrap_lexems_card, ?_, ?_, ?_, ?_⟩
  · rw [get_char_index_refines false wrap_lexems hp 255 (by rw [char_to_size_unsigned]; omega),
      hsym]
  · rw [match_refines false wrap_lexems hp [254, 255]
      (bytes_in_range_take false _ _ (bytes_in_range_unsigned _ (by decide))), wrap_lexems_match_abs]
  · rw [wrap_lexems_bytes]; simp
  · rw [index_mapping_refines false wrap_lexems hp, Option.map_some',
      wrap_index_mapping wrap_lexems 254 (by omega) wrap_lexems_bytes,
      wrap_mapping_getD 255 255 (by omega), if_neg (lt_irrefl _)]
  · rw [max_extent_refines false wrap_lexems hp,
      wrap_extent wrap_lexems 254 (by omega) wrap_lexems_bytes]
  · rw [make_nd_map_refines false wrap_lexems hp, Option.some_bind]
    exact h7
  · rw [make_nd_map_refines false wrap_lexems hp, Option.some_bind]
    exact h8
  · rw [make_nd_map_refines false wrap_lexems hp, Option.map_some', wrap_lexems_cell]

/-- The pattern set over all 256 byte values is not built where `char` is
signed. -/
theorem wrap_lexems_signed :
    index_mapping true wrap_lexems = none ∧ (make_nd_map true wrap_lexems).isSome = false := by
  constructor
  · cases h : index_mapping true wrap_lexems with
    | none => rfl
    | some m => exact absurd (index_mapping_defined true wrap_lexems m h) wrap_lexems_not_in_range
  · cases h : make_nd_map true wrap_lexems with
    | none => rfl
    | some m =>
      exact absurd (make_nd_map_defined true wrap_lexems m h).1 wrap_lexems_not_in_range

theorem high_byte_lexems_mapping : index_mapping true high_byte_lexems = none := by decide!

theorem high_byte_lexems_extent : max_extent true high_byte_lexems = none := by decide!

theorem high_byte_lexems_table : (make_nd_map true high_byte_lexems).isSome = false := by
  decide!

theorem high_byte_lexems_match : Switch.match true high_byte_lexems [128] = none := by decide!

/-- C14 (the code at the failing inputs, and the claim where the code is
defined).  Where `char` is signed, a pattern byte from `0x80` makes
`index_mapping` write outside its 256 entries: the set with the one literal
`0x80` is not built, so not every byte set is acceptable.  Where `char` is
unsigned, `wrap_lexems` uses all 256 byte values; byte 255 occurs in its literal
`[254, 255]` and is the 256th distinct byte, yet `index_mapping[255]` is `0`,
the value of `static_cast<unsigned char>(256)`, and `max_extent` is 256 although
`K + 1` is 257.  For an ordered pattern list with at most 255 distinct byte
values, all converting to indices inside `index_mapping`: `index_mapping[b] = 0`
exactly when byte `b` occurs in no pattern; a byte that occurs receives, at its
first occurrence in the scan of the patterns in declaration order, byte by
byte, the number of distinct bytes scanned before it plus one, so the symbols
are `1 .. K` in order of first occurrence; distinct occurring bytes receive
distinct symbols; and `max_extent` is `K + 1`. -/
theorem index_mapping_first_occurrence {K : Type} (char_is_signed : Bool) (lexems : Lexems K) :
    (char_to_size true 128 = 18446744073709551488 ∧
      index_mapping true high_byte_lexems = none ∧ max_extent true high_byte_lexems = none ∧
      (make_nd_map true high_byte_lexems).isSome = false ∧
      Switch.match true high_byte_lexems [128] = none) ∧
    (255 ∈ pattern_bytes wrap_lexems ∧
      (index_mapping false wrap_lexems).map (fun m => m.getD 255 0) = some 0 ∧
      (pattern_bytes wrap_lexems).toFinset.card = 256 ∧
      max_extent false wrap_lexems = some 256 ∧
      index_mapping true wrap_lexems = none) ∧
    (AlphabetFits lexems → PatternsInRange char_is_signed lexems →
      ∃ m, index_mapping char_is_signed lexems = some m ∧
        (∀ b, m.getD b 0 = 0 ↔ b ∉ pattern_bytes lexems) ∧
        (∀ pre rest b, pattern_bytes lexems = pre ++ b :: rest → b ∉ pre →
          m.getD b 0 = pre.toFinset.card + 1) ∧
        (∀ b ∈ pattern_bytes lexems, 1 ≤ m.getD b 0 ∧
          m.getD b 0 ≤ (pattern_bytes lexems).toFinset.card) ∧
        (∀ a ∈ pattern_bytes lexems, ∀ b ∈ pattern_bytes lexems,
          m.getD a 0 = m.getD b 0 → a = b) ∧
        max_extent char_is_signed lexems = some ((pattern_bytes lexems).toFinset.card + 1)) := by
  refine ⟨⟨by decide, high_byte_lexems_mapping, high_byte_lexems_extent, high_byte_lexems_table,
      high_byte_lexems_match⟩,
    ⟨wrap_lexems_unsigned.2.2.1, wrap_lexems_unsigned.2.2.2.1, wrap_lexems_unsigned.2.2.2.2.1,
      wrap_lexems_unsigned.2.2.2.2.2.1, wrap_lexems_signed.1⟩, ?_⟩
  intro hfit hp
  obtain ⟨h1, h2, h3, h4, h5⟩ := index_mapping_first_occurrence_abs lexems hfit
  refine ⟨index_mapping_abs lexems, index_mapping_refines char_is_signed lexems hp,
    h1, h2, h3, h4, ?_⟩
  rw [max_extent_refines char_is_signed lexems hp, h5]

/-- C14 witness: in the operator set `>>`, `>`, where `char` is signed, the
byte `>` is the only byte; the alphabet map is as stated and the arity is 2. -/
theorem index_mapping_first_occurrence_witness :
    ∃ m, index_mapping true shift_lexems = some m ∧
      (∀ b, m.getD b 0 = 0 ↔ b ∉ pattern_bytes shift_lexems) ∧
      (∀ pre rest b, pattern_bytes shift_lexems = pre ++ b :: rest → b ∉ pre →
        m.getD b 0 = pre.toFinset.card + 1) ∧
      (∀ b ∈ pattern_bytes shift_lexems, 1 ≤ m.getD b 0 ∧
        m.getD b 0 ≤ (pattern_bytes shift_lexems).toFinset.card) ∧
      (∀ a ∈ pattern_bytes shift_lexems, ∀ b ∈ pattern_bytes shift_lexems,
        m.getD a 0 = m.getD b 0 → a = b) ∧
      max_extent true shift_lexems = some ((pattern_bytes shift_lexems).toFinset.card + 1) :=
  (index_mapping_first_occurrence true shift_lexems).2.2 (by decide) (by decide)

end dark

namespace dark.detail

end dark.detail

namespace dark

open detail

end dark

namespace dark.detail.utf8

theorem and_mask (x n m : Nat) (hm : m = 2 ^ n - 1) : x &&& m = x % 2 ^ n := by
  rw [hm]; exact Nat.and_pow_two_sub_one_eq_mod x n

theorem or_low (i a b c : Nat) (hc : c = 2 ^ i * a) (hb : b < 2 ^ i) : c ||| b = c + b := by
  rw [hc]; exact (Nat.mul_add_lt_is_or hb a).symm

theorem lead_two (x : Nat) (hx : x < 32) : 0xC0 ||| x = 192 + x :=
  or_low 6 3 x 192 (by norm_num) (by norm_num; omega)

theorem lead_three (x : Nat) (hx : x < 16) : 0xE0 ||| x = 224 + x :=
  or_low 5 7 x 224 (by norm_num) (by norm_num; omega)

theorem lead_four (x : Nat) (hx : x < 8) : 0xF0 ||| x = 240 + x :=
  or_low 4 15 x 240 (by norm_num) (by norm_num; omega)

theorem continuation (x : Nat) (hx : x < 64) : 0x80 ||| x = 128 + x :=
  or_low 7 1 x 128 (by norm_num) (by norm_num; omega)

/-- The encoding in arithmetic form. -/
theorem utf8_encode_eq (cp : Nat) (h : cp ≤ 0x10FFFF) :
    utf8_encode cp =
      if cp < 0x80 then [cp]
      else if cp < 0x800 then [192 + cp / 64, 128 + cp % 64]
      else if cp < 0x10000 then [224 + cp / 4096, 128 + cp / 64 % 64, 128 + cp % 64]
      else [240 + cp / 262144, 128 + cp / 4096 % 64, 128 + cp / 64 % 64, 128 + cp % 64] := by
  unfold utf8_encode
  simp only [Nat.shiftRight_eq_div_pow, and_mask _ 6 0x3f (by norm_num)]
  norm_num only
  split
  · rfl
  · split
    · rw [lead_two _ (by omega), continuation _ (by omega)]
    · split
      · rw [lead_three _ (by omega), continuation _ (by omega), continuation _ (by omega)]
      · rw [lead_four _ (by omega), continuation _ (by omega), continuation _ (by omega),
          continuation _ (by omega)]

/-- One step of the decoding loop: six more bits from a continuation byte. -/
theorem decode_step (sg : Bool) (acc x : Nat) (hacc : acc < 2 ^ 26) (hx : x < 64) :
    ((acc <<< 6) % 2 ^ 32) ||| (char_to_char32 sg (128 + x) &&& 0x3f) = acc * 64 + x := by
  have h1 : char_to_char32 sg (128 + x) &&& 0x3f = x := by
    rw [and_mask _ 6 0x3f (by norm_num)]
    unfold char_to_char32
    split <;> omega
  rw [h1, Nat.shiftLeft_eq]
  have h2 : acc * 2 ^ 6 % 2 ^ 32 = 2 ^ 6 * acc := by
    rw [Nat.mod_eq_of_lt (by omega)]; ring
  rw [h2]
  rw [← Nat.mul_add_lt_is_or (by omega) acc]
  omega

theorem get_length_of_byte (b : Nat) (hb : b < 256) :
    get_length b = if b < 192 then 1 else if b < 224 then 2 else if b < 240 then 3 else 4 := by
  unfold get_length
  rw [Nat.mod_eq_of_lt hb, Nat.shiftRight_eq_div_pow, show (2 : Nat) ^ 4 = 16 by norm_num]
  have h16 : b / 16 < 16 := by omega
  interval_cases h : b / 16 <;> simp only [lookup, List.getD_cons_zero, List.getD_cons_succ] <;>
    split_ifs <;> omega

theorem lead_mask_two (sg : Bool) (x : Nat) (hx : x < 32) :
    char_to_char32 sg (192 + x) &&& 0x1f = x := by
  rw [and_mask _ 5 0x1f (by norm_num)]
  unfold char_to_char32
  split <;> omega

theorem lead_mask_three (sg : Bool) (x : Nat) (hx : x < 16) :
    char_to_char32 sg (224 + x) &&& 0x0f = x := by
  rw [and_mask _ 4 0x0f (by norm_num)]
  unfold char_to_char32
  split <;> omega

theorem lead_mask_four (sg : Bool) (x : Nat) (hx : x < 8) :
    char_to_char32 sg (240 + x) &&& 0x07 = x := by
  rw [and_mask _ 3 0x07 (by norm_num)]
  unfold char_to_char32
  split <;> omega

/-- C20: for every code point `cp ≤ 0x10FFFF` with standard UTF-8 encoding
`enc(cp)` and every byte string `rest`, whether `char` is signed or not,
`to_utf32(enc(cp) ++ rest)` is `(cp, |enc(cp)|)`; `get_length` of the first
byte of `enc(cp)` is `|enc(cp)|`; and `to_utf32` of the empty string is
`(0, 0)`. -/
theorem to_utf32_round_trip (char_is_signed : Bool) (cp : Nat) (rest : List Nat)
    (h : cp ≤ 0x10FFFF) :
    to_utf32 char_is_signed (utf8_encode cp ++ rest) = (cp, (utf8_encode cp).length) ∧
    get_length ((utf8_encode cp).headD 0) = (utf8_encode cp).length ∧
    to_utf32 char_is_signed [] = (0, 0) := by
  rw [utf8_encode_eq cp h]
  refine ⟨?_, ?_, rfl⟩
  · split
    · rename_i h1
      have hg : get_length cp = 1 := by
        rw [get_length_of_byte cp (by omega)]; split_ifs <;> first | rfl | omega
      simp only [to_utf32, List.cons_append, List.nil_append, hg, List.length_cons,
        List.length_nil]
      simp [char_to_char32]
      omega
    · rename_i h1
      split
      · rename_i h2
        have hg : get_length (192 + cp / 64) = 2 := by
          rw [get_length_of_byte _ (by omega)]; split_ifs <;> first | rfl | omega
        simp only [to_utf32, List.cons_append, List.nil_append, hg, List.length_cons,
          List.length_nil, show List.range' 1 (2 - 1) = [1] from rfl, List.foldl_cons,
          List.foldl_nil, List.getD_cons_succ, List.getD_cons_zero]
        rw [lead_mask_two char_is_signed (cp / 64) (by omega),
          decode_step char_is_signed (cp / 64) (cp % 64) (by norm_num; omega) (by omega)]
        simp only [Prod.mk.injEq, and_true]
        omega
      · rename_i h2
        split
        · rename_i h3
          have hg : get_length (224 + cp / 4096) = 3 := by
            rw [get_length_of_byte _ (by omega)]; split_ifs <;> first | rfl | omega
          simp only [to_utf32, List.cons_append, List.nil_append, hg, List.length_cons,
            List.length_nil, show List.range' 1 (3 - 1) = [1, 2] from rfl, List.foldl_cons,
            List.foldl_nil, List.getD_cons_succ, List.getD_cons_zero]
          rw [lead_mask_three char_is_signed (cp / 4096) (by omega),
            decode_step char_is_signed (cp / 4096) (cp / 64 % 64) (by norm_num; omega)
              (by omega),
            decode_step char_is_signed (cp / 4096 * 64 + cp / 64 % 64) (cp % 64)
              (by norm_num; omega) (by omega)]
          simp only [Prod.mk.injEq, and_true]
          omega
        · rename_i h3
          have hg : get_length (240 + cp / 262144) = 4 := by
            rw [get_length_of_byte _ (by omega)]; split_ifs <;> first | rfl | omega
          simp only [to_utf32, List.cons_append, List.nil_append, hg, List.length_cons,
            List.length_nil, show List.range' 1 (4 - 1) = [1, 2, 3] from rfl, List.foldl_cons,
            List.foldl_nil, List.getD_cons_succ, List.getD_cons_zero]
          rw [lead_mask_four char_is_signed (cp / 262144) (by omega),
            decode_step char_is_signed (cp / 262144) (cp / 4096 % 64) (by norm_num; omega)
              (by omega),
            decode_step char_is_signed (cp / 262144 * 64 + cp / 4096 % 64) (cp / 64 % 64)
              (by norm_num; omega) (by omega),
            decode_step char_is_signed
              ((cp / 262144 * 64 + cp / 4096 % 64) * 64 + cp / 64 % 64) (cp % 64)
              (by norm_num; omega) (by omega)]
          simp only [Prod.mk.injEq, and_true]
          omega
  · split
    · simp only [List.headD_cons, List.length_cons, List.length_nil]
      rw [get_length_of_byte cp (by omega)]; split_ifs <;> first | rfl | omega
    · split
      · simp only [List.headD_cons, List.length_cons, List.length_nil]
        rw [get_length_of_byte _ (by omega)]; split_ifs <;> first | rfl | omega
      · split
        · simp only [List.headD_cons, List.length_cons, List.length_nil]
          rw [get_length_of_byte _ (by omega)]; split_ifs <;> first | rfl | omega
        · simp only [List.headD_cons, List.length_cons, List.length_nil]
          rw [get_length_of_byte _ (by omega)]; split_ifs <;> first | rfl | omega

/-- C20 witness: the euro sign `U+20AC` is encoded `E2 82 AC`, and decoding
these bytes followed by `!` gives back `(0x20AC, 3)`. -/
theorem to_utf32_round_trip_witness :
    utf8_encode 0x24 = [0x24] ∧ utf8_encode 0xA3 = [0xC2, 0xA3] ∧
    utf8_encode 0x1F600 = [0xF0, 0x9F, 0x98, 0x80] ∧
    utf8_encode 0x20AC = [0xE2, 0x82, 0xAC] ∧
    (to_utf32 true ([0xE2, 0x82, 0xAC] ++ [33]) = (0x20AC, 3) ∧
      get_length (([0xE2, 0x82, 0xAC] : List Nat).headD 0) = 3 ∧ to_utf32 true [] = (0, 0)) := by
  have he : utf8_encode 0x20AC = [0xE2, 0x82, 0xAC] := by decide
  refine ⟨by decide, by decide, by decide, he, ?_⟩
  have := to_utf32_round_trip true 0x20AC [33] (by decide)
  rw [he] at this
  exact this

end dark.detail.utf8
